import Mathlib

/-!
Sparse matrix engine (`algebra::Matrix<T,O>`): shallow embedding and verification.

The element type `T` is instantiated at the integers (exact arithmetic).
`std::size_t` indices and counters are natural numbers: wrap-around is not
modelled (the only decrement, `m_nnz--`, is guarded by `m_nnz == 0`, and the
increments `idx + 1`, `n() + 1` wrap only at the largest `std::size_t`).

`std::map<key_type,T,Compare>` is embedded as the list of its entries in
iteration order.  Every map operation below is written against the comparator
only, as the container does.  A `std::map` is always strictly increasing for its
comparator; that representation invariant is the predicate `map_sorted`.
Iterators into a container are embedded as positions (offsets from `begin()`).

`assert` failures and reads the source leaves undefined (a vector index out of
range, an iterator moved before the beginning of its container, `end()`
dereferenced) make the embedded operation return `none`.  One search starts from
an iterator that may be past the end of its vector, `m_inner.cbegin() + check_point`
in the cross-orientation extraction; nothing is read through it, and the search
is embedded with the result the library loop gives (`find_if_from`).  A reference
returned to a local variable is embedded as such (`Returned.zerovalue`).
Parallel execution policies are embedded by their sequential semantics.
-/

namespace algebra

/-! ## matrix_types_def.hpp -/

/-- Enumeration `StorageOrder`. -/
inductive StorageOrder where
  | RowWise
  | ColumnWise
  deriving DecidableEq, Repr

/-- Type `key_type = std::array<std::size_t,2>`: component 0 is the row, component 1 the column. -/
abbrev key_type := Nat × Nat

/-- Functor `CompOp_ColWise`: column first, row on ties. -/
def CompOp_ColWise (lhs rhs : key_type) : Bool :=
  decide (lhs.2 < rhs.2) || (decide (lhs.2 = rhs.2) && decide (lhs.1 < rhs.1))

/-- Default comparator `std::less<std::array<std::size_t,2>>`: lexicographic, row first. -/
def CompOp_RowWise (lhs rhs : key_type) : Bool :=
  decide (lhs.1 < rhs.1) || (decide (lhs.1 = rhs.1) && decide (lhs.2 < rhs.2))

/-- Comparator selected by `MatrixUncompressed<T,O>` through `std::conditional`. -/
def key_comp (O : StorageOrder) (lhs rhs : key_type) : Bool :=
  if O = StorageOrder.RowWise then CompOp_RowWise lhs rhs else CompOp_ColWise lhs rhs

/-- Key equivalence used by every lookup of `std::map`: neither key precedes the other. -/
def key_equiv (O : StorageOrder) (a b : key_type) : Bool :=
  !key_comp O a b && !key_comp O b a

/-- Type `MatrixUncompressed<T,O>`: the entries of the map in iteration order. -/
abbrev MatrixUncompressed := List (key_type × Int)

/-! ## Standard-library operations used by the class -/

/-- Position returned by `std::find_if` over a whole range: offset of the first element
satisfying `p`, the length of the range (`end()`) when there is none. -/
def find_if_pos {α : Type} (p : α → Bool) : List α → Nat
  | [] => 0
  | x :: xs => if p x then 0 else find_if_pos p xs + 1

/-- Position returned by `std::find_if(v.cbegin() + first, v.cend(), p)` on a vector `v`.
When `first` is past the end, `[v.cbegin() + first, v.cend())` is not a range of the vector;
the loop of the library over random-access iterators is driven by the distance
`last - first`, which is then negative: it makes no iteration, reads no element and returns
`last`. -/
def find_if_from {α : Type} (p : α → Bool) (xs : List α) (first : Nat) : Nat :=
  if first ≤ xs.length then first + find_if_pos p (xs.drop first) else xs.length

/-- Position returned by `std::find` for a value. -/
def find_pos (x : Nat) (xs : List Nat) : Nat :=
  find_if_pos (fun y => decide (y = x)) xs

/-- Sub-range `[lo, hi)` of a vector; `none` when the two iterators do not delimit a range
inside the vector. -/
def slice? {α : Type} (xs : List α) (lo hi : Nat) : Option (List α) :=
  if lo ≤ hi ∧ hi ≤ xs.length then some ((xs.drop lo).take (hi - lo)) else none

/-- Loop of `std::lower_bound` on a random-access range (halving of the remaining length).
`fuel` bounds the number of iterations; the length strictly decreases at each one. -/
def lower_bound_loop (xs : List Nat) (val : Nat) : Nat → Nat → Nat → Nat
  | 0, first, _ => first
  | fuel + 1, first, len =>
    if 0 < len then
      let half := len / 2
      let middle := first + half
      if xs.getD middle 0 < val then
        lower_bound_loop xs val fuel (middle + 1) (len - half - 1)
      else
        lower_bound_loop xs val fuel first half
    else first

/-- Function `std::lower_bound(first, last, val)` over the whole of `xs`. -/
def vec_lower_bound (xs : List Nat) (val : Nat) : Nat :=
  lower_bound_loop xs val xs.length 0 xs.length

/-- Function `std::binary_search(first, last, val)`: the lower bound is not `last` and
`val` is not below the element found. -/
def binary_search (xs : List Nat) (val : Nat) : Bool :=
  let i := vec_lower_bound xs val
  decide (i ≠ xs.length) && !decide (val < xs.getD i 0)

/-- Method `std::map::contains`. -/
def map_contains (O : StorageOrder) (k : key_type) (mp : MatrixUncompressed) : Bool :=
  mp.any (fun p => key_equiv O p.1 k)

/-- Expression `map.find(k)->second`; `none` when `find` returns `end()`. -/
def map_find (O : StorageOrder) (k : key_type) (mp : MatrixUncompressed) : Option Int :=
  (mp.find? (fun p => key_equiv O p.1 k)).map (fun p => p.2)

/-- Method `std::map::insert`: the entry is placed where the comparator puts it, and
nothing happens when an equivalent key is already stored. -/
def map_insert (O : StorageOrder) (k : key_type) (v : Int) :
    MatrixUncompressed → MatrixUncompressed
  | [] => [(k, v)]
  | p :: rest =>
    if key_comp O k p.1 then (k, v) :: p :: rest
    else if key_comp O p.1 k then p :: map_insert O k v rest
    else p :: rest

/-- Method `std::map::erase(key)`. -/
def map_erase (O : StorageOrder) (k : key_type) (mp : MatrixUncompressed) :
    MatrixUncompressed :=
  mp.filter (fun p => !key_equiv O p.1 k)

/-- Statement `map[k] = v`: `operator[]` value-initialises the entry when the key is
absent, then the referenced value is assigned. -/
def map_assign (O : StorageOrder) (k : key_type) (v : Int) (mp : MatrixUncompressed) :
    MatrixUncompressed :=
  (map_insert O k 0 mp).map (fun p => if key_equiv O p.1 k then (p.1, v) else p)

/-- Expression `map[k]` read as a value, with the map it leaves behind (`operator[]`
inserts a value-initialised entry when the key is absent). -/
def map_subscript (O : StorageOrder) (k : key_type) (mp : MatrixUncompressed) :
    Int × MatrixUncompressed :=
  match map_find O k mp with
  | some v => (v, mp)
  | none => (0, map_insert O k 0 mp)

/-- Method `std::map::upper_bound`: position of the first entry whose key is after `k`. -/
def map_upper_bound (O : StorageOrder) (k : key_type) (mp : MatrixUncompressed) : Nat :=
  find_if_pos (fun p => key_comp O k p.1) mp

/-- Method `std::map::lower_bound`: position of the first entry whose key is not before `k`. -/
def map_lower_bound (O : StorageOrder) (k : key_type) (mp : MatrixUncompressed) : Nat :=
  find_if_pos (fun p => !key_comp O p.1 k) mp

/-- Function `std::distance` between two positions of one container. -/
def distance (first last : Nat) : Int := (last : Int) - (first : Int)

/-! ## matrix.hpp: the class -/

/-- Class `Matrix<T,O>`: the private data members. -/
structure Matrix (O : StorageOrder) where
  m_m : Nat
  m_n : Nat
  m_nnz : Nat
  m_compressed : Bool
  m_mat_uncomp : MatrixUncompressed
  m_val_comp : List Int
  m_inner : List Nat
  m_outer : List Nat
  deriving DecidableEq, Repr

namespace Matrix

variable {O : StorageOrder}

/-- Constructor `Matrix(m, n, compressed)`. -/
def construct (O : StorageOrder) (m n : Nat) (compressed : Bool) : Matrix O :=
  { m_m := m, m_n := n, m_nnz := 0, m_compressed := compressed,
    m_mat_uncomp := [], m_val_comp := [], m_inner := [], m_outer := [] }

/-- Getter `nnz()`. -/
def nnz (M : Matrix O) : Nat := M.m_nnz

/-- Method `clear_buffer`. -/
def clear_buffer (M : Matrix O) : Matrix O :=
  if M.m_compressed then
    { M with m_mat_uncomp := [] }
  else
    { M with m_val_comp := [], m_outer := [], m_inner := [] }

/-- Method `resize`. -/
def resize (M : Matrix O) (m_new n_new : Nat) : Matrix O :=
  { M.clear_buffer with m_m := m_new, m_n := n_new }

/-! ## matrix_get_row_col_imp.hpp: presence checks -/

/-- Method `check_presence_row`. -/
def check_presence_row (M : Matrix O) (idx : Nat) : Option Bool :=
  if idx < M.m_m then
    if O = StorageOrder.RowWise then
      let lb : key_type := (idx, 0)
      let up : key_type := (idx + 1, 0)
      if M.m_compressed then
        match M.m_inner[idx]?, M.m_inner[idx + 1]? with
        | some a, some b => some (decide (a < b))
        | _, _ => none
      else
        some (!(decide (distance (map_upper_bound O lb M.m_mat_uncomp)
                  (map_lower_bound O up M.m_mat_uncomp) = 0))
              || map_contains O lb M.m_mat_uncomp)
    else
      if M.m_compressed then
        some (decide (find_pos idx M.m_outer ≠ M.m_outer.length))
      else
        some (decide (find_if_pos (fun x => decide (x.1.1 = idx)) M.m_mat_uncomp
                ≠ M.m_mat_uncomp.length))
  else none

/-- Method `check_presence_col`. -/
def check_presence_col (M : Matrix O) (idx : Nat) : Option Bool :=
  if idx < M.m_n then
    if O = StorageOrder.RowWise then
      if M.m_compressed then
        some (decide (find_pos idx M.m_outer ≠ M.m_outer.length))
      else
        some (decide (find_if_pos (fun x => decide (x.1.2 = idx)) M.m_mat_uncomp
                ≠ M.m_mat_uncomp.length))
    else
      let lb : key_type := (0, idx)
      let up : key_type := (0, idx + 1)
      if M.m_compressed then
        match M.m_inner[idx]?, M.m_inner[idx + 1]? with
        | some a, some b => some (decide (a < b))
        | _, _ => none
      else
        some (!(decide (distance (map_upper_bound O lb M.m_mat_uncomp)
                  (map_lower_bound O up M.m_mat_uncomp) = 0))
              || map_contains O lb M.m_mat_uncomp)
  else none

/-- Method `check_presence`. -/
def check_presence (M : Matrix O) (i j : Nat) : Option Bool :=
  if i < M.m_m ∧ j < M.m_n then
    match M.check_presence_row i with
    | none => none
    | some false => some false
    | some true =>
      match M.check_presence_col j with
      | none => none
      | some false => some false
      | some true =>
        if !M.m_compressed then
          some (map_contains O (i, j) M.m_mat_uncomp)
        else if O = StorageOrder.RowWise then
          match M.m_inner[i]?, M.m_inner[i + 1]? with
          | some a, some b => (slice? M.m_outer a b).map (fun s => binary_search s j)
          | _, _ => none
        else
          match M.m_inner[j]?, M.m_inner[j + 1]? with
          | some a, some b => (slice? M.m_outer a b).map (fun s => binary_search s i)
          | _, _ => none
  else none

/-! ## matrix_get_row_col_imp.hpp: line extraction -/

/-- Loop `std::for_each(start, sentinel, ...)` of the extraction methods over map entries:
`other` selects the key component pushed into the index vector. -/
def push_entries (other : key_type → Nat) (r : MatrixUncompressed) : List Nat × List Int :=
  (r.map (fun p => other p.1), r.map (fun p => p.2))

/-- Calls `std::ranges::copy_if(m_mat_uncomp, std::inserter(temp_map, temp_map.begin()), pred)`:
the selected entries are inserted one by one into an empty map of the same ordering. -/
def copy_if_map (O : StorageOrder) (pred : key_type × Int → Bool) (mp : MatrixUncompressed) :
    MatrixUncompressed :=
  (mp.filter pred).foldl (fun acc p => map_insert O p.1 p.2 acc) []

/-- The `while (val.size() < n)` loop of the cross-orientation compressed extraction.
`k` is the scanning position in `m_outer`, `cp` the check point added to `m_inner.cbegin()`
(it may pass the end of `m_inner`, see `find_if_from`), `idxs` and `vals` the two output
vectors.  The iterator `col_ptr - 1` does not exist when `col_ptr` is `m_inner.cbegin()`.
`fuel` bounds the number of iterations; the read `m_outer[k]` leaves the vector after
`m_outer.size()` iterations. -/
def scan_loop (M : Matrix O) (idx n : Nat) :
    Nat → Nat → Nat → List Nat → List Int → Option (List Nat × List Int)
  | 0, _, _, idxs, vals => if vals.length < n then none else some (idxs, vals)
  | fuel + 1, k, cp, idxs, vals =>
    if vals.length < n then
      match M.m_outer[k]? with
      | none => none
      | some o =>
        if o = idx then
          match M.m_val_comp[k]? with
          | none => none
          | some v =>
            let col_ptr := find_if_from (fun elem => decide (elem > k)) M.m_inner cp
            if 0 < col_ptr then
              let line := col_ptr - 1
              scan_loop M idx n fuel (k + 1) (cp + line) (idxs ++ [line]) (vals ++ [v])
            else none
        else scan_loop M idx n fuel (k + 1) cp idxs vals
    else some (idxs, vals)

/-- Cross-orientation compressed extraction: `std::count` then the scanning loop. -/
def scan_compressed (M : Matrix O) (idx : Nat) : Option (List Nat × List Int) :=
  let n := M.m_outer.count idx
  scan_loop M idx n (M.m_outer.length + 1) 0 0 [] []

/-- Method `get_row`. -/
def get_row (M : Matrix O) (idx : Nat) : Option (List Nat × List Int) :=
  if O = StorageOrder.RowWise then
    if M.m_compressed then
      match M.m_inner[idx]?, M.m_inner[idx + 1]? with
      | some a, some b =>
        match slice? M.m_outer a b, slice? M.m_val_comp a b with
        | some cols, some vals => some (cols, vals)
        | _, _ => none
      | _, _ => none
    else
      if idx = 0 then
        let ub : key_type := (idx + 1, 0)
        let start_r := 0
        let sentinel_r := map_lower_bound O ub M.m_mat_uncomp
        (slice? M.m_mat_uncomp start_r sentinel_r).map (push_entries (fun k => k.2))
      else
        let lb : key_type := (idx - 1, M.m_n + 1)
        let ub : key_type := (idx + 1, 0)
        let start_r := map_upper_bound O lb M.m_mat_uncomp
        let sentinel_r := map_lower_bound O ub M.m_mat_uncomp
        (slice? M.m_mat_uncomp start_r sentinel_r).map (push_entries (fun k => k.2))
  else
    if M.m_compressed then
      M.scan_compressed idx
    else
      let temp_map := copy_if_map O (fun p => decide (p.1.1 = idx)) M.m_mat_uncomp
      some (push_entries (fun k => k.2) temp_map)

/-- Method `get_col`. -/
def get_col (M : Matrix O) (idx : Nat) : Option (List Nat × List Int) :=
  if O = StorageOrder.ColumnWise then
    if M.m_compressed then
      match M.m_inner[idx]?, M.m_inner[idx + 1]? with
      | some a, some b =>
        match slice? M.m_outer a b, slice? M.m_val_comp a b with
        | some rows, some vals => some (rows, vals)
        | _, _ => none
      | _, _ => none
    else
      if idx = 0 then
        let ub : key_type := (0, idx + 1)
        let start_r := 0
        let sentinel_r := map_lower_bound O ub M.m_mat_uncomp
        (slice? M.m_mat_uncomp start_r sentinel_r).map (push_entries (fun k => k.1))
      else
        let lb : key_type := (M.m_m + 1, idx - 1)
        let ub : key_type := (0, idx + 1)
        let start_r := map_upper_bound O lb M.m_mat_uncomp
        let sentinel_r := map_lower_bound O ub M.m_mat_uncomp
        (slice? M.m_mat_uncomp start_r sentinel_r).map (push_entries (fun k => k.1))
  else
    if M.m_compressed then
      M.scan_compressed idx
    else
      let temp_map := copy_if_map O (fun p => decide (p.1.2 = idx)) M.m_mat_uncomp
      some (push_entries (fun k => k.1) temp_map)

/-! ## matrix_imp.hpp: conversions and call operators -/

/-- What the reference `T&` returned by the write access designates once the call has
returned. -/
inductive Returned where
  /-- The local variable `T zerovalue = 0` of the call (`return zerovalue;`): its lifetime
  ends with the call, so the reference is dangling and no value can be read through it. -/
  | zerovalue : Returned
  /-- An element of the active store (`m_mat_uncomp[key_elem]` or `m_val_comp[index]`),
  which holds `value`. -/
  | stored (value : Int) : Returned
  deriving DecidableEq, Repr

/-- Method `compress`. -/
def compress (M : Matrix O) : Matrix O :=
  if !M.m_compressed then
    let val := M.m_val_comp ++ M.m_mat_uncomp.map (fun p => p.2)
    if O = StorageOrder.RowWise then
      let outer := M.m_outer ++ M.m_mat_uncomp.map (fun p => p.1.2)
      let inner := (M.m_inner ++ [0]) ++
        (List.range M.m_m).map (fun i => M.m_mat_uncomp.countP (fun p => decide (p.1.1 ≤ i)))
      ({ M with m_val_comp := val, m_outer := outer, m_inner := inner,
                m_compressed := true }).clear_buffer
    else
      let outer := M.m_outer ++ M.m_mat_uncomp.map (fun p => p.1.1)
      let inner := (M.m_inner ++ [0]) ++
        (List.range M.m_n).map (fun i => M.m_mat_uncomp.countP (fun p => decide (p.1.2 ≤ i)))
      ({ M with m_val_comp := val, m_outer := outer, m_inner := inner,
                m_compressed := true }).clear_buffer
  else M

/-- Body of the `std::for_each` of `uncompress` for line `i`: position `j` of the compressed
vectors is turned back into a key and inserted into the map. -/
def uncompress_insert (M : Matrix O) (i : Nat) (mp : MatrixUncompressed) (j : Nat) :
    Option MatrixUncompressed :=
  match M.m_outer[j]?, M.m_val_comp[j]? with
  | some o, some v =>
    let key_j : key_type := if O = StorageOrder.RowWise then (i, o) else (o, i)
    some (map_insert O key_j v mp)
  | _, _ => none

/-- Body of the outer loop of `uncompress` for line `i`. -/
def uncompress_line (M : Matrix O) (mp : MatrixUncompressed) (i : Nat) :
    Option MatrixUncompressed :=
  match M.m_inner[i]?, M.m_inner[i + 1]? with
  | some a, some b =>
    if a < b then
      (List.range' a (b - a)).foldlM (M.uncompress_insert i) mp
    else some mp
  | _, _ => none

/-- Method `uncompress`. -/
def uncompress (M : Matrix O) : Option (Matrix O) :=
  if M.m_compressed then
    let dim := if O = StorageOrder.RowWise then M.m_m else M.m_n
    match (List.range dim).foldlM M.uncompress_line M.m_mat_uncomp with
    | some mp => some ({ M with m_mat_uncomp := mp, m_compressed := false }).clear_buffer
    | none => none
  else some M

/-- Const call operator `operator()(i, j) const`: the read access. -/
def Read (M : Matrix O) (i j : Nat) : Option Int :=
  match M.check_presence i j with
  | none => none
  | some false => some 0
  | some true =>
    if !M.m_compressed then
      map_find O (i, j) M.m_mat_uncomp
    else if O = StorageOrder.RowWise then
      match M.m_inner[i]?, M.m_inner[i + 1]? with
      | some a, some b =>
        match slice? M.m_outer a b with
        | some s => M.m_val_comp[a + find_pos j s]?
        | none => none
      | _, _ => none
    else
      match M.m_inner[j]?, M.m_inner[j + 1]? with
      | some a, some b =>
        match slice? M.m_outer a b with
        | some s => M.m_val_comp[a + find_pos i s]?
        | none => none
      | _, _ => none

/-- Assignment `m_val_comp[index] = newvalue` followed by `return m_val_comp[index]`. -/
def assign_value (M : Matrix O) (index : Nat) (newvalue : Int) :
    Option (Returned × Matrix O) :=
  if index < M.m_val_comp.length then
    some (Returned.stored newvalue, { M with m_val_comp := M.m_val_comp.set index newvalue })
  else none

/-- Non-const call operator `operator()(i, j, newvalue)`: the write access.  The result is
what the returned `T&` designates and the matrix after the call.  The three statements
`return zerovalue;` return a reference to the local variable of the call. -/
def Write (M : Matrix O) (i j : Nat) (newvalue : Int) : Option (Returned × Matrix O) :=
  if i < M.m_m ∧ j < M.m_n then
    match M.check_presence i j with
    | none => none
    | some check_ij =>
      let zerovalue : Int := 0
      let new_zero : Bool := decide (newvalue = zerovalue)
      if new_zero && decide (M.m_nnz = 0) then some (Returned.zerovalue, M)
      else if !M.m_compressed then
        let key_elem : key_type := (i, j)
        if new_zero then
          some (Returned.zerovalue,
            { M with m_nnz := M.m_nnz - 1,
                     m_mat_uncomp := map_erase O key_elem M.m_mat_uncomp })
        else
          let M1 : Matrix O :=
            if check_ij then
              { M with m_mat_uncomp := map_assign O key_elem newvalue M.m_mat_uncomp }
            else
              { M with m_nnz := M.m_nnz + 1,
                       m_mat_uncomp := map_insert O key_elem newvalue M.m_mat_uncomp }
          let r := map_subscript O key_elem M1.m_mat_uncomp
          some (Returned.stored r.1, { M1 with m_mat_uncomp := r.2 })
      else if M.m_compressed && (!check_ij || new_zero) then some (Returned.zerovalue, M)
      else if O = StorageOrder.RowWise then
        match M.m_inner[i]?, M.m_inner[i + 1]? with
        | some a, some b =>
          match slice? M.m_outer a b with
          | some s => M.assign_value (a + find_pos j s) newvalue
          | none => none
        | _, _ => none
      else
        match M.m_inner[j]?, M.m_inner[j + 1]? with
        | some a, some b =>
          match slice? M.m_outer a b with
          | some s => M.assign_value (a + find_pos i s) newvalue
          | none => none
        | _, _ => none
  else none

/-- A sequence of write accesses `(i, j, newvalue)` applied in order; `none` as soon as
one of them fails. -/
def Writes (M : Matrix O) : List (Nat × Nat × Int) → Option (Matrix O)
  | [] => some M
  | w :: ws =>
    match M.Write w.1 w.2.1 w.2.2 with
    | some r => Writes r.2 ws
    | none => none

/-! ## matrix.hpp: products -/

/-- Loop `for (j = 0; j < line.first.size(); ++j) temp += line.second[j] * x(line.first[j])`
of the row-wise products; `x` is the access to the right operand (`v[c]` for a dense vector,
`v(c,0)` for a one-column matrix). -/
def dot_loop (x : Nat → Option Int) : List Nat → List Int → Int → Option Int
  | [], _, temp => some temp
  | _ :: _, [], _ => none
  | c :: cs, a :: as, temp =>
    match x c with
    | some y => dot_loop x cs as (temp + a * y)
    | none => none

/-- Loop `for (j = 0; j < col.first.size(); ++j) results[col.first[j]] += col.second[j] * y`
of the column-wise products; `y` is the right-operand element of the current column, read
inside the loop. -/
def scatter_loop (y : Option Int) : List Nat → List Int → List Int → Option (List Int)
  | [], _, results => some results
  | _ :: _, [], _ => none
  | r :: rs, a :: as, results =>
    match y with
    | none => none
    | some yv =>
      if r < results.length then
        scatter_loop y rs as (results.set r (results.getD r 0 + a * yv))
      else none

/-- Friend `operator*(const Matrix<T,O>&, const std::vector<T>&)`. -/
def operator_mul_vector (M : Matrix O) (v : List Int) : Option (List Int) :=
  if v.length = M.m_n then
    if O = StorageOrder.RowWise then
      (List.range M.m_m).foldlM (fun results i =>
        match M.get_row i with
        | none => none
        | some row_i =>
          match dot_loop (fun c => v[c]?) row_i.1 row_i.2 0 with
          | none => none
          | some temp => some (results ++ [temp])) []
    else
      (List.range M.m_n).foldlM (fun results i =>
        match M.get_col i with
        | none => none
        | some col_i => scatter_loop v[i]? col_i.1 col_i.2 results)
        (List.replicate M.m_m (0 : Int))
  else none

/-- Loop `for (it = temp.begin(); it != temp.end(); ++it) results(distance(begin, it), 0, *it)`:
`k` is the position of the iterator. -/
def write_column (k : Nat) : List Int → Matrix O → Option (Matrix O)
  | [], results => some results
  | t :: ts, results =>
    match results.Write k 0 t with
    | some r => write_column (k + 1) ts r.2
    | none => none

/-- Loop of `std::set_intersection` on two ranges; `fuel` bounds the number of steps (each
step advances in at least one of the ranges). -/
def set_intersection_loop : Nat → List Nat → List Nat → List Nat
  | 0, _, _ => []
  | _ + 1, [], _ => []
  | _ + 1, _ :: _, [] => []
  | fuel + 1, a :: as, b :: bs =>
    if a < b then set_intersection_loop fuel as (b :: bs)
    else if b < a then set_intersection_loop fuel (a :: as) bs
    else a :: set_intersection_loop fuel as bs

/-- Function `std::ranges::set_intersection(r1, r2, std::back_inserter(idx))`. -/
def set_intersection (r1 r2 : List Nat) : List Nat :=
  set_intersection_loop (r1.length + r2.length) r1 r2

/-- Call `std::transform_reduce` of the matrix-matrix product: the sum, over the common
indices, of the product of the row value and the column value found under that index. -/
def inner_product (idx : List Nat) (row_i col_j : List Nat × List Int) : Option Int :=
  idx.foldlM (fun acc el =>
    match row_i.2[find_pos el row_i.1]?, col_j.2[find_pos el col_j.1]? with
    | some a, some b => some (acc + a * b)
    | _, _ => none) 0

/-- Friend `operator*(const Matrix<T,O>&, const Matrix<T,O1>&)`. -/
def operator_mul_matrix {O1 : StorageOrder} (M : Matrix O) (v : Matrix O1) :
    Option (Matrix O) :=
  if M.m_n = v.m_m then
    let vector_prod : Bool := decide (v.m_n = 1)
    let results : Matrix O := construct O M.m_m v.m_n false
    if vector_prod then
      match v.get_col 0 with
      | none => none
      | some _ =>
        if O = StorageOrder.RowWise then
          (List.range M.m_m).foldlM (fun res i =>
            match M.get_row i with
            | none => none
            | some row_i =>
              match dot_loop (fun c => v.Read c 0) row_i.1 row_i.2 0 with
              | none => none
              | some temp => (res.Write i 0 temp).map (fun r => r.2)) results
        else
          match (List.range M.m_n).foldlM (fun (temp : List Int) i =>
              match M.get_col i with
              | none => none
              | some col_i => scatter_loop (v.Read i 0) col_i.1 col_i.2 temp)
              (List.replicate M.m_m (0 : Int)) with
          | none => none
          | some temp => write_column 0 temp results
    else
      (List.range v.m_n).foldlM (fun res j =>
        match v.get_col j with
        | none => none
        | some col_j =>
          (List.range M.m_m).foldlM (fun res i =>
            match M.get_row i with
            | none => none
            | some row_i =>
              let n_idx := row_i.1.countP
                (fun el => decide (find_pos el col_j.1 ≠ col_j.1.length))
              if n_idx ≠ 0 then
                let idx := set_intersection row_i.1 col_j.1
                match inner_product idx row_i col_j with
                | none => none
                | some r => (res.Write i j r).map (fun w => w.2)
              else some res) res) results
  else none

/-! ## matrix_norm_imp.hpp: norms

The norms are computed in `double`, every sum starting from `0.0`.  The sums of absolute
values of the norms One and Infinity are embedded exactly, as integers: they are the sums the
code computes as long as they stay among the integers `double` represents exactly (up to
`2 ^ 53`).  The sum of squares of the Frobenius norm is embedded with the rounding of
`double` (`to_double`): squares are the first values to leave that range. -/

/-- Number of low-order binary digits of `n` that do not fit in the 53-digit significand of
a `double`; `fuel` bounds the number of halvings. -/
def excess_bits : Nat → Nat → Nat
  | 0, _ => 0
  | fuel + 1, n => if n < 2 ^ 53 then 0 else excess_bits fuel (n / 2) + 1

/-- The `double` given by a conversion or an arithmetic operation whose exact result is the
natural number `n`: `n` rounded to 53 significant binary digits, to nearest, ties to the even
significand.  Magnitudes beyond the range of `double` (from `2 ^ 1024`) are not modelled. -/
def to_double (n : Nat) : Nat :=
  let e := excess_bits n n
  let q := n / 2 ^ e
  let r := n % 2 ^ e
  if 2 * r < 2 ^ e then q * 2 ^ e
  else if 2 ^ e < 2 * r then (q + 1) * 2 ^ e
  else if q % 2 = 0 then q * 2 ^ e
  else (q + 1) * 2 ^ e

/-- Expression `std::pow(std::abs(el), 2)` of the Frobenius norm: the absolute value, an
integer, is converted to `double` and squared in `double`; the result of `std::pow` is taken
to be the correctly rounded square. -/
def pow_abs_2 (el : Int) : Nat := to_double (to_double el.natAbs ^ 2)

/-- Call `std::transform_reduce(first, last, 0.0, std::plus{}, f)` of the Frobenius norm,
with `f` returning `std::pow(std::abs(el), 2)`: the sum is accumulated in `double` from `0.0`
in the order of the range, each addition rounded. -/
def sum_pow_abs_2 (xs : List Int) : Nat :=
  xs.foldl (fun res el => to_double (res + pow_abs_2 el)) 0

/-- Call `std::transform_reduce(first, last, 0.0, std::plus{}, [](auto i){return std::abs(i);})`
of the norms One and Infinity. -/
def sum_abs (xs : List Int) : Int :=
  (xs.map (fun i => (Int.natAbs i : Int))).sum

/-- Call `std::ranges::max(tmp)`: the first largest element; the range must not be empty. -/
def ranges_max : List Int → Option Int
  | [] => none
  | x :: xs => some (xs.foldl (fun result el => if result < el then el else result) x)

/-- Method `norm(NT<NormType::One>)`. -/
def norm_One (M : Matrix O) : Option Int :=
  if M.m_m = 0 ∧ M.m_n = 0 then some 0
  else
    match (List.range M.m_n).foldlM (fun (tmp : List Int) el =>
        match M.get_col el with
        | none => none
        | some row_i => some (tmp ++ [sum_abs row_i.2])) [] with
    | none => none
    | some tmp => ranges_max tmp

/-- Method `norm(NT<NormType::Infinity>)`. -/
def norm_Infinity (M : Matrix O) : Option Int :=
  if M.m_m = 0 ∧ M.m_n = 0 then some 0
  else
    match (List.range M.m_m).foldlM (fun (tmp : List Int) el =>
        match M.get_row el with
        | none => none
        | some col_i => some (tmp ++ [sum_abs col_i.2])) [] with
    | none => none
    | some tmp => ranges_max tmp

/-- Method `norm(NT<NormType::Frobenius>)`, up to the final `std::sqrt`: the value `res` whose
square root is returned (zero for the early return on the matrix without rows and columns,
where zero itself is returned). -/
def norm_Frobenius_res (M : Matrix O) : Int :=
  if M.m_m = 0 ∧ M.m_n = 0 then 0
  else if M.m_compressed then
    (sum_pow_abs_2 M.m_val_comp : Nat)
  else
    (sum_pow_abs_2 (M.m_mat_uncomp.map (fun el => el.2)) : Nat)

end Matrix

/-! ## matrix_reader_imp.hpp: reading a file in Matrix Market format

A file is embedded by its content, the list of its characters, and an input stream by the
list of the characters still to be read.  Numerals are taken to fit the type they are read
into (`int` for the sizes and the indices).  The element type being instantiated at the
integers, `line >> value` is the integer extraction too: of `5.0` it reads `5`. -/

/-- The character `\n`. -/
def newline : Char := Char.ofNat 10

/-- Function `std::isspace` in the default locale: the space and the characters 9 to 13. -/
def isspace (c : Char) : Bool :=
  c = ' ' || (decide (9 ≤ c.toNat) && decide (c.toNat ≤ 13))

/-- Call `file.ignore(n, delim)`: characters are discarded until `n` of them have been, the
end of the stream is reached, or the delimiter has been discarded. -/
def stream_ignore (delim : Char) : Nat → List Char → List Char
  | 0, cs => cs
  | _ + 1, [] => []
  | n + 1, c :: cs => if c = delim then cs else stream_ignore delim n cs

/-- Loop `while (file.peek() == '%') file.ignore(2048, '\n');`.  `fuel` bounds the number
of iterations; each one discards at least the character `%`. -/
def skip_comments : Nat → List Char → List Char
  | 0, cs => cs
  | fuel + 1, cs =>
    match cs with
    | c :: _ => if c = '%' then skip_comments fuel (stream_ignore newline 2048 cs) else cs
    | [] => cs

/-- Characters of a line up to the delimiter, and the stream after the delimiter. -/
def getline_split : List Char → List Char × List Char
  | [] => ([], [])
  | c :: cs =>
    if c = newline then ([], cs)
    else
      let r := getline_split cs
      (c :: r.1, r.2)

/-- Call `std::getline(file, buffer)`: the line read and the stream left; `none` (the stream
converts to `false`) when there is no character left to extract. -/
def getline : List Char → Option (List Char × List Char)
  | [] => none
  | c :: cs => some (getline_split (c :: cs))

/-- Digits accumulated by the numeric extraction: the value read so far, the number of
digits consumed, and the stream at the first character that is not a digit. -/
def read_digits : List Char → Nat → Nat → Nat × Nat × List Char
  | [], acc, k => (acc, k, [])
  | c :: cs, acc, k =>
    if decide (48 ≤ c.toNat) && decide (c.toNat ≤ 57) then
      read_digits cs (10 * acc + (c.toNat - 48)) (k + 1)
    else (acc, k, c :: cs)

/-- Outcome of one formatted extraction `line >> x` of an integer. -/
inductive Extracted where
  /-- A numeral was read: its value and the stream after it. -/
  | value (x : Int) (rest : List Char)
  /-- The conversion failed: zero is stored in `x` and the stream fails. -/
  | failed
  /-- Only white space was left: `x` is not touched and the stream fails. -/
  | no_input
  deriving DecidableEq, Repr

/-- Extraction `line >> x` of an integer from a stream in good state: leading white space is
skipped, then an optional sign and the longest run of decimal digits are read. -/
def extract_int (line : List Char) : Extracted :=
  match line.dropWhile isspace with
  | [] => Extracted.no_input
  | c :: cs =>
    if c = '-' then
      match read_digits cs 0 0 with
      | (_, 0, _) => Extracted.failed
      | (x, _ + 1, rest) => Extracted.value (-(x : Int)) rest
    else if c = '+' then
      match read_digits cs 0 0 with
      | (_, 0, _) => Extracted.failed
      | (x, _ + 1, rest) => Extracted.value (x : Int) rest
    else
      match read_digits (c :: cs) 0 0 with
      | (_, 0, _) => Extracted.failed
      | (x, _ + 1, rest) => Extracted.value (x : Int) rest

/-- Chained extraction `line >> a >> b >> c` of three numbers from the stream of a line, the
first two variables being `int`s initialised to zero.  Once an extraction has not succeeded
the stream fails and the later variables are not touched: for the third variable this is
`none`, and `some 0` is the zero stored by a failed conversion. -/
def extract_three (buffer : List Char) : Int × Int × Option Int :=
  match extract_int buffer with
  | Extracted.value a r1 =>
    match extract_int r1 with
    | Extracted.value b r2 =>
      match extract_int r2 with
      | Extracted.value c _ => (a, b, some c)
      | Extracted.failed => (a, b, some 0)
      | Extracted.no_input => (a, b, none)
    | _ => (a, 0, none)
  | _ => (0, 0, none)

/-- The exceptions `std::runtime_error` thrown by `reader_mmf`, by their messages. -/
inductive ReaderError where
  /-- Message "Error in opening file ...". -/
  | error_in_opening_file
  /-- Message "Not possible to have negative or null dimensions or a negative number of nnz
  elements". -/
  | negative_or_null_dimensions
  /-- Message "Wrong dimensions for an element's indices". -/
  | wrong_indices
  /-- Message "Matrix file incorrectly formatted". -/
  | incorrectly_formatted
  deriving DecidableEq, Repr

/-- Outcome of a piece of the reader: normal completion with a value, an exception, or an
abort (failed assertion, use of a variable that was never given a value). -/
inductive Outcome (α : Type) where
  | ok (a : α)
  | thrown (e : ReaderError)
  | aborted
  deriving DecidableEq, Repr

/-- Local variables of `reader_mmf` that live across the iterations of the reading loop,
with the matrix being filled. -/
structure ReaderState (O : StorageOrder) where
  count : Nat
  sizes_read : Bool
  num_lines : Int
  M : Matrix O
  deriving DecidableEq, Repr

namespace Matrix

variable {O : StorageOrder}

/-- Body of the loop `while (std::getline(file, buffer))` of `reader_mmf` for one line. -/
def reader_line (st : ReaderState O) (buffer : List Char) : Outcome (ReaderState O) :=
  if !st.sizes_read then
    let sizes := extract_three buffer
    let num_row := sizes.1
    let num_col := sizes.2.1
    let num_lines := sizes.2.2.getD 0
    if num_row ≤ 0 ∨ num_col ≤ 0 ∨ num_lines < 0 then
      Outcome.thrown ReaderError.negative_or_null_dimensions
    else
      let M1 := st.M.resize num_row.toNat num_col.toNat
      Outcome.ok { st with num_lines := num_lines, sizes_read := true,
                           M := { M1 with m_compressed := false } }
  else
    let elem := extract_three buffer
    let i := elem.1
    let j := elem.2.1
    if i ≤ 0 ∨ i > (st.M.m_m : Int) ∨ j ≤ 0 ∨ j > (st.M.m_n : Int) then
      Outcome.thrown ReaderError.wrong_indices
    else
      match elem.2.2 with
      | none => Outcome.aborted
      | some value =>
        match st.M.Write (i - 1).toNat (j - 1).toNat value with
        | none => Outcome.aborted
        | some r => Outcome.ok { st with M := r.2, count := st.count + 1 }

/-- Loop `while (std::getline(file, buffer)) { ... }` of `reader_mmf`.  `fuel` bounds the
number of iterations; each line read takes at least one character off the stream. -/
def reader_loop : Nat → List Char → ReaderState O → Outcome (ReaderState O)
  | 0, _, _ => Outcome.aborted
  | fuel + 1, file, st =>
    match getline file with
    | none => Outcome.ok st
    | some (buffer, rest) =>
      match reader_line st buffer with
      | Outcome.ok st1 => reader_loop fuel rest st1
      | Outcome.thrown e => Outcome.thrown e
      | Outcome.aborted => Outcome.aborted

/-- Method `reader_mmf`.  `file` is the content of the file named `file_name`, `none` when
the file cannot be opened; the result is the matrix after `return true`. -/
def reader_mmf (M : Matrix O) (file : Option (List Char)) : Outcome (Matrix O) :=
  match file with
  | none => Outcome.thrown ReaderError.error_in_opening_file
  | some content =>
    let stream := skip_comments content.length content
    match reader_loop (stream.length + 1) stream
        { count := 0, sizes_read := false, num_lines := 0, M := M } with
    | Outcome.ok st =>
      if (st.count : Int) ≠ st.num_lines then
        Outcome.thrown ReaderError.incorrectly_formatted
      else Outcome.ok st.M
    | Outcome.thrown e => Outcome.thrown e
    | Outcome.aborted => Outcome.aborted

end Matrix

/-! ## Sequences of calls of the public interface -/

/-- One call of a mutating member of the class. -/
inductive Call where
  | Write (i j : Nat) (newvalue : Int)
  | compress
  | uncompress
  | resize (m_new n_new : Nat)
  deriving DecidableEq, Repr

namespace Matrix

variable {O : StorageOrder}

/-- Effect of one call; `none` when the call fails. -/
def call (M : Matrix O) : Call → Option (Matrix O)
  | Call.Write i j newvalue => (M.Write i j newvalue).map (fun r => r.2)
  | Call.compress => some M.compress
  | Call.uncompress => M.uncompress
  | Call.resize m_new n_new => some (M.resize m_new n_new)

/-- A sequence of calls applied in order; `none` as soon as one of them fails. -/
def calls (M : Matrix O) : List Call → Option (Matrix O)
  | [] => some M
  | c :: cs =>
    match M.call c with
    | some M1 => calls M1 cs
    | none => none

end Matrix

/-! ## Orientation-independent view of keys (used by the proofs only) -/

/-- Native-line component of a key: the row for `RowWise`, the column for `ColumnWise`. -/
def major (O : StorageOrder) (k : key_type) : Nat :=
  if O = StorageOrder.RowWise then k.1 else k.2

/-- Other component of a key: the column for `RowWise`, the row for `ColumnWise`. -/
def minor (O : StorageOrder) (k : key_type) : Nat :=
  if O = StorageOrder.RowWise then k.2 else k.1

/-- Key with native-line component `a` and other component `b`. -/
def mk_key (O : StorageOrder) (a b : Nat) : key_type :=
  if O = StorageOrder.RowWise then (a, b) else (b, a)

/-- Representation invariant of `std::map`: strictly increasing for the comparator. -/
def map_sorted (O : StorageOrder) (mp : MatrixUncompressed) : Prop :=
  mp.Pairwise (fun a b => key_comp O a.1 b.1 = true)

instance (O : StorageOrder) (mp : MatrixUncompressed) : Decidable (map_sorted O mp) :=
  inferInstanceAs (Decidable
    (List.Pairwise (fun a b : key_type × Int => key_comp O a.1 b.1 = true) mp))

/-- Uncompressed presence test of a native line, as written in `check_presence_row` for
`RowWise` and in `check_presence_col` for `ColumnWise`. -/
def native_present (O : StorageOrder) (mp : MatrixUncompressed) (idx : Nat) : Bool :=
  !(decide (distance (map_upper_bound O (mk_key O idx 0) mp)
      (map_lower_bound O (mk_key O (idx + 1) 0) mp) = 0))
    || map_contains O (mk_key O idx 0) mp

namespace Matrix

variable {O : StorageOrder}

/-- State of an uncompressed matrix whose content came through the write access: the map is
a `std::map` (ordered for the comparator) with every key inside the extents, and the three
compressed vectors are empty. -/
def uncompressed_ok (M : Matrix O) : Prop :=
  M.m_compressed = false ∧ map_sorted O M.m_mat_uncomp ∧
  (∀ p ∈ M.m_mat_uncomp, p.1.1 < M.m_m ∧ p.1.2 < M.m_n) ∧
  M.m_val_comp = [] ∧ M.m_inner = [] ∧ M.m_outer = []

/-- The compressed matrix with extents `m`, `n`, counter `nnz` and the content of the
ordered entry list `L`, written out field by field (what `compress` builds). -/
def compressed_of (O : StorageOrder) (m n nnz : Nat) (L : MatrixUncompressed) : Matrix O :=
  { m_m := m, m_n := n, m_nnz := nnz, m_compressed := true, m_mat_uncomp := [],
    m_val_comp := L.map (fun p => p.2),
    m_inner := 0 :: (List.range (if O = StorageOrder.RowWise then m else n)).map
      (fun t => L.countP (fun p => decide (major O p.1 ≤ t))),
    m_outer := L.map (fun p => minor O p.1) }

end Matrix

/-- Entries of the native line `i`. -/
def line_block (O : StorageOrder) (L : MatrixUncompressed) (i : Nat) : MatrixUncompressed :=
  L.filter (fun p => decide (major O p.1 = i))

/-- Entries of the native lines before `i`. -/
def lines_before (O : StorageOrder) (L : MatrixUncompressed) (i : Nat) : MatrixUncompressed :=
  L.filter (fun p => decide (major O p.1 < i))

/-- No stored value is zero. -/
def stored_nonzero (L : MatrixUncompressed) : Prop := ∀ p ∈ L, p.2 ≠ 0

/-- Value found in a list of entries under the other key component `j`, zero when there is
none. -/
def block_lookup (O : StorageOrder) (B : MatrixUncompressed) (j : Nat) : Int :=
  ((B.find? (fun p => decide (minor O p.1 = j))).map (fun p => p.2)).getD 0

/-- Calls of the sequences considered for the content invariants: write accesses inside the
extents `m x n`, `compress()` and `uncompress()`. -/
def Call.admissible (m n : Nat) : Call → Prop
  | Call.Write i j _ => i < m ∧ j < n
  | Call.compress => True
  | Call.uncompress => True
  | Call.resize _ _ => False

namespace Matrix

variable {O : StorageOrder}

/-- The store that the mode flag does not select is empty. -/
def inactive_empty (M : Matrix O) : Prop :=
  (M.m_compressed = true → M.m_mat_uncomp = []) ∧
  (M.m_compressed = false → M.m_val_comp = [] ∧ M.m_inner = [] ∧ M.m_outer = [])

/-- Result matrix of a one-column product while it is being filled: uncompressed and well
formed, of extents `m x 1`, holding the value `t i` in every row `i < k` and nothing in the
rows from `k` on. -/
def column_filled (R : Matrix O) (m k : Nat) (t : Nat → Int) : Prop :=
  R.uncompressed_ok ∧ R.m_m = m ∧ R.m_n = 1 ∧
  (∀ p ∈ R.m_mat_uncomp, p.1.1 < k) ∧
  ∀ i, i < k → (map_find O (i, 0) R.m_mat_uncomp).getD 0 = t i

/-- States reached from the empty `m x n` matrix by in-bounds write accesses, `compress()`
and `uncompress()`: an ordered list `L` of in-bounds entries with non-zero values, held
either in the map or in compressed form. -/
def content_ok (m n : Nat) (M : Matrix O) : Prop :=
  ∃ (L : MatrixUncompressed) (nnz : Nat), map_sorted O L ∧
    (∀ p ∈ L, p.1.1 < m ∧ p.1.2 < n) ∧ stored_nonzero L ∧
    (M = ⟨m, n, nnz, false, L, [], [], []⟩ ∨ M = compressed_of O m n nnz L)

end Matrix

/-- Entry `(i, j)` of the product of two entry lists, as mathematics defines it: the sum over
`k < n` of the value held at `(i, k)` by the first and at `(k, j)` by the second. -/
def product_entry (O O1 : StorageOrder) (L1 L2 : MatrixUncompressed) (n i j : Nat) : Int :=
  ∑ k in Finset.range n, (map_find O (i, k) L1).getD 0 * (map_find O1 (k, j) L2).getD 0

namespace Matrix

/-- Result matrix of a general product while it is being filled, column after column and row
after row inside a column: uncompressed and well formed, of extents `m x p`, holding the
value `t a b` in every cell before `(i, j)` in that order and nothing in the other cells. -/
def cells_filled {O : StorageOrder} (R : Matrix O) (m p j i : Nat) (t : Nat → Nat → Int) :
    Prop :=
  R.uncompressed_ok ∧ R.m_m = m ∧ R.m_n = p ∧
  (∀ q ∈ R.m_mat_uncomp, q.1.2 < j ∨ (q.1.2 = j ∧ q.1.1 < i)) ∧
  ∀ a b, a < m → (b < j ∨ (b = j ∧ a < i)) →
    (map_find O (a, b) R.m_mat_uncomp).getD 0 = t a b

end Matrix

/-! ## Texts given to the reader -/

/-- The three lines `1 1 1`, `2 2 0`, `1 1 5.0`. -/
def text_scenario : List Char := "1 1 1\n2 2 0\n1 1 5.0\n".toList

/-- The size line `2 2 1` followed by the element line `1 1 5.0`. -/
def text_size_line_first : List Char := "2 2 1\n1 1 5.0\n".toList

/-- The size line `2 2 1` followed by one element line carrying the value zero. -/
def text_zero_value : List Char := "2 2 1\n1 1 0\n".toList

/-- The size line `2 2 2` followed by two element lines naming the same cell. -/
def text_same_cell : List Char := "2 2 2\n1 1 5\n1 1 7\n".toList

/-! ## Comparator lemmas -/

theorem key_comp_iff (O : StorageOrder) (a b : key_type) :
    key_comp O a b = true ↔
      major O a < major O b ∨ (major O a = major O b ∧ minor O a < minor O b) := by
  cases O <;> simp [key_comp, CompOp_RowWise, CompOp_ColWise, major, minor]

theorem key_ext (O : StorageOrder) (a b : key_type)
    (h1 : major O a = major O b) (h2 : minor O a = minor O b) : a = b := by
  cases O <;> simp [major, minor] at h1 h2 <;> exact Prod.ext (by simp [*]) (by simp [*])

theorem major_mk_key (O : StorageOrder) (a b : Nat) : major O (mk_key O a b) = a := by
  cases O <;> simp [major, mk_key]

theorem minor_mk_key (O : StorageOrder) (a b : Nat) : minor O (mk_key O a b) = b := by
  cases O <;> simp [minor, mk_key]

theorem mk_key_major_minor (O : StorageOrder) (k : key_type) :
    mk_key O (major O k) (minor O k) = k := by
  cases O <;> simp [major, minor, mk_key]

theorem key_comp_irrefl (O : StorageOrder) (a : key_type) : key_comp O a a = false := by
  rw [Bool.eq_false_iff]; intro h
  rw [key_comp_iff] at h; omega

theorem key_comp_trans (O : StorageOrder) (a b c : key_type)
    (h1 : key_comp O a b = true) (h2 : key_comp O b c = true) : key_comp O a c = true := by
  rw [key_comp_iff] at *; omega

theorem key_comp_asymm (O : StorageOrder) (a b : key_type)
    (h1 : key_comp O a b = true) : key_comp O b a = false := by
  rw [Bool.eq_false_iff]; intro h
  rw [key_comp_iff] at *; omega

theorem key_equiv_iff (O : StorageOrder) (a b : key_type) :
    key_equiv O a b = true ↔ a = b := by
  constructor
  · intro h
    simp only [key_equiv, Bool.and_eq_true, Bool.not_eq_true', Bool.eq_false_iff, ne_eq,
      key_comp_iff] at h
    apply key_ext O <;> omega
  · rintro rfl
    simp [key_equiv, key_comp_irrefl]

theorem key_equiv_eq_decide (O : StorageOrder) (a b : key_type) :
    key_equiv O a b = decide (a = b) := by
  rw [Bool.eq_iff_iff, key_equiv_iff]; simp

/-! ## Lemmas on the map operations -/

theorem map_contains_iff (O : StorageOrder) (k : key_type) (mp : MatrixUncompressed) :
    map_contains O k mp = true ↔ ∃ v, (k, v) ∈ mp := by
  simp only [map_contains, List.any_eq_true, key_equiv_iff]
  constructor
  · rintro ⟨⟨k', v⟩, hmem, rfl⟩; exact ⟨v, hmem⟩
  · rintro ⟨v, hmem⟩; exact ⟨(k, v), hmem, rfl⟩

theorem map_contains_false_iff (O : StorageOrder) (k : key_type) (mp : MatrixUncompressed) :
    map_contains O k mp = false ↔ ∀ p ∈ mp, p.1 ≠ k := by
  rw [← Bool.not_eq_true, map_contains_iff]
  constructor
  · intro h p hp hk; exact h ⟨p.2, by rw [← hk]; exact hp⟩
  · rintro h ⟨v, hv⟩; exact h _ hv rfl

theorem map_find_nil (O : StorageOrder) (k : key_type) : map_find O k [] = none := rfl

theorem map_find_cons (O : StorageOrder) (k : key_type) (p : key_type × Int)
    (mp : MatrixUncompressed) :
    map_find O k (p :: mp) = if p.1 = k then some p.2 else map_find O k mp := by
  simp only [map_find, List.find?_cons, key_equiv_eq_decide]
  by_cases h : p.1 = k <;> simp [h]

theorem map_find_eq_none_iff (O : StorageOrder) (k : key_type) (mp : MatrixUncompressed) :
    map_find O k mp = none ↔ map_contains O k mp = false := by
  induction mp with
  | nil => simp [map_find, map_contains]
  | cons p mp ih =>
    rw [map_find_cons]
    simp only [map_contains, List.any_cons, key_equiv_eq_decide] at ih ⊢
    by_cases h : p.1 = k <;> simp [h, ih]

theorem map_sorted_cons (O : StorageOrder) (p : key_type × Int) (mp : MatrixUncompressed) :
    map_sorted O (p :: mp) ↔ (∀ q ∈ mp, key_comp O p.1 q.1 = true) ∧ map_sorted O mp := by
  simp [map_sorted, List.pairwise_cons]

theorem map_sorted_nil (O : StorageOrder) : map_sorted O [] := by
  simp [map_sorted]

/-- In a sorted map the value found under a key is the value of the entry stored there. -/
theorem map_find_eq_some_iff (O : StorageOrder) (k : key_type) (v : Int)
    (mp : MatrixUncompressed) (hs : map_sorted O mp) :
    map_find O k mp = some v ↔ (k, v) ∈ mp := by
  induction mp with
  | nil => simp [map_find]
  | cons p mp ih =>
    rw [map_sorted_cons] at hs
    rw [map_find_cons]
    by_cases h : p.1 = k
    · simp only [h, if_true, Option.some.injEq, List.mem_cons]
      constructor
      · intro hv; left; rw [← h, ← hv]
      · rintro (heq | hmem)
        · rw [← heq]
        · have := hs.1 _ hmem
          rw [h] at this
          simp [key_comp_irrefl] at this
    · simp only [h, if_false, List.mem_cons]
      rw [ih hs.2]
      constructor
      · intro hm; right; exact hm
      · rintro (heq | hmem)
        · exact absurd (by rw [← heq]) h
        · exact hmem

theorem mem_map_insert (O : StorageOrder) (k : key_type) (v : Int) (mp : MatrixUncompressed)
    (habs : map_contains O k mp = false) (p : key_type × Int) :
    p ∈ map_insert O k v mp ↔ p = (k, v) ∨ p ∈ mp := by
  induction mp with
  | nil => simp [map_insert]
  | cons q mp ih =>
    rw [map_contains_false_iff] at habs
    have hq : q.1 ≠ k := habs q (List.mem_cons_self _ _)
    have habs' : map_contains O k mp = false := by
      rw [map_contains_false_iff]; intro r hr; exact habs r (List.mem_cons_of_mem _ hr)
    simp only [map_insert]
    split_ifs with h1 h2
    · simp
    · simp only [List.mem_cons, ih habs']; tauto
    · exfalso; apply hq; rw [← key_equiv_iff O]; simp [key_equiv, h1, h2]

theorem map_insert_sorted (O : StorageOrder) (k : key_type) (v : Int) (mp : MatrixUncompressed)
    (hs : map_sorted O mp) : map_sorted O (map_insert O k v mp) := by
  induction mp with
  | nil => simp [map_insert, map_sorted]
  | cons q mp ih =>
    rw [map_sorted_cons] at hs
    simp only [map_insert]
    split_ifs with h1 h2
    · rw [map_sorted_cons]
      refine ⟨?_, (map_sorted_cons O q mp).2 hs⟩
      intro r hr
      rcases List.mem_cons.1 hr with rfl | hr
      · exact h1
      · exact key_comp_trans O _ _ _ h1 (hs.1 r hr)
    · rw [map_sorted_cons]
      refine ⟨?_, ih hs.2⟩
      intro r hr
      by_cases hc : map_contains O k mp = true
      · -- the key is already stored further on: the map is unchanged
        have : ∀ (l : MatrixUncompressed), r ∈ map_insert O k v l → r = (k, v) ∨ r ∈ l := by
          intro l
          induction l with
          | nil => simp [map_insert]
          | cons s l ihl =>
            simp only [map_insert]
            split_ifs
            · simp
            · simp only [List.mem_cons]; intro h; rcases h with h | h
              · tauto
              · rcases ihl h with h | h <;> tauto
            · simp only [List.mem_cons]; tauto
        rcases this mp hr with rfl | hr
        · exact h2
        · exact hs.1 r hr
      · rw [Bool.not_eq_true] at hc
        rcases (mem_map_insert O k v mp hc r).1 hr with rfl | hr
        · exact h2
        · exact hs.1 r hr
    · exact (map_sorted_cons O q mp).2 hs

theorem map_find_insert_self (O : StorageOrder) (k : key_type) (v : Int)
    (mp : MatrixUncompressed) (habs : map_contains O k mp = false) :
    map_find O k (map_insert O k v mp) = some v := by
  induction mp with
  | nil => simp [map_insert, map_find_cons]
  | cons q mp ih =>
    rw [map_contains_false_iff] at habs
    have hq : q.1 ≠ k := habs q (List.mem_cons_self _ _)
    have habs' : map_contains O k mp = false := by
      rw [map_contains_false_iff]; intro r hr; exact habs r (List.mem_cons_of_mem _ hr)
    simp only [map_insert]
    split_ifs with h1 h2
    · simp [map_find_cons]
    · simp [map_find_cons, hq, ih habs']
    · exfalso; apply hq; rw [← key_equiv_iff O]; simp [key_equiv, h1, h2]

theorem map_find_insert_ne (O : StorageOrder) (k k' : key_type) (v : Int)
    (mp : MatrixUncompressed) (hne : k' ≠ k) :
    map_find O k' (map_insert O k v mp) = map_find O k' mp := by
  induction mp with
  | nil => simp [map_insert, map_find_cons, map_find_nil, Ne.symm hne]
  | cons q mp ih =>
    simp only [map_insert]
    split_ifs with h1 h2
    · rw [map_find_cons]; simp [Ne.symm hne]
    · rw [map_find_cons, map_find_cons, ih]
    · rfl

theorem map_contains_insert_ne (O : StorageOrder) (k k' : key_type) (v : Int)
    (mp : MatrixUncompressed) (hne : k' ≠ k) :
    map_contains O k' (map_insert O k v mp) = map_contains O k' mp := by
  have h := map_find_insert_ne O k k' v mp hne
  rw [Bool.eq_iff_iff]
  rw [← Bool.not_eq_false, ← Bool.not_eq_false (b := map_contains O k' mp),
    ← map_find_eq_none_iff, ← map_find_eq_none_iff, h]

/-- Inserting a key that is already stored in a sorted map leaves the map as it is. -/
theorem map_insert_present (O : StorageOrder) (k : key_type) (v : Int)
    (mp : MatrixUncompressed) (hs : map_sorted O mp) (hc : map_contains O k mp = true) :
    map_insert O k v mp = mp := by
  induction mp with
  | nil => simp [map_contains] at hc
  | cons q mp ih =>
    rw [map_sorted_cons] at hs
    simp only [map_insert]
    by_cases hq : q.1 = k
    · simp [← hq, key_comp_irrefl]
    · have hc' : map_contains O k mp = true := by
        simp only [map_contains, List.any_cons, key_equiv_eq_decide, hq, decide_False,
          Bool.false_or] at hc ⊢
        exact hc
      obtain ⟨w, hw⟩ := (map_contains_iff O k mp).1 hc'
      have hlt : key_comp O q.1 k = true := hs.1 _ hw
      simp [key_comp_asymm O _ _ hlt, hlt, ih hs.2 hc']

/-- Inserting a key that is after every stored key appends the entry. -/
theorem map_insert_append (O : StorageOrder) (k : key_type) (v : Int)
    (mp : MatrixUncompressed) (h : ∀ p ∈ mp, key_comp O p.1 k = true) :
    map_insert O k v mp = mp ++ [(k, v)] := by
  induction mp with
  | nil => rfl
  | cons q mp ih =>
    have hq := h q (List.mem_cons_self _ _)
    simp only [map_insert, key_comp_asymm O _ _ hq, hq, if_true, Bool.false_eq_true, if_false,
      List.cons_append]
    rw [ih (fun p hp => h p (List.mem_cons_of_mem _ hp))]

theorem map_erase_sorted (O : StorageOrder) (k : key_type) (mp : MatrixUncompressed)
    (hs : map_sorted O mp) : map_sorted O (map_erase O k mp) :=
  List.Pairwise.sublist (List.filter_sublist _) hs

theorem mem_map_erase (O : StorageOrder) (k : key_type) (mp : MatrixUncompressed)
    (p : key_type × Int) : p ∈ map_erase O k mp ↔ p ∈ mp ∧ p.1 ≠ k := by
  simp [map_erase, List.mem_filter, key_equiv_eq_decide]

/-! ## Lemmas on the searches -/

theorem find_if_pos_le_length {α : Type} (p : α → Bool) (l : List α) :
    find_if_pos p l ≤ l.length := by
  induction l with
  | nil => simp [find_if_pos]
  | cons x xs ih => simp only [find_if_pos]; split_ifs <;> simp; omega

theorem find_if_pos_cons_pos {α : Type} (p : α → Bool) (x : α) (xs : List α)
    (h : p x = true) : find_if_pos p (x :: xs) = 0 := by
  simp [find_if_pos, h]

theorem find_if_pos_cons_neg {α : Type} (p : α → Bool) (x : α) (xs : List α)
    (h : p x = false) : find_if_pos p (x :: xs) = find_if_pos p xs + 1 := by
  simp [find_if_pos, h]

theorem find_if_pos_ne_length_iff {α : Type} (p : α → Bool) (l : List α) :
    find_if_pos p l ≠ l.length ↔ ∃ x ∈ l, p x = true := by
  induction l with
  | nil => simp [find_if_pos]
  | cons x xs ih =>
    simp only [find_if_pos, List.length_cons, List.mem_cons, exists_eq_or_imp]
    by_cases h : p x = true
    · simp [h]
    · rw [Bool.not_eq_true] at h
      simp only [h, Bool.false_eq_true, if_false, false_or, ← ih]; omega

theorem find_if_pos_append_le {α : Type} (p : α → Bool) (l1 l2 : List α) (x : α)
    (hx : p x = true) : find_if_pos p (l1 ++ x :: l2) ≤ l1.length := by
  induction l1 with
  | nil => simp [find_if_pos, hx]
  | cons y ys ih => simp only [List.cons_append, find_if_pos]; split_ifs <;> simp; omega

theorem find_if_pos_append_gt {α : Type} (q : α → Bool) (l1 l2 : List α) (x : α)
    (h1 : ∀ y ∈ l1, q y = false) (hx : q x = false) :
    l1.length < find_if_pos q (l1 ++ x :: l2) := by
  induction l1 with
  | nil => simp [find_if_pos, hx]
  | cons y ys ih =>
    have hy := h1 y (List.mem_cons_self _ _)
    rw [List.cons_append, find_if_pos_cons_neg q y _ hy, List.length_cons]
    have := ih (fun z hz => h1 z (List.mem_cons_of_mem _ hz))
    omega

theorem find_if_pos_ne_of_imp {α : Type} (p q : α → Bool) (hqp : ∀ x, q x = true → p x = true)
    (l : List α) (hne : find_if_pos p l ≠ find_if_pos q l) :
    ∃ x ∈ l, p x = true ∧ q x = false := by
  induction l with
  | nil => simp [find_if_pos] at hne
  | cons x xs ih =>
    by_cases hq : q x = true
    · simp [find_if_pos, hq, hqp x hq] at hne
    · by_cases hp : p x = true
      · exact ⟨x, List.mem_cons_self _ _, hp, by simpa using hq⟩
      · rw [Bool.not_eq_true] at hp hq
        rw [find_if_pos_cons_neg p x _ hp, find_if_pos_cons_neg q x _ hq] at hne
        obtain ⟨y, hy, h⟩ := ih (fun h => hne (by rw [h]))
        exact ⟨y, List.mem_cons_of_mem _ hy, h⟩

theorem native_present_iff (O : StorageOrder) (mp : MatrixUncompressed) (idx : Nat)
    (hs : map_sorted O mp) :
    native_present O mp idx = true ↔ ∃ p ∈ mp, major O p.1 = idx := by
  have hdist : ∀ a b : Nat, (distance a b = 0) ↔ a = b := by
    intro a b; simp only [distance]; omega
  simp only [native_present, Bool.or_eq_true, Bool.not_eq_true', decide_eq_false_iff_not, hdist,
    map_upper_bound, map_lower_bound]
  constructor
  · rintro (hne | hc)
    · obtain ⟨x, hx, hp, hq⟩ := find_if_pos_ne_of_imp
        (fun p => key_comp O (mk_key O idx 0) p.1)
        (fun p => !key_comp O p.1 (mk_key O (idx + 1) 0)) (by
          intro x hx
          simp only [Bool.not_eq_true', Bool.eq_false_iff, ne_eq, key_comp_iff, major_mk_key,
            minor_mk_key] at hx ⊢
          omega) mp hne
      refine ⟨x, hx, ?_⟩
      simp only [Bool.not_eq_false', key_comp_iff, major_mk_key, minor_mk_key] at hp hq
      omega
    · obtain ⟨v, hv⟩ := (map_contains_iff O _ mp).1 hc
      exact ⟨_, hv, major_mk_key O idx 0⟩
  · rintro ⟨x, hx, hmaj⟩
    by_cases hmin : minor O x.1 = 0
    · right
      rw [map_contains_iff]
      refine ⟨x.2, ?_⟩
      have : mk_key O idx 0 = x.1 := by rw [← hmaj, ← hmin, mk_key_major_minor]
      rw [this]; exact hx
    · left
      obtain ⟨l1, l2, rfl⟩ := List.append_of_mem hx
      have hl1 : ∀ y ∈ l1, key_comp O y.1 x.1 = true := by
        intro y hy
        have := (List.pairwise_append.1 hs).2.2 y hy x (List.mem_cons_self _ _)
        exact this
      have hle := find_if_pos_append_le (fun p => key_comp O (mk_key O idx 0) p.1) l1 l2 x (by
        simp only [key_comp_iff, major_mk_key, minor_mk_key]; omega)
      have hgt := find_if_pos_append_gt (fun p => !key_comp O p.1 (mk_key O (idx + 1) 0))
        l1 l2 x (by
          intro y hy
          have := hl1 y hy
          simp only [Bool.not_eq_false', key_comp_iff, major_mk_key, minor_mk_key] at this ⊢
          omega) (by
          simp only [Bool.not_eq_false', key_comp_iff, major_mk_key, minor_mk_key]; omega)
      omega

namespace Matrix

variable {O : StorageOrder}

/-- Uncompressed `check_presence_row`: true exactly when some entry lies in the row. -/
theorem check_presence_row_uncompressed (M : Matrix O) (hc : M.m_compressed = false)
    (hs : map_sorted O M.m_mat_uncomp) (idx : Nat) (h : idx < M.m_m) :
    M.check_presence_row idx = some (decide (∃ p ∈ M.m_mat_uncomp, p.1.1 = idx)) := by
  cases O
  · have hn := native_present_iff StorageOrder.RowWise M.m_mat_uncomp idx hs
    simp only [native_present, mk_key, major, if_true] at hn
    simp only [check_presence_row, h, if_true, hc, Bool.false_eq_true, if_false,
      Option.some.injEq]
    rw [Bool.eq_iff_iff, hn]; simp
  · have hf := find_if_pos_ne_length_iff (fun x : key_type × Int => decide (x.1.1 = idx))
      M.m_mat_uncomp
    simp only [check_presence_row, h, if_true, hc, Bool.false_eq_true, if_false,
      Option.some.injEq, reduceCtorEq]
    rw [Bool.eq_iff_iff]; simp only [decide_eq_true_eq, hf]

/-- Uncompressed `check_presence_col`: true exactly when some entry lies in the column. -/
theorem check_presence_col_uncompressed (M : Matrix O) (hc : M.m_compressed = false)
    (hs : map_sorted O M.m_mat_uncomp) (idx : Nat) (h : idx < M.m_n) :
    M.check_presence_col idx = some (decide (∃ p ∈ M.m_mat_uncomp, p.1.2 = idx)) := by
  cases O
  · have hf := find_if_pos_ne_length_iff (fun x : key_type × Int => decide (x.1.2 = idx))
      M.m_mat_uncomp
    simp only [check_presence_col, h, if_true, hc, Bool.false_eq_true, if_false,
      Option.some.injEq]
    rw [Bool.eq_iff_iff]; simp only [decide_eq_true_eq, hf]
  · have hn := native_present_iff StorageOrder.ColumnWise M.m_mat_uncomp idx hs
    simp only [native_present, mk_key, major, reduceCtorEq, if_false] at hn
    simp only [check_presence_col, h, if_true, hc, Bool.false_eq_true, if_false,
      Option.some.injEq, reduceCtorEq]
    rw [Bool.eq_iff_iff, hn]; simp

/-- Uncompressed `check_presence`: true exactly when the key is stored in the map. -/
theorem check_presence_uncompressed (M : Matrix O) (hc : M.m_compressed = false)
    (hs : map_sorted O M.m_mat_uncomp) (i j : Nat) (hi : i < M.m_m) (hj : j < M.m_n) :
    M.check_presence i j = some (map_contains O (i, j) M.m_mat_uncomp) := by
  simp only [check_presence, hi, hj, and_self, if_true,
    check_presence_row_uncompressed M hc hs i hi, check_presence_col_uncompressed M hc hs j hj]
  by_cases hcon : map_contains O (i, j) M.m_mat_uncomp = true
  · obtain ⟨v, hv⟩ := (map_contains_iff O _ _).1 hcon
    have h1 : decide (∃ p ∈ M.m_mat_uncomp, p.1.1 = i) = true :=
      decide_eq_true ⟨_, hv, rfl⟩
    have h2 : decide (∃ p ∈ M.m_mat_uncomp, p.1.2 = j) = true :=
      decide_eq_true ⟨_, hv, rfl⟩
    simp [h1, h2, hc]
  · rw [Bool.not_eq_true] at hcon
    rw [hcon]
    split
    · rename_i heq; simp at heq
    · rfl
    · split
      · rename_i heq; simp at heq
      · rfl
      · simp [hc, hcon]

/-- Uncompressed read access: the value stored under the key, zero when there is none. -/
theorem Read_uncompressed (M : Matrix O) (hc : M.m_compressed = false)
    (hs : map_sorted O M.m_mat_uncomp) (i j : Nat) (hi : i < M.m_m) (hj : j < M.m_n) :
    M.Read i j = some ((map_find O (i, j) M.m_mat_uncomp).getD 0) := by
  simp only [Read, check_presence_uncompressed M hc hs i j hi hj]
  cases hcon : map_contains O (i, j) M.m_mat_uncomp
  · rw [← map_find_eq_none_iff] at hcon
    simp [hcon]
  · simp only [hc, Bool.not_false, if_true]
    cases hf : map_find O (i, j) M.m_mat_uncomp
    · rw [map_find_eq_none_iff] at hf; rw [hf] at hcon; cases hcon
    · rfl

end Matrix

/-! ## Lemmas on assignment and erasure in the map -/

theorem map_assign_present (O : StorageOrder) (k : key_type) (v : Int)
    (mp : MatrixUncompressed) (hs : map_sorted O mp) (hc : map_contains O k mp = true) :
    map_assign O k v mp = mp.map (fun p => if p.1 = k then (p.1, v) else p) := by
  simp only [map_assign, map_insert_present O k 0 mp hs hc, key_equiv_eq_decide,
    decide_eq_true_eq]

theorem map_find_map_set_self (O : StorageOrder) (k : key_type) (v : Int)
    (mp : MatrixUncompressed) (hc : map_contains O k mp = true) :
    map_find O k (mp.map (fun p => if p.1 = k then (p.1, v) else p)) = some v := by
  induction mp with
  | nil => simp [map_contains] at hc
  | cons q mp ih =>
    rw [List.map_cons, map_find_cons]
    by_cases hq : q.1 = k
    · simp [hq]
    · have hc' : map_contains O k mp = true := by
        simp only [map_contains, List.any_cons, key_equiv_eq_decide, hq, decide_False,
          Bool.false_or] at hc ⊢
        exact hc
      simp [hq, ih hc']

theorem map_find_map_set_ne (O : StorageOrder) (k k' : key_type) (v : Int)
    (mp : MatrixUncompressed) (hne : k' ≠ k) :
    map_find O k' (mp.map (fun p => if p.1 = k then (p.1, v) else p)) = map_find O k' mp := by
  induction mp with
  | nil => rfl
  | cons q mp ih =>
    rw [List.map_cons, map_find_cons, map_find_cons, ih]
    by_cases hq : q.1 = k
    · have : ¬ k = k' := fun h => hne h.symm
      simp [hq, this]
    · simp [hq]

theorem map_set_keys (k : key_type) (v : Int) (mp : MatrixUncompressed) :
    (mp.map (fun p => if p.1 = k then (p.1, v) else p)).map Prod.fst = mp.map Prod.fst := by
  rw [List.map_map]
  apply List.map_congr_left
  intro p _
  by_cases hp : p.1 = k <;> simp [hp]

theorem map_sorted_of_keys (O : StorageOrder) (mp mp' : MatrixUncompressed)
    (hk : mp'.map Prod.fst = mp.map Prod.fst) (hs : map_sorted O mp) : map_sorted O mp' := by
  have h1 : (mp.map Prod.fst).Pairwise (fun a b => key_comp O a b = true) :=
    List.pairwise_map.2 hs
  rw [← hk] at h1
  exact List.pairwise_map.1 h1

theorem map_contains_of_keys (O : StorageOrder) (mp mp' : MatrixUncompressed)
    (hk : mp'.map Prod.fst = mp.map Prod.fst) (k : key_type) :
    map_contains O k mp' = map_contains O k mp := by
  have h : ∀ l : MatrixUncompressed,
      map_contains O k l = (l.map Prod.fst).any (fun a => key_equiv O a k) := by
    intro l
    induction l with
    | nil => rfl
    | cons q l ih =>
      simp only [map_contains, List.any_cons, List.map_cons] at ih ⊢
      rw [ih]
  rw [h, h, hk]

theorem map_erase_absent (O : StorageOrder) (k : key_type) (mp : MatrixUncompressed)
    (habs : map_contains O k mp = false) : map_erase O k mp = mp := by
  rw [map_contains_false_iff] at habs
  simp only [map_erase, List.filter_eq_self, key_equiv_eq_decide]
  intro p hp
  simp [habs p hp]

theorem map_erase_length (O : StorageOrder) (k : key_type) (mp : MatrixUncompressed)
    (hs : map_sorted O mp) (hc : map_contains O k mp = true) :
    (map_erase O k mp).length + 1 = mp.length := by
  induction mp with
  | nil => simp [map_contains] at hc
  | cons q mp ih =>
    rw [map_sorted_cons] at hs
    by_cases hq : q.1 = k
    · have habs : map_contains O k mp = false := by
        rw [map_contains_false_iff]
        intro p hp hpk
        have := hs.1 p hp
        rw [hq, hpk, key_comp_irrefl] at this
        cases this
      have := map_erase_absent O k mp habs
      simp only [map_erase] at this
      have hq' : key_equiv O q.1 k = true := (key_equiv_iff O _ _).2 hq
      simp only [map_erase, List.filter_cons, hq', Bool.not_true, Bool.false_eq_true, if_false,
        this, List.length_cons]
    · have hc' : map_contains O k mp = true := by
        simp only [map_contains, List.any_cons, key_equiv_eq_decide, hq, decide_False,
          Bool.false_or] at hc ⊢
        exact hc
      have := ih hs.2 hc'
      simp only [map_erase] at this
      have hq' : key_equiv O q.1 k = false := by
        rw [key_equiv_eq_decide]; simp [hq]
      simp only [map_erase, List.filter_cons, hq', Bool.not_false, if_true, List.length_cons,
        this]

theorem map_find_erase_self (O : StorageOrder) (k : key_type) (mp : MatrixUncompressed) :
    map_find O k (map_erase O k mp) = none := by
  rw [map_find_eq_none_iff, map_contains_false_iff]
  intro p hp
  exact ((mem_map_erase O k mp p).1 hp).2

namespace Matrix

variable {O : StorageOrder}

/-- The write access on an uncompressed matrix, branch by branch. -/
theorem Write_uncompressed (M : Matrix O) (hc : M.m_compressed = false)
    (hs : map_sorted O M.m_mat_uncomp) (i j : Nat) (v : Int) (hi : i < M.m_m)
    (hj : j < M.m_n) :
    M.Write i j v = some (
      if v = 0 then
        (if M.m_nnz = 0 then (Returned.zerovalue, M)
         else (Returned.zerovalue,
           { M with m_nnz := M.m_nnz - 1,
                    m_mat_uncomp := map_erase O (i, j) M.m_mat_uncomp }))
      else if map_contains O (i, j) M.m_mat_uncomp = true then
        (Returned.stored v,
          { M with m_mat_uncomp :=
              M.m_mat_uncomp.map (fun p => if p.1 = (i, j) then (p.1, v) else p) })
      else
        (Returned.stored v,
          { M with m_nnz := M.m_nnz + 1,
                   m_mat_uncomp := map_insert O (i, j) v M.m_mat_uncomp })) := by
  simp only [Write, hi, hj, and_self, if_true, check_presence_uncompressed M hc hs i j hi hj, hc]
  by_cases hv : v = 0
  · by_cases hn : M.m_nnz = 0
    · simp [hv, hn]
    · simp [hv, hn]
  · by_cases hcon : map_contains O (i, j) M.m_mat_uncomp = true
    · simp only [hv, decide_False, Bool.false_and, Bool.false_eq_true, if_false, Bool.not_false,
        if_true, hcon, map_assign_present O (i, j) v _ hs hcon, map_subscript,
        map_find_map_set_self O (i, j) v _ hcon]
    · rw [Bool.not_eq_true] at hcon
      simp only [hv, decide_False, Bool.false_and, Bool.false_eq_true, if_false, Bool.not_false,
        if_true, hcon, map_subscript, map_find_insert_self O (i, j) v _ hcon]

/-! ## Claims on the write access of an uncompressed matrix -/

/-- C5, evaluated on `Matrix<int> M(2,2); M(0,0,5); M(0,1,0);`: the cell (0,1) has no
stored entry, the write of zero executes `return zerovalue;` and leaves the map as it was,
and the count of non-zero elements drops from 1 to 0 although one entry is still stored. -/
theorem C5_write_zero_on_absent_decrements_nnz :
    ∃ M0 : Matrix StorageOrder.RowWise,
      (construct StorageOrder.RowWise 2 2 false).Writes [(0, 0, 5)] = some M0 ∧
      M0.m_compressed = false ∧
      map_contains StorageOrder.RowWise (0, 1) M0.m_mat_uncomp = false ∧
      M0.m_nnz = 1 ∧ M0.m_mat_uncomp = [((0, 0), 5)] ∧
      M0.Write 0 1 0 = some (Returned.zerovalue, { M0 with m_nnz := 0 }) :=
  ⟨⟨2, 2, 1, false, [((0, 0), 5)], [], [], []⟩, by decide, by decide, by decide, by decide,
    by decide, by decide⟩

/-- C3, evaluated on the matrix reached by `M(0,0,5)` from the empty 2 x 2 matrix: after
`M(0,1,0)` the read of (0,1) returns zero, and the count of non-zero elements has decreased
although (0,1) had no stored entry before the call. -/
theorem C3_nnz_decreases_without_entry :
    ∃ M0 M1 : Matrix StorageOrder.RowWise,
      (construct StorageOrder.RowWise 2 2 false).Writes [(0, 0, 5)] = some M0 ∧
      M0.Write 0 1 0 = some (Returned.zerovalue, M1) ∧
      M1.Read 0 1 = some 0 ∧
      M1.nnz < M0.nnz ∧
      map_contains StorageOrder.RowWise (0, 1) M0.m_mat_uncomp = false :=
  ⟨⟨2, 2, 1, false, [((0, 0), 5)], [], [], []⟩, ⟨2, 2, 0, false, [((0, 0), 5)], [], [], []⟩,
    by decide, by decide, by decide, by decide, by decide⟩

/-- C4, evaluated on `Matrix<int> M(2,2); M(0,0,5); M(0,1,0);`: the matrix is uncompressed,
its map holds one entry and `nnz()` returns 0; after `compress()` the values array holds one
element and `nnz()` still returns 0. -/
theorem C4_nnz_differs_from_store_size :
    ∃ M : Matrix StorageOrder.RowWise,
      (construct StorageOrder.RowWise 2 2 false).Writes [(0, 0, 5), (0, 1, 0)] = some M ∧
      M.m_compressed = false ∧ M.m_mat_uncomp.length = 1 ∧ M.nnz = 0 ∧
      M.compress.m_compressed = true ∧ M.compress.m_val_comp.length = 1 ∧
      M.compress.nnz = 0 :=
  ⟨⟨2, 2, 0, false, [((0, 0), 5)], [], [], []⟩, by decide, by decide, by decide, by decide,
    by decide, by decide, by decide⟩

/-- C6: in uncompressed mode, writing a non-zero value `v` to an in-bounds cell `(i,j)` with
no stored entry returns `v` (a reference to the stored element `m_mat_uncomp[key_elem]`, which
holds `v`), inserts the entry `((i,j), v)` into the map (the other entries
are kept, the map stays ordered), increases the count of non-zero elements by exactly one and
leaves dimensions and mode as they were; afterwards the read of `(i,j)` gives `v` and the read
of every other in-bounds cell gives what it gave before. -/
theorem C6_write_nonzero_on_absent_inserts (O : StorageOrder) (M : Matrix O) (i j : Nat)
    (v : Int) (hc : M.m_compressed = false) (hs : map_sorted O M.m_mat_uncomp)
    (hi : i < M.m_m) (hj : j < M.m_n)
    (habs : map_contains O (i, j) M.m_mat_uncomp = false) (hv : v ≠ 0) :
    ∃ M1 : Matrix O, M.Write i j v = some (Returned.stored v, M1) ∧
      M1.m_mat_uncomp = map_insert O (i, j) v M.m_mat_uncomp ∧
      (∀ p, p ∈ M1.m_mat_uncomp ↔ p = ((i, j), v) ∨ p ∈ M.m_mat_uncomp) ∧
      map_sorted O M1.m_mat_uncomp ∧
      M1.m_nnz = M.m_nnz + 1 ∧
      M1.m_m = M.m_m ∧ M1.m_n = M.m_n ∧ M1.m_compressed = false ∧
      M1.Read i j = some v ∧
      ∀ i1 j1, i1 < M.m_m → j1 < M.m_n → (i1, j1) ≠ (i, j) → M1.Read i1 j1 = M.Read i1 j1 := by
  have hs1 := map_insert_sorted O (i, j) v M.m_mat_uncomp hs
  refine ⟨{ M with m_nnz := M.m_nnz + 1,
                   m_mat_uncomp := map_insert O (i, j) v M.m_mat_uncomp }, ?_, rfl,
    mem_map_insert O (i, j) v _ habs, hs1, rfl, rfl, rfl, hc, ?_, ?_⟩
  · rw [Write_uncompressed M hc hs i j v hi hj]; simp [hv, habs]
  · have h := Read_uncompressed
      ({ M with m_nnz := M.m_nnz + 1,
                m_mat_uncomp := map_insert O (i, j) v M.m_mat_uncomp } : Matrix O)
      hc hs1 i j hi hj
    rw [h]
    simp [map_find_insert_self O (i, j) v _ habs]
  · intro i1 j1 hi1 hj1 hne
    have h := Read_uncompressed
      ({ M with m_nnz := M.m_nnz + 1,
                m_mat_uncomp := map_insert O (i, j) v M.m_mat_uncomp } : Matrix O)
      hc hs1 i1 j1 hi1 hj1
    rw [h, Read_uncompressed M hc hs i1 j1 hi1 hj1]
    simp [map_find_insert_ne O (i, j) (i1, j1) v _ hne]

/-- Witness of C6: the write `M(0,1,2)` on the empty 2 x 2 row-wise matrix. -/
theorem C6_witness :
    (construct StorageOrder.RowWise 2 2 false).m_compressed = false ∧
    map_contains StorageOrder.RowWise (0, 1)
      (construct StorageOrder.RowWise 2 2 false).m_mat_uncomp = false ∧
    ∃ M1 : Matrix StorageOrder.RowWise,
      (construct StorageOrder.RowWise 2 2 false).Write 0 1 2 = some (Returned.stored 2, M1) ∧
      M1.m_nnz = 1 ∧ M1.Read 0 1 = some 2 := by
  obtain ⟨M1, h1, _, _, _, h5, _, _, _, h9, _⟩ :=
    C6_write_nonzero_on_absent_inserts StorageOrder.RowWise
      (construct StorageOrder.RowWise 2 2 false) 0 1 2 (by decide) (by decide) (by decide)
      (by decide) (by decide) (by decide)
  exact ⟨by decide, by decide, M1, h1, h5, h9⟩

/-- In uncompressed mode, on a matrix whose count of non-zero elements equals the number of
entries of its map, writing zero to an in-bounds cell `(i,j)` that has a stored entry erases
exactly that entry (the entries kept are the ones under the other keys, and the map is one
entry shorter), decreases the count by exactly one and leaves dimensions and mode as they
were; the reference returned is the one to the local variable `zerovalue`. -/
theorem Write_zero_on_present_erases (O : StorageOrder) (M : Matrix O) (i j : Nat)
    (hc : M.m_compressed = false) (hs : map_sorted O M.m_mat_uncomp)
    (hi : i < M.m_m) (hj : j < M.m_n) (hnnz : M.m_nnz = M.m_mat_uncomp.length)
    (hpres : map_contains O (i, j) M.m_mat_uncomp = true) :
    ∃ M1 : Matrix O, M.Write i j 0 = some (Returned.zerovalue, M1) ∧
      M1.m_mat_uncomp = map_erase O (i, j) M.m_mat_uncomp ∧
      (∀ p, p ∈ M1.m_mat_uncomp ↔ p ∈ M.m_mat_uncomp ∧ p.1 ≠ (i, j)) ∧
      M1.m_mat_uncomp.length + 1 = M.m_mat_uncomp.length ∧
      M1.m_nnz + 1 = M.m_nnz ∧
      M1.m_nnz = M1.m_mat_uncomp.length ∧
      (∀ k, k ≠ (i, j) → map_find O k M1.m_mat_uncomp = map_find O k M.m_mat_uncomp) ∧
      M1.m_m = M.m_m ∧ M1.m_n = M.m_n ∧ M1.m_compressed = false := by
  have hlen := map_erase_length O (i, j) M.m_mat_uncomp hs hpres
  have hn : M.m_nnz ≠ 0 := by omega
  refine ⟨{ M with m_nnz := M.m_nnz - 1,
                   m_mat_uncomp := map_erase O (i, j) M.m_mat_uncomp }, ?_, rfl,
    mem_map_erase O (i, j) _, hlen, ?_, ?_, ?_, rfl, rfl, hc⟩
  · rw [Write_uncompressed M hc hs i j 0 hi hj]; simp [hn]
  · show M.m_nnz - 1 + 1 = M.m_nnz; omega
  · show M.m_nnz - 1 = (map_erase O (i, j) M.m_mat_uncomp).length; omega
  · intro k hk
    show map_find O k (map_erase O (i, j) M.m_mat_uncomp) = map_find O k M.m_mat_uncomp
    generalize M.m_mat_uncomp = mp
    induction mp with
    | nil => rfl
    | cons q mp ih =>
      by_cases hq : q.1 = (i, j)
      · have hq1 : key_equiv O q.1 (i, j) = true := (key_equiv_iff O _ _).2 hq
        have hqk : ¬ q.1 = k := by rw [hq]; exact fun h => hk h.symm
        simp only [map_erase, List.filter_cons, hq1, Bool.not_true, Bool.false_eq_true,
          if_false, map_find_cons, hqk]
        exact ih
      · have hq1 : key_equiv O q.1 (i, j) = false := by
          rw [key_equiv_eq_decide]; simp [hq]
        simp only [map_erase, List.filter_cons, hq1, Bool.not_false, if_true, map_find_cons]
        simp only [map_erase] at ih
        rw [ih]

/-- C7: the write of zero to a stored in-bounds cell of an uncompressed matrix whose count of
non-zero elements equals the number of map entries erases exactly that entry and decreases
the count by exactly one, as claimed; but the statement executed is `return zerovalue;` in a
function returning `T&`, so what is returned is a reference to a local variable that no
longer exists, not a zero that can be read.  Evaluated on
`Matrix<int> M(2,2); M(0,0,5); M(0,0,0);`. -/
theorem C7_erasing_write_returns_reference_to_local :
    (∀ (O : StorageOrder) (M : Matrix O) (i j : Nat), M.m_compressed = false →
      map_sorted O M.m_mat_uncomp → i < M.m_m → j < M.m_n →
      M.m_nnz = M.m_mat_uncomp.length → map_contains O (i, j) M.m_mat_uncomp = true →
      ∃ M1 : Matrix O, M.Write i j 0 = some (Returned.zerovalue, M1) ∧
        M1.m_mat_uncomp = map_erase O (i, j) M.m_mat_uncomp ∧
        (∀ p, p ∈ M1.m_mat_uncomp ↔ p ∈ M.m_mat_uncomp ∧ p.1 ≠ (i, j)) ∧
        M1.m_mat_uncomp.length + 1 = M.m_mat_uncomp.length ∧
        M1.m_nnz + 1 = M.m_nnz ∧
        M1.m_nnz = M1.m_mat_uncomp.length ∧
        (∀ k, k ≠ (i, j) → map_find O k M1.m_mat_uncomp = map_find O k M.m_mat_uncomp) ∧
        M1.m_m = M.m_m ∧ M1.m_n = M.m_n ∧ M1.m_compressed = false) ∧
    ∃ M0 M1 : Matrix StorageOrder.RowWise,
      (construct StorageOrder.RowWise 2 2 false).Writes [(0, 0, 5)] = some M0 ∧
      M0.m_compressed = false ∧ M0.m_nnz = M0.m_mat_uncomp.length ∧
      map_contains StorageOrder.RowWise (0, 0) M0.m_mat_uncomp = true ∧
      M0.Write 0 0 0 = some (Returned.zerovalue, M1) ∧
      M1.m_mat_uncomp = [] ∧ M1.m_nnz = 0 ∧
      ∀ z : Int, M0.Write 0 0 0 ≠ some (Returned.stored z, M1) :=
    by
  have h0 : (⟨2, 2, 1, false, [((0, 0), 5)], [], [], []⟩ : Matrix StorageOrder.RowWise).Write
      0 0 0 = some (Returned.zerovalue, ⟨2, 2, 0, false, [], [], [], []⟩) := by decide
  refine ⟨fun O M i j hc hs hi hj hnnz hpres =>
      Write_zero_on_present_erases O M i j hc hs hi hj hnnz hpres,
    ⟨2, 2, 1, false, [((0, 0), 5)], [], [], []⟩, ⟨2, 2, 0, false, [], [], [], []⟩,
    by decide, by decide, by decide, by decide, h0, by decide, by decide, ?_⟩
  intro z h
  rw [h0] at h
  cases h

/-- C8: in uncompressed mode, writing a non-zero value `v` to an in-bounds cell `(i,j)` that
has a stored entry returns `v` (a reference to the stored element `m_mat_uncomp[key_elem]`,
which holds `v`) and replaces the stored value by `v`: the map is the old one
with the value under `(i,j)` set to `v`, so the keys are the same, the value under every
other key is the same, and the count of non-zero elements, the dimensions and the mode are
unchanged. -/
theorem C8_write_nonzero_on_present_overwrites (O : StorageOrder) (M : Matrix O) (i j : Nat)
    (v : Int) (hc : M.m_compressed = false) (hs : map_sorted O M.m_mat_uncomp)
    (hi : i < M.m_m) (hj : j < M.m_n)
    (hpres : map_contains O (i, j) M.m_mat_uncomp = true) (hv : v ≠ 0) :
    ∃ M1 : Matrix O, M.Write i j v = some (Returned.stored v, M1) ∧
      M1.m_mat_uncomp = M.m_mat_uncomp.map (fun p => if p.1 = (i, j) then (p.1, v) else p) ∧
      M1.m_mat_uncomp.map Prod.fst = M.m_mat_uncomp.map Prod.fst ∧
      map_find O (i, j) M1.m_mat_uncomp = some v ∧
      (∀ k, k ≠ (i, j) → map_find O k M1.m_mat_uncomp = map_find O k M.m_mat_uncomp) ∧
      M1.m_nnz = M.m_nnz ∧
      M1.m_m = M.m_m ∧ M1.m_n = M.m_n ∧ M1.m_compressed = false := by
  refine ⟨{ M with m_mat_uncomp :=
              M.m_mat_uncomp.map (fun p => if p.1 = (i, j) then (p.1, v) else p) }, ?_, rfl,
    map_set_keys (i, j) v _, map_find_map_set_self O (i, j) v _ hpres,
    fun k hk => map_find_map_set_ne O (i, j) k v _ hk, rfl, rfl, rfl, hc⟩
  rw [Write_uncompressed M hc hs i j v hi hj]; simp [hv, hpres]

/-- Witness of C8: the write `M(0,0,7)` on the 2 x 2 row-wise matrix holding 5 at (0,0). -/
theorem C8_witness :
    map_contains StorageOrder.RowWise (0, 0)
      (⟨2, 2, 1, false, [((0, 0), 5)], [], [], []⟩ : Matrix StorageOrder.RowWise).m_mat_uncomp
      = true ∧
    ∃ M1 : Matrix StorageOrder.RowWise,
      (⟨2, 2, 1, false, [((0, 0), 5)], [], [], []⟩ : Matrix StorageOrder.RowWise).Write 0 0 7
        = some (Returned.stored 7, M1) ∧ M1.m_mat_uncomp = [((0, 0), 7)] ∧ M1.m_nnz = 1 := by
  obtain ⟨M1, h1, h2, _, _, _, h6, _⟩ :=
    C8_write_nonzero_on_present_overwrites StorageOrder.RowWise
      ⟨2, 2, 1, false, [((0, 0), 5)], [], [], []⟩ 0 0 7 (by decide) (by decide) (by decide)
      (by decide) (by decide) (by decide)
  exact ⟨by decide, M1, h1, by rw [h2]; decide, h6⟩

end Matrix

/-! ## Lists ordered by a line index: blocks and slices -/

/-- A list ordered by `f` splits into the block below `i`, the block at `i` and the block
above `i`. -/
theorem sorted_split {α : Type} (f : α → Nat) (L : List α)
    (hs : L.Pairwise (fun a b => f a ≤ f b)) (i : Nat) :
    L = L.filter (fun p => decide (f p < i)) ++ L.filter (fun p => decide (f p = i))
          ++ L.filter (fun p => decide (i < f p)) := by
  induction L with
  | nil => rfl
  | cons x xs ih =>
    obtain ⟨hx, hxs⟩ := List.pairwise_cons.1 hs
    have ih := ih hxs
    rcases Nat.lt_trichotomy (f x) i with h | h | h
    · have h2 : ¬ f x = i := by omega
      have h3 : ¬ i < f x := by omega
      simp only [List.filter_cons, h, h2, h3, decide_True, decide_False, if_true,
        Bool.false_eq_true, if_false, List.cons_append]
      rw [← ih]
    · have h1 : ¬ f x < i := by omega
      have h3 : ¬ i < f x := by omega
      have hnil : xs.filter (fun p => decide (f p < i)) = [] := by
        rw [List.filter_eq_nil_iff]
        intro y hy; have := hx y hy; simp; omega
      rw [hnil] at ih
      simp only [List.nil_append] at ih
      have e1 : (x :: xs).filter (fun p => decide (f p < i)) = [] := by
        simp [List.filter_cons, h1, hnil]
      have e2 : (x :: xs).filter (fun p => decide (f p = i))
          = x :: xs.filter (fun p => decide (f p = i)) := by
        simp [List.filter_cons, h]
      have e3 : (x :: xs).filter (fun p => decide (i < f p))
          = xs.filter (fun p => decide (i < f p)) := by
        simp [List.filter_cons, h3]
      rw [e1, e2, e3, List.nil_append, List.cons_append, ← ih]
    · have h1 : ¬ f x < i := by omega
      have h2 : ¬ f x = i := by omega
      have hnil : xs.filter (fun p => decide (f p < i)) = [] := by
        rw [List.filter_eq_nil_iff]
        intro y hy; have := hx y hy; simp; omega
      have hnil2 : xs.filter (fun p => decide (f p = i)) = [] := by
        rw [List.filter_eq_nil_iff]
        intro y hy; have := hx y hy; simp; omega
      rw [hnil, hnil2] at ih
      simp only [List.filter_cons, h, h1, h2, decide_True, decide_False, if_true,
        Bool.false_eq_true, if_false, hnil, hnil2, List.nil_append]
      simp only [List.nil_append] at ih
      rw [← ih]

theorem filter_lt_succ {α : Type} (f : α → Nat) (L : List α)
    (hs : L.Pairwise (fun a b => f a ≤ f b)) (i : Nat) :
    L.filter (fun p => decide (f p < i + 1)) =
      L.filter (fun p => decide (f p < i)) ++ L.filter (fun p => decide (f p = i)) := by
  induction L with
  | nil => rfl
  | cons x xs ih =>
    obtain ⟨hx, hxs⟩ := List.pairwise_cons.1 hs
    have ih := ih hxs
    rcases Nat.lt_trichotomy (f x) i with h | h | h
    · have h2 : ¬ f x = i := by omega
      have h3 : f x < i + 1 := by omega
      simp only [List.filter_cons, h, h2, h3, decide_True, decide_False, if_true,
        Bool.false_eq_true, if_false, List.cons_append, ih]
    · have h1 : ¬ f x < i := by omega
      have h3 : f x < i + 1 := by omega
      have hnil : xs.filter (fun p => decide (f p < i)) = [] := by
        rw [List.filter_eq_nil_iff]
        intro y hy; have := hx y hy; simp; omega
      rw [hnil] at ih
      simp only [List.filter_cons, h1, h3, decide_True, decide_False, if_true,
        Bool.false_eq_true, if_false, hnil, List.nil_append, ih]
      simp [h]
    · have h1 : ¬ f x < i := by omega
      have h2 : ¬ f x = i := by omega
      have h3 : ¬ f x < i + 1 := by omega
      simp only [List.filter_cons, h1, h2, h3, decide_False, Bool.false_eq_true, if_false, ih]

theorem countP_le_eq_lt_succ {α : Type} (f : α → Nat) (L : List α) (i : Nat) :
    L.countP (fun p => decide (f p ≤ i)) = L.countP (fun p => decide (f p < i + 1)) := by
  apply List.countP_congr
  intro x _; simp; omega

theorem slice?_eq_some {α : Type} (xs : List α) (lo hi : Nat) (h1 : lo ≤ hi)
    (h2 : hi ≤ xs.length) : slice? xs lo hi = some ((xs.drop lo).take (hi - lo)) := by
  simp [slice?, h1, h2]

theorem slice?_append {α : Type} (pre mid post : List α) :
    slice? (pre ++ mid ++ post) pre.length (pre.length + mid.length) = some mid := by
  rw [slice?_eq_some _ _ _ (by omega) (by simp)]
  simp [List.append_assoc]

theorem slice?_map {α β : Type} (g : α → β) (xs : List α) (lo hi : Nat) :
    slice? (xs.map g) lo hi = (slice? xs lo hi).map (List.map g) := by
  simp only [slice?, List.length_map]
  split_ifs <;> simp [List.map_take, List.map_drop]

theorem getElem?_append_block {α : Type} (pre mid post : List α) (t : Nat)
    (ht : t < mid.length) : (pre ++ mid ++ post)[pre.length + t]? = mid[t]? := by
  rw [List.append_assoc, List.getElem?_append_right (by omega)]
  simp only [Nat.add_sub_cancel_left]
  rw [List.getElem?_append_left ht]

/-! ## Binary search on an ascending range -/

theorem getD_mono_of_pairwise (xs : List Nat) (hs : xs.Pairwise (fun a b => a ≤ b)) :
    ∀ a b, a ≤ b → b < xs.length → xs.getD a 0 ≤ xs.getD b 0 := by
  intro a b hab hb
  rw [List.getD_eq_getElem xs 0 hb, List.getD_eq_getElem xs 0 (by omega : a < xs.length)]
  rcases Nat.eq_or_lt_of_le hab with h | h
  · subst h; exact Nat.le_refl _
  · exact (List.pairwise_iff_getElem.1 hs) a b (by omega) hb h

theorem lower_bound_loop_spec (xs : List Nat) (val : Nat)
    (hmono : ∀ a b, a ≤ b → b < xs.length → xs.getD a 0 ≤ xs.getD b 0) :
    ∀ fuel first len, len ≤ fuel → first + len ≤ xs.length →
      (∀ t, t < first → xs.getD t 0 < val) →
      (∀ t, first + len ≤ t → t < xs.length → val ≤ xs.getD t 0) →
      lower_bound_loop xs val fuel first len ≤ xs.length ∧
      (∀ t, t < lower_bound_loop xs val fuel first len → xs.getD t 0 < val) ∧
      (∀ t, lower_bound_loop xs val fuel first len ≤ t → t < xs.length →
        val ≤ xs.getD t 0) := by
  intro fuel
  induction fuel with
  | zero =>
    intro first len hlen hbound hlow hup
    have : len = 0 := by omega
    subst this
    simp only [lower_bound_loop]
    exact ⟨by omega, hlow, fun t ht => hup t (by omega)⟩
  | succ fuel ih =>
    intro first len hlen hbound hlow hup
    simp only [lower_bound_loop]
    by_cases hpos : 0 < len
    · simp only [hpos, if_true]
      have hhalf : len / 2 < len := Nat.div_lt_self hpos (by omega)
      by_cases hmid : xs.getD (first + len / 2) 0 < val
      · simp only [hmid, if_true]
        apply ih
        · omega
        · omega
        · intro t ht
          have := hmono t (first + len / 2) (by omega) (by omega)
          omega
        · intro t ht1 ht2
          exact hup t (by omega) ht2
      · simp only [hmid, if_false]
        apply ih
        · omega
        · omega
        · exact hlow
        · intro t ht1 ht2
          have := hmono (first + len / 2) t ht1 ht2
          omega
    · simp only [hpos, if_false]
      exact ⟨by omega, hlow, fun t ht => hup t (by omega)⟩

/-- On an ascending range `std::binary_search` answers membership. -/
theorem binary_search_iff (xs : List Nat) (hs : xs.Pairwise (fun a b => a ≤ b)) (val : Nat) :
    binary_search xs val = true ↔ val ∈ xs := by
  have hmono := getD_mono_of_pairwise xs hs
  obtain ⟨h1, h2, h3⟩ := lower_bound_loop_spec xs val hmono xs.length 0 xs.length
    (Nat.le_refl _) (by omega) (fun t ht => absurd ht (Nat.not_lt_zero t))
    (fun t ht1 ht2 => by omega)
  simp only [binary_search, vec_lower_bound, Bool.and_eq_true, decide_eq_true_eq,
    Bool.not_eq_true', decide_eq_false_iff_not]
  constructor
  · rintro ⟨hne, hnlt⟩
    have hr : lower_bound_loop xs val xs.length 0 xs.length < xs.length := by omega
    have := h3 _ (Nat.le_refl _) hr
    have heq : xs.getD (lower_bound_loop xs val xs.length 0 xs.length) 0 = val := by omega
    rw [List.getD_eq_getElem xs 0 hr] at heq
    rw [← heq]
    exact List.getElem_mem _
  · intro hmem
    obtain ⟨t, ht, rfl⟩ := List.mem_iff_getElem.1 hmem
    have hrt : lower_bound_loop xs xs[t] xs.length 0 xs.length ≤ t := by
      by_contra hcon
      have := h2 t (by omega)
      rw [List.getD_eq_getElem xs 0 ht] at this
      omega
    refine ⟨by omega, ?_⟩
    have := hmono _ t hrt ht
    rw [List.getD_eq_getElem xs 0 ht] at this
    omega

theorem find_pos_map {α : Type} (g : α → Nat) (x : Nat) (l : List α) :
    find_pos x (l.map g) = find_if_pos (fun q => decide (g q = x)) l := by
  induction l with
  | nil => rfl
  | cons q l ih =>
    simp only [find_pos] at ih
    simp only [find_pos, List.map_cons, find_if_pos, ih]

theorem find_if_pos_spec {α : Type} (p : α → Bool) (l : List α) (x : α) (hx : x ∈ l)
    (hp : p x = true) :
    ∃ y, l[find_if_pos p l]? = some y ∧ p y = true ∧ y ∈ l := by
  induction l with
  | nil => cases hx
  | cons q l ih =>
    by_cases hq : p q = true
    · exact ⟨q, by simp [find_if_pos, hq], hq, List.mem_cons_self _ _⟩
    · rcases List.mem_cons.1 hx with rfl | hx
      · exact absurd hp hq
      · obtain ⟨y, h1, h2, h3⟩ := ih hx
        rw [Bool.not_eq_true] at hq
        exact ⟨y, by rw [find_if_pos_cons_neg p q l hq]; simpa using h1, h2,
          List.mem_cons_of_mem _ h3⟩

theorem find_if_pos_lt_length {α : Type} (p : α → Bool) (l : List α) (x : α) (hx : x ∈ l)
    (hp : p x = true) : find_if_pos p l < l.length := by
  have h1 := find_if_pos_le_length p l
  have h2 := (find_if_pos_ne_length_iff p l).2 ⟨x, hx, hp⟩
  omega

/-! ## The compressed form of an ordered entry list -/

theorem map_sorted_major (O : StorageOrder) (L : MatrixUncompressed) (hs : map_sorted O L) :
    L.Pairwise (fun a b => major O a.1 ≤ major O b.1) := by
  apply List.Pairwise.imp _ hs
  intro a b h
  rw [key_comp_iff] at h; omega

theorem map_split (O : StorageOrder) (L : MatrixUncompressed) (hs : map_sorted O L) (i : Nat) :
    L = lines_before O L i ++ line_block O L i
          ++ L.filter (fun p => decide (i < major O p.1)) :=
  sorted_split (fun p : key_type × Int => major O p.1) L (map_sorted_major O L hs) i

theorem lines_before_succ (O : StorageOrder) (L : MatrixUncompressed) (hs : map_sorted O L)
    (i : Nat) : lines_before O L (i + 1) = lines_before O L i ++ line_block O L i :=
  filter_lt_succ (fun p : key_type × Int => major O p.1) L (map_sorted_major O L hs) i

theorem lines_before_zero (O : StorageOrder) (L : MatrixUncompressed) :
    lines_before O L 0 = [] := by
  simp [lines_before]

theorem mem_line_block (O : StorageOrder) (L : MatrixUncompressed) (i : Nat)
    (p : key_type × Int) : p ∈ line_block O L i ↔ p ∈ L ∧ major O p.1 = i := by
  simp [line_block, List.mem_filter]

theorem mem_lines_before (O : StorageOrder) (L : MatrixUncompressed) (i : Nat)
    (p : key_type × Int) : p ∈ lines_before O L i ↔ p ∈ L ∧ major O p.1 < i := by
  simp [lines_before, List.mem_filter]

/-- Within a native line the other key component is strictly ascending. -/
theorem line_block_minor_sorted (O : StorageOrder) (L : MatrixUncompressed)
    (hs : map_sorted O L) (i : Nat) :
    ((line_block O L i).map (fun p => minor O p.1)).Pairwise (fun a b => a < b) := by
  rw [List.pairwise_map]
  have hsub : (line_block O L i).Pairwise (fun a b => key_comp O a.1 b.1 = true) :=
    List.Pairwise.sublist (List.filter_sublist _) hs
  apply List.Pairwise.imp_of_mem _ hsub
  intro a b ha hb h
  rw [mem_line_block] at ha hb
  rw [key_comp_iff] at h; omega

theorem inner_lo (O : StorageOrder) (L : MatrixUncompressed) (d i : Nat) (hi : i ≤ d) :
    (0 :: (List.range d).map
      (fun t => L.countP (fun p => decide (major O p.1 ≤ t))))[i]?
      = some (lines_before O L i).length := by
  cases i with
  | zero => simp [lines_before_zero]
  | succ k =>
    rw [List.getElem?_cons_succ, List.getElem?_map, List.getElem?_range (by omega)]
    simp only [Option.map_some', Option.some.injEq]
    rw [countP_le_eq_lt_succ (fun p : key_type × Int => major O p.1) L k,
      List.countP_eq_length_filter]
    rfl

theorem inner_hi (O : StorageOrder) (L : MatrixUncompressed) (hs : map_sorted O L)
    (d i : Nat) (hi : i < d) :
    (0 :: (List.range d).map
      (fun t => L.countP (fun p => decide (major O p.1 ≤ t))))[i + 1]?
      = some ((lines_before O L i).length + (line_block O L i).length) := by
  rw [inner_lo O L d (i + 1) (by omega), lines_before_succ O L hs, List.length_append]

theorem slice_block (O : StorageOrder) (L : MatrixUncompressed) (hs : map_sorted O L)
    (i : Nat) :
    slice? L (lines_before O L i).length
      ((lines_before O L i).length + (line_block O L i).length) = some (line_block O L i) := by
  have h := slice?_append (lines_before O L i) (line_block O L i)
    (L.filter (fun p => decide (i < major O p.1)))
  rwa [← map_split O L hs i] at h

theorem getElem?_block (O : StorageOrder) (L : MatrixUncompressed) (hs : map_sorted O L)
    (i t : Nat) (ht : t < (line_block O L i).length) :
    L[(lines_before O L i).length + t]? = (line_block O L i)[t]? := by
  have h := getElem?_append_block (lines_before O L i) (line_block O L i)
    (L.filter (fun p => decide (i < major O p.1))) t ht
  rwa [← map_split O L hs i] at h

namespace Matrix

variable {O : StorageOrder}

theorem compress_eq (U : Matrix O) (h : U.uncompressed_ok) :
    U.compress = compressed_of O U.m_m U.m_n U.m_nnz U.m_mat_uncomp := by
  obtain ⟨hc, _, _, hv, hi, ho⟩ := h
  cases O <;>
    simp [compress, compressed_of, clear_buffer, hc, hv, hi, ho, major, minor]

theorem compressed_of_inner_lo (O : StorageOrder) (m n nnz : Nat) (L : MatrixUncompressed)
    (i : Nat) (hi : i ≤ (if O = StorageOrder.RowWise then m else n)) :
    (compressed_of O m n nnz L).m_inner[i]? = some (lines_before O L i).length :=
  inner_lo O L _ i hi

theorem compressed_of_inner_hi (O : StorageOrder) (m n nnz : Nat) (L : MatrixUncompressed)
    (hs : map_sorted O L) (i : Nat) (hi : i < (if O = StorageOrder.RowWise then m else n)) :
    (compressed_of O m n nnz L).m_inner[i + 1]?
      = some ((lines_before O L i).length + (line_block O L i).length) :=
  inner_hi O L hs _ i hi

theorem compressed_of_slice_outer (O : StorageOrder) (m n nnz : Nat) (L : MatrixUncompressed)
    (hs : map_sorted O L) (i : Nat) :
    slice? (compressed_of O m n nnz L).m_outer (lines_before O L i).length
        ((lines_before O L i).length + (line_block O L i).length)
      = some ((line_block O L i).map (fun p => minor O p.1)) := by
  show slice? (L.map (fun p => minor O p.1)) _ _ = _
  rw [slice?_map, slice_block O L hs i]; rfl

theorem compressed_of_slice_val (O : StorageOrder) (m n nnz : Nat) (L : MatrixUncompressed)
    (hs : map_sorted O L) (i : Nat) :
    slice? (compressed_of O m n nnz L).m_val_comp (lines_before O L i).length
        ((lines_before O L i).length + (line_block O L i).length)
      = some ((line_block O L i).map (fun p => p.2)) := by
  show slice? (L.map (fun p => p.2)) _ _ = _
  rw [slice?_map, slice_block O L hs i]; rfl

/-- Compressed native-line test: the offsets differ exactly when the line holds an entry. -/
theorem native_lt_iff (O : StorageOrder) (L : MatrixUncompressed) (i : Nat) :
    decide ((lines_before O L i).length
        < (lines_before O L i).length + (line_block O L i).length)
      = decide (∃ p ∈ L, major O p.1 = i) := by
  rw [Bool.eq_iff_iff]
  simp only [decide_eq_true_eq]
  constructor
  · intro h
    have hpos : 0 < (line_block O L i).length := by omega
    obtain ⟨p, hp⟩ := List.exists_mem_of_length_pos hpos
    exact ⟨p, (mem_line_block O L i p).1 hp⟩
  · rintro ⟨p, hp, hm⟩
    have := List.length_pos_of_mem ((mem_line_block O L i p).2 ⟨hp, hm⟩)
    omega

/-- Compressed cross-line test: the index occurs in `m_outer` exactly when the line holds an
entry. -/
theorem cross_find_iff (O : StorageOrder) (m n nnz : Nat) (L : MatrixUncompressed) (b : Nat) :
    decide (find_pos b (compressed_of O m n nnz L).m_outer
        ≠ (compressed_of O m n nnz L).m_outer.length)
      = decide (∃ p ∈ L, minor O p.1 = b) := by
  show decide (find_pos b (L.map (fun p => minor O p.1)) ≠ (L.map (fun p => minor O p.1)).length)
    = _
  rw [Bool.eq_iff_iff]
  simp only [decide_eq_true_eq, find_pos_map, List.length_map, find_if_pos_ne_length_iff]

/-- Binary search in the slice of a native line: true exactly when the key is stored. -/
theorem block_search_iff (O : StorageOrder) (L : MatrixUncompressed) (hs : map_sorted O L)
    (a b : Nat) :
    binary_search ((line_block O L a).map (fun p => minor O p.1)) b
      = map_contains O (mk_key O a b) L := by
  rw [Bool.eq_iff_iff, binary_search_iff _
    (List.Pairwise.imp (fun h => Nat.le_of_lt h) (line_block_minor_sorted O L hs a)),
    map_contains_iff]
  simp only [List.mem_map]
  constructor
  · rintro ⟨p, hp, hmin⟩
    rw [mem_line_block] at hp
    refine ⟨p.2, ?_⟩
    have : mk_key O a b = p.1 := by rw [← hp.2, ← hmin, mk_key_major_minor]
    rw [this]; exact hp.1
  · rintro ⟨v, hv⟩
    exact ⟨_, (mem_line_block O L a _).2 ⟨hv, major_mk_key O a b⟩, minor_mk_key O a b⟩

/-- Presence test on the compressed form: true exactly when the key is in the entry list. -/
theorem check_presence_compressed_of (O : StorageOrder) (m n nnz : Nat)
    (L : MatrixUncompressed) (hs : map_sorted O L) (i j : Nat) (hi : i < m) (hj : j < n) :
    (compressed_of O m n nnz L).check_presence i j = some (map_contains O (i, j) L) := by
  have hm : (compressed_of O m n nnz L).m_m = m := rfl
  have hn : (compressed_of O m n nnz L).m_n = n := rfl
  have hcomp : (compressed_of O m n nnz L).m_compressed = true := rfl
  have hmem : map_contains O (i, j) L = true →
      (∃ p ∈ L, p.1.1 = i) ∧ (∃ p ∈ L, p.1.2 = j) := by
    intro h
    obtain ⟨v, hv⟩ := (map_contains_iff O _ _).1 h
    exact ⟨⟨_, hv, rfl⟩, ⟨_, hv, rfl⟩⟩
  cases O
  · have hlo := compressed_of_inner_lo StorageOrder.RowWise m n nnz L i (by simp; omega)
    have hhi := compressed_of_inner_hi StorageOrder.RowWise m n nnz L hs i (by simp; omega)
    have hsl := compressed_of_slice_outer StorageOrder.RowWise m n nnz L hs i
    have hbs := block_search_iff StorageOrder.RowWise L hs i j
    have hnat := native_lt_iff StorageOrder.RowWise L i
    have hcr := cross_find_iff StorageOrder.RowWise m n nnz L j
    simp only [major, minor, mk_key, if_true] at hbs hnat hcr hsl
    simp only [check_presence, check_presence_row, check_presence_col, hm, hn, hi, hj, and_self,
      if_true, hcomp, hlo, hhi, hnat, hcr, hsl, Option.map_some', hbs, Bool.not_true,
      Bool.false_eq_true, if_false]
    cases hcon : map_contains StorageOrder.RowWise (i, j) L
    · split
      · rename_i heq; simp at heq
      · rfl
      · split
        · rename_i heq; simp at heq
        · rfl
        · rfl
    · obtain ⟨h1, h2⟩ := hmem hcon
      simp [h1, h2]
  · have hlo := compressed_of_inner_lo StorageOrder.ColumnWise m n nnz L j (by simp; omega)
    have hhi := compressed_of_inner_hi StorageOrder.ColumnWise m n nnz L hs j (by simp; omega)
    have hsl := compressed_of_slice_outer StorageOrder.ColumnWise m n nnz L hs j
    have hbs := block_search_iff StorageOrder.ColumnWise L hs j i
    have hnat := native_lt_iff StorageOrder.ColumnWise L j
    have hcr := cross_find_iff StorageOrder.ColumnWise m n nnz L i
    simp only [major, minor, mk_key, reduceCtorEq, if_false] at hbs hnat hcr hsl
    simp only [check_presence, check_presence_row, check_presence_col, hm, hn, hi, hj, and_self,
      if_true, hcomp, hlo, hhi, hnat, hcr, hsl, Option.map_some', hbs, Bool.not_true,
      Bool.false_eq_true, if_false, reduceCtorEq]
    cases hcon : map_contains StorageOrder.ColumnWise (i, j) L
    · split
      · rename_i heq; simp at heq
      · rfl
      · split
        · rename_i heq; simp at heq
        · rfl
        · rfl
    · obtain ⟨h1, h2⟩ := hmem hcon
      simp [h1, h2]

end Matrix

/-- Position, in the compressed vectors, of the entry stored under a key: the offset of its
native line plus the place `std::find` reports inside the slice of that line. -/
theorem block_position (O : StorageOrder) (L : MatrixUncompressed) (hs : map_sorted O L)
    (a b : Nat) (hc : map_contains O (mk_key O a b) L = true) :
    ∃ v, L[(lines_before O L a).length
            + find_pos b ((line_block O L a).map (fun p => minor O p.1))]?
        = some (mk_key O a b, v) := by
  obtain ⟨w, hw⟩ := (map_contains_iff O _ _).1 hc
  have hwb : (mk_key O a b, w) ∈ line_block O L a :=
    (mem_line_block O L a _).2 ⟨hw, major_mk_key O a b⟩
  have hp : (fun q : key_type × Int => decide (minor O q.1 = b)) (mk_key O a b, w) = true := by
    simp [minor_mk_key]
  rw [find_pos_map]
  obtain ⟨y, hy1, hy2, hy3⟩ := find_if_pos_spec
    (fun q : key_type × Int => decide (minor O q.1 = b)) (line_block O L a) _ hwb hp
  have hlt := find_if_pos_lt_length
    (fun q : key_type × Int => decide (minor O q.1 = b)) (line_block O L a) _ hwb hp
  rw [getElem?_block O L hs a _ hlt, hy1]
  rw [mem_line_block] at hy3
  simp only [decide_eq_true_eq] at hy2
  have hk : y.1 = mk_key O a b := by
    apply key_ext O
    · rw [major_mk_key]; exact hy3.2
    · rw [minor_mk_key]; exact hy2
  exact ⟨y.2, by rw [← hk]⟩

theorem block_value (O : StorageOrder) (L : MatrixUncompressed) (hs : map_sorted O L)
    (a b : Nat) (hc : map_contains O (mk_key O a b) L = true) :
    (L.map (fun p => p.2))[(lines_before O L a).length
        + find_pos b ((line_block O L a).map (fun p => minor O p.1))]?
      = map_find O (mk_key O a b) L := by
  obtain ⟨v, hv⟩ := block_position O L hs a b hc
  rw [List.getElem?_map, hv]
  have hmem : (mk_key O a b, v) ∈ L := List.mem_iff_getElem?.2 ⟨_, hv⟩
  rw [(map_find_eq_some_iff O _ v L hs).2 hmem]
  rfl

/-- In an ordered map, setting the value under the key found at position `t` changes that
one position of the entry list. -/
theorem map_set_eq_set (O : StorageOrder) (k : key_type) (v w : Int) :
    ∀ (L : MatrixUncompressed) (t : Nat), map_sorted O L → L[t]? = some (k, w) →
      L.map (fun p => if p.1 = k then (p.1, v) else p) = L.set t (k, v) := by
  intro L
  induction L with
  | nil => intro t _ h; simp at h
  | cons q L ih =>
    intro t hs h
    rw [map_sorted_cons] at hs
    cases t with
    | zero =>
      simp only [List.getElem?_cons_zero, Option.some.injEq] at h
      subst h
      simp only [List.map_cons, if_true, List.set_cons_zero, List.cons.injEq, true_and]
      conv_rhs => rw [← List.map_id L]
      apply List.map_congr_left
      intro p hp
      have := hs.1 p hp
      have hne : ¬ p.1 = k := by
        intro heq; rw [heq, key_comp_irrefl] at this; cases this
      simp [hne]
    | succ t =>
      simp only [List.getElem?_cons_succ] at h
      have hmem : (k, w) ∈ L := List.mem_iff_getElem?.2 ⟨_, h⟩
      have := hs.1 _ hmem
      have hne : ¬ q.1 = k := by
        intro heq; rw [heq, key_comp_irrefl] at this; cases this
      simp only [List.map_cons, hne, if_false, List.set_cons_succ, ih t hs.2 h]

theorem countP_key_map_set (k : key_type) (v : Int) (g : key_type → Bool)
    (L : MatrixUncompressed) :
    (L.map (fun p => if p.1 = k then (p.1, v) else p)).countP (fun p => g p.1)
      = L.countP (fun p => g p.1) := by
  rw [List.countP_map]
  apply List.countP_congr
  intro p _
  by_cases hp : p.1 = k <;> simp [hp]

theorem map_key_map_set (k : key_type) (v : Int) (g : key_type → Nat)
    (L : MatrixUncompressed) :
    (L.map (fun p => if p.1 = k then (p.1, v) else p)).map (fun p => g p.1)
      = L.map (fun p => g p.1) := by
  rw [List.map_map]
  apply List.map_congr_left
  intro p _
  by_cases hp : p.1 = k <;> simp [hp]

namespace Matrix

variable {O : StorageOrder}

/-- Read access on the compressed form: the value stored under the key in the entry list,
zero when there is none. -/
theorem Read_compressed_of (O : StorageOrder) (m n nnz : Nat)
    (L : MatrixUncompressed) (hs : map_sorted O L) (i j : Nat) (hi : i < m) (hj : j < n) :
    (compressed_of O m n nnz L).Read i j = some ((map_find O (i, j) L).getD 0) := by
  have hcomp : (compressed_of O m n nnz L).m_compressed = true := rfl
  have hval : (compressed_of O m n nnz L).m_val_comp = L.map (fun p => p.2) := rfl
  simp only [Read, check_presence_compressed_of O m n nnz L hs i j hi hj]
  cases hcon : map_contains O (i, j) L
  · rw [← map_find_eq_none_iff] at hcon
    simp [hcon]
  · have hsome : ∃ v, map_find O (i, j) L = some v := by
      cases hf : map_find O (i, j) L
      · rw [map_find_eq_none_iff] at hf; rw [hf] at hcon; cases hcon
      · exact ⟨_, rfl⟩
    obtain ⟨v, hv⟩ := hsome
    cases O
    · have hlo := compressed_of_inner_lo StorageOrder.RowWise m n nnz L i (by simp; omega)
      have hhi := compressed_of_inner_hi StorageOrder.RowWise m n nnz L hs i (by simp; omega)
      have hsl := compressed_of_slice_outer StorageOrder.RowWise m n nnz L hs i
      have hbv := block_value StorageOrder.RowWise L hs i j hcon
      simp only [hcomp, Bool.not_true, Bool.false_eq_true, if_false, if_true, hlo, hhi, hsl,
        hval, hbv]
      simp only [mk_key, if_true, hv, Option.getD_some]
    · have hlo := compressed_of_inner_lo StorageOrder.ColumnWise m n nnz L j (by simp; omega)
      have hhi := compressed_of_inner_hi StorageOrder.ColumnWise m n nnz L hs j (by simp; omega)
      have hsl := compressed_of_slice_outer StorageOrder.ColumnWise m n nnz L hs j
      have hbv := block_value StorageOrder.ColumnWise L hs j i hcon
      simp only [hcomp, Bool.not_true, Bool.false_eq_true, if_false, hlo, hhi, hsl,
        hval, hbv, reduceCtorEq]
      simp only [mk_key, reduceCtorEq, if_false, hv, Option.getD_some]

/-- Assigning the value at the position of a stored key gives the compressed form of the
entry list with that value set. -/
theorem compressed_of_set (O : StorageOrder) (m n nnz : Nat) (L : MatrixUncompressed)
    (hs : map_sorted O L) (k : key_type) (v w : Int) (t : Nat) (ht : L[t]? = some (k, w)) :
    ({ compressed_of O m n nnz L with
        m_val_comp := (compressed_of O m n nnz L).m_val_comp.set t v } : Matrix O)
      = compressed_of O m n nnz (L.map (fun p => if p.1 = k then (p.1, v) else p)) := by
  have h1 := map_set_eq_set O k v w L t hs ht
  have h2 := fun t => countP_key_map_set k v (fun q => decide (major O q ≤ t)) L
  have h3 := map_key_map_set k v (fun q => minor O q) L
  simp only [compressed_of, h2, h3]
  rw [h1, List.map_set]

/-- Write access on the compressed form, rejected branch: the value is zero or the key is
not stored. -/
theorem Write_compressed_of_reject (O : StorageOrder) (m n nnz : Nat)
    (L : MatrixUncompressed) (hs : map_sorted O L) (i j : Nat) (v : Int) (hi : i < m)
    (hj : j < n) (h : v = 0 ∨ map_contains O (i, j) L = false) :
    (compressed_of O m n nnz L).Write i j v =
      some (Returned.zerovalue, compressed_of O m n nnz L) := by
  have hm : (compressed_of O m n nnz L).m_m = m := rfl
  have hn : (compressed_of O m n nnz L).m_n = n := rfl
  have hcomp : (compressed_of O m n nnz L).m_compressed = true := rfl
  simp only [Write, hm, hn, hi, hj, and_self, if_true,
    check_presence_compressed_of O m n nnz L hs i j hi hj, hcomp, Bool.not_true,
    Bool.false_eq_true, if_false, Bool.true_and]
  rcases h with h | h
  · simp [h]
  · simp [h]

/-- Write access on the compressed form, modifying branch: a non-zero value on a stored
key is assigned at the position of that key in the values vector. -/
theorem Write_compressed_of_present (O : StorageOrder) (m n nnz : Nat)
    (L : MatrixUncompressed) (hs : map_sorted O L) (i j : Nat) (v : Int) (hi : i < m)
    (hj : j < n) (hv : v ≠ 0) (hc : map_contains O (i, j) L = true) :
    ∃ t w, L[t]? = some ((i, j), w) ∧
      (compressed_of O m n nnz L).Write i j v = some (Returned.stored v,
        { compressed_of O m n nnz L with
            m_val_comp := (compressed_of O m n nnz L).m_val_comp.set t v }) := by
  have hm : (compressed_of O m n nnz L).m_m = m := rfl
  have hn : (compressed_of O m n nnz L).m_n = n := rfl
  have hcomp : (compressed_of O m n nnz L).m_compressed = true := rfl
  have hlen : (compressed_of O m n nnz L).m_val_comp.length = L.length := by
    simp [compressed_of]
  have hpos : ∀ t w, L[t]? = some ((i, j), w) → t < L.length := by
    intro t w h
    by_contra hcon
    rw [List.getElem?_eq_none (by omega)] at h
    cases h
  cases O
  · have hlo := compressed_of_inner_lo StorageOrder.RowWise m n nnz L i (by simp; omega)
    have hhi := compressed_of_inner_hi StorageOrder.RowWise m n nnz L hs i (by simp; omega)
    have hsl := compressed_of_slice_outer StorageOrder.RowWise m n nnz L hs i
    have hc1 : map_contains StorageOrder.RowWise (mk_key StorageOrder.RowWise i j) L = true := by
      simpa [mk_key] using hc
    obtain ⟨w, hw⟩ := block_position StorageOrder.RowWise L hs i j hc1
    simp only [mk_key, if_true] at hw
    refine ⟨_, w, hw, ?_⟩
    simp only [Write, hm, hn, hi, hj, and_self, if_true,
      check_presence_compressed_of StorageOrder.RowWise m n nnz L hs i j hi hj, hcomp,
      Bool.not_true, Bool.false_eq_true, if_false, Bool.true_and, hc, hv, decide_False,
      Bool.false_and, Bool.or_self, hlo, hhi, hsl, assign_value, hlen, hpos _ w hw]
  · have hlo := compressed_of_inner_lo StorageOrder.ColumnWise m n nnz L j (by simp; omega)
    have hhi := compressed_of_inner_hi StorageOrder.ColumnWise m n nnz L hs j (by simp; omega)
    have hsl := compressed_of_slice_outer StorageOrder.ColumnWise m n nnz L hs j
    have hc1 : map_contains StorageOrder.ColumnWise (mk_key StorageOrder.ColumnWise j i) L
        = true := by
      simpa [mk_key] using hc
    obtain ⟨w, hw⟩ := block_position StorageOrder.ColumnWise L hs j i hc1
    simp only [mk_key, reduceCtorEq, if_false] at hw
    refine ⟨_, w, hw, ?_⟩
    simp only [Write, hm, hn, hi, hj, and_self, if_true,
      check_presence_compressed_of StorageOrder.ColumnWise m n nnz L hs i j hi hj, hcomp,
      Bool.not_true, Bool.false_eq_true, if_false, Bool.true_and, hc, hv, decide_False,
      Bool.false_and, Bool.or_self, hlo, hhi, hsl, assign_value, hlen, hpos _ w hw,
      reduceCtorEq]

/-! ## Matrices built by write accesses -/

theorem construct_ok (O : StorageOrder) (m n : Nat) :
    (construct O m n false).uncompressed_ok :=
  ⟨rfl, map_sorted_nil O, by simp [construct], rfl, rfl, rfl⟩

theorem Write_in_bounds (M : Matrix O) (i j : Nat) (v : Int) (r : Returned × Matrix O)
    (hw : M.Write i j v = some r) : i < M.m_m ∧ j < M.m_n := by
  by_contra hcon
  simp [Write, hcon] at hw

/-- A write access keeps an uncompressed matrix well formed and keeps its extents. -/
theorem Write_ok (M : Matrix O) (h : M.uncompressed_ok) (i j : Nat) (v : Int)
    (r : Returned × Matrix O) (hw : M.Write i j v = some r) :
    r.2.uncompressed_ok ∧ r.2.m_m = M.m_m ∧ r.2.m_n = M.m_n := by
  obtain ⟨hc, hs, hb, hv, hin, hout⟩ := h
  obtain ⟨hi, hj⟩ := Write_in_bounds M i j v r hw
  rw [Write_uncompressed M hc hs i j v hi hj, Option.some.injEq] at hw
  subst hw
  by_cases hv0 : v = 0
  · by_cases hn : M.m_nnz = 0
    · rw [if_pos hv0, if_pos hn]
      exact ⟨⟨hc, hs, hb, hv, hin, hout⟩, rfl, rfl⟩
    · rw [if_pos hv0, if_neg hn]
      refine ⟨⟨hc, map_erase_sorted O _ _ hs, ?_, hv, hin, hout⟩, rfl, rfl⟩
      intro p hp
      exact hb p ((mem_map_erase O _ _ p).1 hp).1
  · by_cases hcon : map_contains O (i, j) M.m_mat_uncomp = true
    · rw [if_neg hv0, if_pos hcon]
      refine ⟨⟨hc, map_sorted_of_keys O _ _ (map_set_keys (i, j) v _) hs, ?_, hv, hin, hout⟩,
        rfl, rfl⟩
      intro p hp
      obtain ⟨q, hq, rfl⟩ := List.mem_map.1 hp
      have := hb q hq
      by_cases hqk : q.1 = (i, j) <;> simp [hqk] <;> simpa [hqk] using this
    · rw [if_neg hv0, if_neg hcon]
      rw [Bool.not_eq_true] at hcon
      refine ⟨⟨hc, map_insert_sorted O _ _ _ hs, ?_, hv, hin, hout⟩, rfl, rfl⟩
      intro p hp
      rcases (mem_map_insert O (i, j) v _ hcon p).1 hp with rfl | hp
      · exact ⟨hi, hj⟩
      · exact hb p hp

/-- A sequence of write accesses keeps an uncompressed matrix well formed and keeps its
extents. -/
theorem Writes_ok (ws : List (Nat × Nat × Int)) :
    ∀ (M M1 : Matrix O), M.uncompressed_ok → M.Writes ws = some M1 →
      M1.uncompressed_ok ∧ M1.m_m = M.m_m ∧ M1.m_n = M.m_n := by
  induction ws with
  | nil =>
    intro M M1 h hw
    simp only [Writes, Option.some.injEq] at hw
    subst hw; exact ⟨h, rfl, rfl⟩
  | cons w ws ih =>
    intro M M1 h hw
    simp only [Writes] at hw
    cases hr : M.Write w.1 w.2.1 w.2.2 with
    | none => rw [hr] at hw; cases hw
    | some r =>
      rw [hr] at hw
      obtain ⟨h1, h2, h3⟩ := Write_ok M h _ _ _ r hr
      obtain ⟨h4, h5, h6⟩ := ih r.2 M1 h1 hw
      exact ⟨h4, by rw [h5, h2], by rw [h6, h3]⟩

/-! ## Claims on the write access of a compressed matrix -/

/-- On the matrix obtained by `compress()` from a well-formed uncompressed matrix, for an
in-bounds cell `(i,j)` and a value `v` such that `(i,j)` has no stored element or `v` is
zero, the presence test answers whether the element is stored, and the write access leaves
the whole matrix as it was and returns the reference to the local variable `zerovalue`. -/
theorem compress_Write_rejected (O : StorageOrder) (U : Matrix O)
    (hU : U.uncompressed_ok) (i j : Nat) (v : Int) (hi : i < U.m_m) (hj : j < U.m_n)
    (h : map_contains O (i, j) U.m_mat_uncomp = false ∨ v = 0) :
    U.compress.m_compressed = true ∧
    U.compress.check_presence i j = some (map_contains O (i, j) U.m_mat_uncomp) ∧
    U.compress.Write i j v = some (Returned.zerovalue, U.compress) := by
  rw [compress_eq U hU]
  exact ⟨rfl, check_presence_compressed_of O _ _ _ _ hU.2.1 i j hi hj,
    Write_compressed_of_reject O _ _ _ _ hU.2.1 i j v hi hj h.symm⟩

/-- C9: on the matrix obtained by `compress()` from a well-formed uncompressed matrix, a write
to an in-bounds cell that has no stored element, or of the value zero, leaves the whole
matrix (values, index and offsets arrays, count of non-zero elements, dimensions, mode) as it
was, as claimed; but the statement executed is `return zerovalue;` in a function returning
`T&`, so what is returned is a reference to a local variable that no longer exists, not a
zero that can be read.  Evaluated on the compressed 2 x 2 matrix [[0,2],[3,0]] with the
writes `M(0,0,7)` (no stored element) and `M(0,1,0)` (value zero). -/
theorem C9_rejected_write_returns_reference_to_local :
    (∀ (O : StorageOrder) (U : Matrix O), U.uncompressed_ok → ∀ (i j : Nat) (v : Int),
      i < U.m_m → j < U.m_n → (map_contains O (i, j) U.m_mat_uncomp = false ∨ v = 0) →
      U.compress.m_compressed = true ∧
      U.compress.check_presence i j = some (map_contains O (i, j) U.m_mat_uncomp) ∧
      U.compress.Write i j v = some (Returned.zerovalue, U.compress)) ∧
    ∃ (U : Matrix StorageOrder.RowWise) (C : Matrix StorageOrder.RowWise),
      (construct StorageOrder.RowWise 2 2 false).Writes [(0, 1, 2), (1, 0, 3)] = some U ∧
      U.compress = C ∧ C.m_compressed = true ∧
      C.m_val_comp = [2, 3] ∧ C.m_outer = [1, 0] ∧ C.m_inner = [0, 1, 2] ∧
      C.Write 0 0 7 = some (Returned.zerovalue, C) ∧
      C.Write 0 1 0 = some (Returned.zerovalue, C) ∧
      (∀ z : Int, C.Write 0 0 7 ≠ some (Returned.stored z, C)) ∧
      ∀ z : Int, C.Write 0 1 0 ≠ some (Returned.stored z, C) :=
    by
  have h0 : (⟨2, 2, 2, true, [], [2, 3], [0, 1, 2], [1, 0]⟩ : Matrix StorageOrder.RowWise).Write
      0 0 7 = some (Returned.zerovalue, ⟨2, 2, 2, true, [], [2, 3], [0, 1, 2], [1, 0]⟩) := by
    decide
  have h1 : (⟨2, 2, 2, true, [], [2, 3], [0, 1, 2], [1, 0]⟩ : Matrix StorageOrder.RowWise).Write
      0 1 0 = some (Returned.zerovalue, ⟨2, 2, 2, true, [], [2, 3], [0, 1, 2], [1, 0]⟩) := by
    decide
  refine ⟨fun O U hU i j v hi hj h => compress_Write_rejected O U hU i j v hi hj h,
    ⟨2, 2, 2, false, [((0, 1), 2), ((1, 0), 3)], [], [], []⟩,
    ⟨2, 2, 2, true, [], [2, 3], [0, 1, 2], [1, 0]⟩,
    by decide, by decide, by decide, by decide, by decide, by decide, h0, h1, ?_, ?_⟩
  · intro z h
    rw [h0] at h
    cases h
  · intro z h
    rw [h1] at h
    cases h

/-- C10: on the matrix obtained by `compress()` from a well-formed uncompressed matrix
(either storage order), writing a non-zero value `v` to an in-bounds cell `(i,j)` that has a
stored element returns `v` (a reference to the element `m_val_comp[index]`, which holds `v`)
and assigns one position `t` of the values array; the index
array, the offsets array, the count of non-zero elements, the dimensions and the mode are
unchanged; afterwards the read of `(i,j)` gives `v` and the read of every other in-bounds
cell gives what it gave before. -/
theorem C10_compressed_write_overwrites (O : StorageOrder) (U : Matrix O)
    (hU : U.uncompressed_ok) (i j : Nat) (v : Int) (hi : i < U.m_m) (hj : j < U.m_n)
    (hpres : map_contains O (i, j) U.m_mat_uncomp = true) (hv : v ≠ 0) :
    ∃ (C1 : Matrix O) (t : Nat), U.compress.Write i j v = some (Returned.stored v, C1) ∧
      t < U.compress.m_val_comp.length ∧
      C1.m_val_comp = U.compress.m_val_comp.set t v ∧
      C1.m_outer = U.compress.m_outer ∧ C1.m_inner = U.compress.m_inner ∧
      C1.m_nnz = U.compress.m_nnz ∧ C1.m_m = U.m_m ∧ C1.m_n = U.m_n ∧
      C1.m_compressed = true ∧ C1.m_mat_uncomp = [] ∧
      C1.Read i j = some v ∧
      ∀ i1 j1, i1 < U.m_m → j1 < U.m_n → (i1, j1) ≠ (i, j) →
        C1.Read i1 j1 = U.compress.Read i1 j1 := by
  have hs := hU.2.1
  rw [compress_eq U hU]
  obtain ⟨t, w, ht, hw⟩ :=
    Write_compressed_of_present O U.m_m U.m_n U.m_nnz U.m_mat_uncomp hs i j v hi hj hv hpres
  have hset := compressed_of_set O U.m_m U.m_n U.m_nnz U.m_mat_uncomp hs (i, j) v w t ht
  have hs1 : map_sorted O (U.m_mat_uncomp.map (fun p => if p.1 = (i, j) then (p.1, v) else p)) :=
    map_sorted_of_keys O _ _ (map_set_keys (i, j) v _) hs
  have htlt : t < U.m_mat_uncomp.length := by
    by_contra hcon
    rw [List.getElem?_eq_none (by omega)] at ht
    cases ht
  refine ⟨_, t, hw, by simpa [compressed_of] using htlt, rfl, rfl, rfl, rfl, rfl, rfl, rfl,
    rfl, ?_, ?_⟩
  · rw [hset, Read_compressed_of O _ _ _ _ hs1 i j hi hj,
      map_find_map_set_self O (i, j) v _ hpres]
    rfl
  · intro i1 j1 hi1 hj1 hne
    rw [hset, Read_compressed_of O _ _ _ _ hs1 i1 j1 hi1 hj1,
      Read_compressed_of O _ _ _ _ hs i1 j1 hi1 hj1,
      map_find_map_set_ne O (i, j) (i1, j1) v _ hne]

/-- Witness of C10: the write `M(1,0,7)` on the compressed 2 x 2 matrix [[0,2],[3,0]]. -/
theorem C10_witness :
    map_contains StorageOrder.RowWise (1, 0)
      (⟨2, 2, 2, false, [((0, 1), 2), ((1, 0), 3)], [], [], []⟩ :
        Matrix StorageOrder.RowWise).m_mat_uncomp = true ∧
    ∃ (C1 : Matrix StorageOrder.RowWise),
      (⟨2, 2, 2, false, [((0, 1), 2), ((1, 0), 3)], [], [], []⟩ :
        Matrix StorageOrder.RowWise).compress.Write 1 0 7 = some (Returned.stored 7, C1) ∧
      C1.Read 1 0 = some 7 ∧ C1.m_outer = [1, 0] ∧ C1.m_inner = [0, 1, 2] := by
  obtain ⟨C1, t, h1, _, _, h4, h5, _, _, _, _, _, h11, _⟩ :=
    C10_compressed_write_overwrites StorageOrder.RowWise
      ⟨2, 2, 2, false, [((0, 1), 2), ((1, 0), 3)], [], [], []⟩
      ⟨by decide, by decide, by decide, rfl, rfl, rfl⟩ 1 0 7 (by decide) (by decide)
      (by decide) (by decide)
  exact ⟨by decide, C1, h1, h11, by rw [h4]; decide, by rw [h5]; decide⟩

/-! ## Round trip compress / uncompress -/

/-- Inner loop of `uncompress` on one native line: the entries of the line are appended, in
order, to the entries of the lines before it. -/
theorem uncompress_insert_block (O : StorageOrder) (m n nnz : Nat) (L : MatrixUncompressed)
    (hs : map_sorted O L) (i : Nat) :
    ∀ (mid pre post : MatrixUncompressed), L = pre ++ mid ++ post →
      (∀ y ∈ mid, major O y.1 = i) →
      (List.range' pre.length mid.length).foldlM
        ((compressed_of O m n nnz L).uncompress_insert i) pre = some (pre ++ mid) := by
  intro mid
  induction mid with
  | nil => intro pre post _ _; simp
  | cons y ys ih =>
    intro pre post hL hmaj
    have hget : L[pre.length]? = some y := by
      have := getElem?_append_block pre (y :: ys) post 0 (by simp)
      rw [← hL] at this
      simpa using this
    have hkey : mk_key O i (minor O y.1) = y.1 := by
      rw [← hmaj y (List.mem_cons_self _ _), mk_key_major_minor]
    have hpre : ∀ p ∈ pre, key_comp O p.1 y.1 = true := by
      intro p hp
      have hs' : map_sorted O (pre ++ (y :: ys ++ post)) := by
        rw [← List.append_assoc, ← hL]; exact hs
      exact (List.pairwise_append.1 hs').2.2 p hp y (List.mem_cons_self _ _)
    have hstep : (compressed_of O m n nnz L).uncompress_insert i pre pre.length
        = some (pre ++ [y]) := by
      have h1 : (compressed_of O m n nnz L).m_outer[pre.length]? = some (minor O y.1) := by
        show (L.map (fun p => minor O p.1))[pre.length]? = _
        rw [List.getElem?_map, hget]; rfl
      have h2 : (compressed_of O m n nnz L).m_val_comp[pre.length]? = some y.2 := by
        show (L.map (fun p => p.2))[pre.length]? = _
        rw [List.getElem?_map, hget]; rfl
      simp only [uncompress_insert, h1, h2]
      have hk : (if O = StorageOrder.RowWise then (i, minor O y.1) else (minor O y.1, i))
          = y.1 := hkey
      rw [hk, map_insert_append O y.1 y.2 pre hpre]
    rw [List.length_cons, List.range'_succ, List.foldlM_cons, hstep]
    have hih := ih (pre ++ [y]) post (by rw [hL]; simp)
      (fun z hz => hmaj z (List.mem_cons_of_mem _ hz))
    simp only [List.length_append, List.length_singleton] at hih
    simp only [Option.bind_eq_bind, Option.some_bind]
    rw [hih]; simp

/-- Body of the outer loop of `uncompress` on line `i`, started with the entries of the
lines before `i`. -/
theorem uncompress_line_block (O : StorageOrder) (m n nnz : Nat) (L : MatrixUncompressed)
    (hs : map_sorted O L) (i : Nat) (hi : i < (if O = StorageOrder.RowWise then m else n)) :
    (compressed_of O m n nnz L).uncompress_line (lines_before O L i) i
      = some (lines_before O L (i + 1)) := by
  have hlo := compressed_of_inner_lo O m n nnz L i (by omega)
  have hhi := compressed_of_inner_hi O m n nnz L hs i hi
  have hblock := uncompress_insert_block O m n nnz L hs i (line_block O L i)
    (lines_before O L i) (L.filter (fun p => decide (i < major O p.1))) (map_split O L hs i)
    (fun y hy => ((mem_line_block O L i y).1 hy).2)
  simp only [uncompress_line, hlo, hhi, Nat.add_sub_cancel_left]
  rw [lines_before_succ O L hs i]
  by_cases hlen : 0 < (line_block O L i).length
  · rw [if_pos (by omega), hblock]
  · rw [if_neg (by omega)]
    have : line_block O L i = [] := List.length_eq_zero.1 (by omega)
    rw [this, List.append_nil]

theorem uncompress_fold (O : StorageOrder) (m n nnz : Nat) (L : MatrixUncompressed)
    (hs : map_sorted O L) :
    ∀ d, d ≤ (if O = StorageOrder.RowWise then m else n) →
      (List.range d).foldlM (compressed_of O m n nnz L).uncompress_line []
        = some (lines_before O L d) := by
  intro d
  induction d with
  | zero => intro _; simp [lines_before_zero]
  | succ d ih =>
    intro hd
    rw [List.range_succ, List.foldlM_append, ih (by omega)]
    simp only [Option.bind_eq_bind, Option.some_bind, List.foldlM_cons, List.foldlM_nil]
    rw [uncompress_line_block O m n nnz L hs d (by omega)]
    rfl

/-- Uncompressing the compressed form of an ordered in-bounds entry list gives the
uncompressed matrix holding that list. -/
theorem uncompress_compressed_of (O : StorageOrder) (m n nnz : Nat) (L : MatrixUncompressed)
    (hs : map_sorted O L) (hb : ∀ p ∈ L, p.1.1 < m ∧ p.1.2 < n) :
    (compressed_of O m n nnz L).uncompress
      = some ⟨m, n, nnz, false, L, [], [], []⟩ := by
  have hall : lines_before O L (if O = StorageOrder.RowWise then m else n) = L := by
    simp only [lines_before, List.filter_eq_self, decide_eq_true_eq]
    intro p hp
    have := hb p hp
    cases O <;> simp [major] <;> omega
  have hfold := uncompress_fold O m n nnz L hs _ (Nat.le_refl _)
  rw [hall] at hfold
  have hcomp : (compressed_of O m n nnz L).m_compressed = true := rfl
  have hm : (compressed_of O m n nnz L).m_m = m := rfl
  have hn : (compressed_of O m n nnz L).m_n = n := rfl
  have hmap : (compressed_of O m n nnz L).m_mat_uncomp = [] := rfl
  simp only [uncompress, hcomp, if_true, hm, hn, hmap, hfold]
  simp [clear_buffer, compressed_of]

/-- Round trip on a well-formed uncompressed matrix: the whole state comes back. -/
theorem uncompress_compress (U : Matrix O) (hU : U.uncompressed_ok) :
    U.compress.uncompress = some U := by
  rw [compress_eq U hU, uncompress_compressed_of O _ _ _ _ hU.2.1 hU.2.2.1]
  obtain ⟨hc, _, _, hv, hin, hout⟩ := hU
  cases U
  simp only at hc hv hin hout
  subst hc hv hin hout
  rfl

/-- A sequence of in-bounds write accesses on a well-formed uncompressed matrix succeeds. -/
theorem Writes_total (ws : List (Nat × Nat × Int)) :
    ∀ (M : Matrix O), M.uncompressed_ok → (∀ w ∈ ws, w.1 < M.m_m ∧ w.2.1 < M.m_n) →
      ∃ M1 : Matrix O, M.Writes ws = some M1 := by
  induction ws with
  | nil => intro M _ _; exact ⟨M, rfl⟩
  | cons w ws ih =>
    intro M h hb
    obtain ⟨hi, hj⟩ := hb w (List.mem_cons_self _ _)
    have hw := Write_uncompressed M h.1 h.2.1 w.1 w.2.1 w.2.2 hi hj
    obtain ⟨h1, h2, h3⟩ := Write_ok M h _ _ _ _ hw
    obtain ⟨M1, hM1⟩ := ih _ h1 (fun x hx => by
      rw [h2, h3]; exact hb x (List.mem_cons_of_mem _ hx))
    exact ⟨M1, by simp only [Writes, hw]; exact hM1⟩

/-- C1: for both storage orders and every sequence `ws` of write accesses `(i, j, value)`
with all indices inside the extents, the sequence applied to the empty `m x n` matrix
produces an uncompressed `m x n` matrix `M`, and `compress()` followed by `uncompress()` on
`M` succeeds and gives back an uncompressed matrix with the same map (the same set of (row,
col, value) entries) and the same dimensions as `M`; in fact the whole state of `M`. -/
theorem C1_compress_uncompress_round_trip (O : StorageOrder) (m n : Nat)
    (ws : List (Nat × Nat × Int)) (hb : ∀ w ∈ ws, w.1 < m ∧ w.2.1 < n) :
    ∃ M M2 : Matrix O, (construct O m n false).Writes ws = some M ∧
      M.m_compressed = false ∧ M.m_m = m ∧ M.m_n = n ∧
      M.compress.uncompress = some M2 ∧
      M2.m_compressed = false ∧
      M2.m_mat_uncomp = M.m_mat_uncomp ∧
      M2.m_m = m ∧ M2.m_n = n ∧ M2 = M := by
  obtain ⟨M, hM⟩ := Writes_total ws (construct O m n false) (construct_ok O m n) hb
  obtain ⟨hok, hm, hn⟩ := Writes_ok ws (construct O m n false) M (construct_ok O m n) hM
  exact ⟨M, M, hM, hok.1, hm, hn, uncompress_compress M hok, hok.1, rfl, hm, hn, rfl⟩

/-- Witness of C1: the column-wise 2 x 2 matrix [[0,2],[3,0]] built by two write accesses. -/
theorem C1_witness :
    (∀ w ∈ [((0 : Nat), (1 : Nat), (2 : Int)), (1, 0, 3)], w.1 < 2 ∧ w.2.1 < 2) ∧
    ∃ M2 : Matrix StorageOrder.ColumnWise,
      (⟨2, 2, 2, false, [((1, 0), 3), ((0, 1), 2)], [], [], []⟩ :
        Matrix StorageOrder.ColumnWise).compress.uncompress = some M2 ∧
      M2.m_mat_uncomp = [((1, 0), 3), ((0, 1), 2)] := by
  obtain ⟨M, M2, h1, _, _, _, h5, _, h7, _⟩ :=
    C1_compress_uncompress_round_trip StorageOrder.ColumnWise 2 2 [(0, 1, 2), (1, 0, 3)]
      (by decide)
  have hM : M = ⟨2, 2, 2, false, [((1, 0), 3), ((0, 1), 2)], [], [], []⟩ := by
    have h0 : (construct StorageOrder.ColumnWise 2 2 false).Writes [(0, 1, 2), (1, 0, 3)]
        = some ⟨2, 2, 2, false, [((1, 0), 3), ((0, 1), 2)], [], [], []⟩ := by decide
    rw [h0] at h1
    exact (Option.some.inj h1).symm
  subst hM
  exact ⟨by decide, M2, h5, h7⟩

/-- C2, evaluated on `Matrix<int,ColumnWise> M(1,8); M(0,3,10); M(0,4,20); M(0,5,30);`:
uncompressed, `get_row(0)` returns the columns 3, 4, 5; after `compress()`, `get_row(0)`
returns the columns 3, 4, 6 with the values 10, 20, 30, although the read of (0,6) gives 0
and the read of (0,5) gives 30.  The row-wise 8 x 1 matrix with the same three values in
rows 3, 4, 5 shows the same for `get_col(0)`. -/
theorem C2_cross_extraction_wrong_index :
    ∃ (M : Matrix StorageOrder.ColumnWise) (N : Matrix StorageOrder.RowWise),
      (construct StorageOrder.ColumnWise 1 8 false).Writes [(0, 3, 10), (0, 4, 20), (0, 5, 30)]
        = some M ∧
      M.get_row 0 = some ([3, 4, 5], [10, 20, 30]) ∧
      M.compress.get_row 0 = some ([3, 4, 6], [10, 20, 30]) ∧
      M.compress.Read 0 6 = some 0 ∧ M.compress.Read 0 5 = some 30 ∧
      (construct StorageOrder.RowWise 8 1 false).Writes [(3, 0, 10), (4, 0, 20), (5, 0, 30)]
        = some N ∧
      N.get_col 0 = some ([3, 4, 5], [10, 20, 30]) ∧
      N.compress.get_col 0 = some ([3, 4, 6], [10, 20, 30]) ∧
      N.compress.Read 6 0 = some 0 ∧ N.compress.Read 5 0 = some 30 :=
  ⟨⟨1, 8, 3, false, [((0, 3), 10), ((0, 4), 20), ((0, 5), 30)], [], [], []⟩,
    ⟨8, 1, 3, false, [((3, 0), 10), ((4, 0), 20), ((5, 0), 30)], [], [], []⟩,
    by decide, by decide, by decide, by decide, by decide, by decide, by decide, by decide,
    by decide, by decide⟩

/-! ## Resize -/

/-- C11, evaluated on `Matrix<int> M(2,2); M(0,0,5); M.resize(3,3);` and on
`M.compress(); M.resize(1,1);`: the extents are the new ones and the mode is unchanged, but
the uncompressed matrix keeps its map entry and its count of one non-zero element, and the
compressed matrix keeps its three arrays (now inconsistent with the extents) and its
count. -/
theorem C11_resize_keeps_active_store :
    ∃ M : Matrix StorageOrder.RowWise,
      (construct StorageOrder.RowWise 2 2 false).Writes [(0, 0, 5)] = some M ∧
      (M.resize 3 3).m_m = 3 ∧ (M.resize 3 3).m_n = 3 ∧
      (M.resize 3 3).m_compressed = false ∧
      (M.resize 3 3).m_nnz = 1 ∧ (M.resize 3 3).m_mat_uncomp = [((0, 0), 5)] ∧
      (M.compress.resize 1 1).m_m = 1 ∧ (M.compress.resize 1 1).m_n = 1 ∧
      (M.compress.resize 1 1).m_compressed = true ∧
      (M.compress.resize 1 1).m_nnz = 1 ∧
      (M.compress.resize 1 1).m_val_comp = [5] ∧
      (M.compress.resize 1 1).m_inner = [0, 1, 1] ∧
      (M.compress.resize 1 1).m_outer = [0] :=
  ⟨⟨2, 2, 1, false, [((0, 0), 5)], [], [], []⟩, by decide, by decide, by decide, by decide,
    by decide, by decide, by decide, by decide, by decide, by decide, by decide, by decide,
    by decide⟩

/-! ## Read access: both modes -/

/-- C12: for both storage orders, on every uncompressed matrix (its map ordered for the
comparator) and every in-bounds cell `(i,j)`, the read access returns the value stored in
the map under the key `(i,j)` when there is one and zero otherwise; on the freshly
constructed matrix of the same extents it returns zero. -/
theorem C12_read_uncompressed_is_lookup (O : StorageOrder) (M : Matrix O)
    (hc : M.m_compressed = false) (hs : map_sorted O M.m_mat_uncomp) (i j : Nat)
    (hi : i < M.m_m) (hj : j < M.m_n) :
    M.Read i j = some ((map_find O (i, j) M.m_mat_uncomp).getD 0) ∧
    (∀ v, ((i, j), v) ∈ M.m_mat_uncomp → M.Read i j = some v) ∧
    (map_contains O (i, j) M.m_mat_uncomp = false → M.Read i j = some 0) ∧
    (construct O M.m_m M.m_n false).Read i j = some 0 := by
  have h := Read_uncompressed M hc hs i j hi hj
  refine ⟨h, ?_, ?_, ?_⟩
  · intro v hv
    rw [h, (map_find_eq_some_iff O (i, j) v _ hs).2 hv]; rfl
  · intro habs
    rw [h, (map_find_eq_none_iff O (i, j) _).2 habs]; rfl
  · rw [Read_uncompressed (construct O M.m_m M.m_n false) rfl (map_sorted_nil O) i j hi hj]
    rfl

/-- Witness of C12: the cell (1,0) of the uncompressed 2 x 2 matrix [[0,2],[3,0]]. -/
theorem C12_witness :
    (⟨2, 2, 2, false, [((0, 1), 2), ((1, 0), 3)], [], [], []⟩ :
        Matrix StorageOrder.RowWise).Read 1 0 = some 3 ∧
    (construct StorageOrder.RowWise 2 2 false).Read 1 0 = some 0 := by
  obtain ⟨_, h2, _, h4⟩ := C12_read_uncompressed_is_lookup StorageOrder.RowWise
    ⟨2, 2, 2, false, [((0, 1), 2), ((1, 0), 3)], [], [], []⟩ (by decide) (by decide) 1 0
    (by decide) (by decide)
  exact ⟨h2 3 (by decide), h4⟩

/-- Read access after `compress()` of a well-formed uncompressed matrix: what the read
access gave before. -/
theorem Read_compress (U : Matrix O) (hU : U.uncompressed_ok) (i j : Nat) (hi : i < U.m_m)
    (hj : j < U.m_n) :
    U.compress.Read i j = some ((map_find O (i, j) U.m_mat_uncomp).getD 0) ∧
    U.Read i j = some ((map_find O (i, j) U.m_mat_uncomp).getD 0) := by
  rw [compress_eq U hU]
  exact ⟨Read_compressed_of O _ _ _ _ hU.2.1 i j hi hj,
    Read_uncompressed U hU.1 hU.2.1 i j hi hj⟩

/-- C13: for both storage orders, every sequence of in-bounds write accesses on the empty
`m x n` matrix gives a matrix `U` such that, for every in-bounds cell, the read access on
`U.compress()` returns the value the read access returns on `U`. -/
theorem C13_read_after_compress (O : StorageOrder) (m n : Nat)
    (ws : List (Nat × Nat × Int)) (hb : ∀ w ∈ ws, w.1 < m ∧ w.2.1 < n) :
    ∃ U : Matrix O, (construct O m n false).Writes ws = some U ∧
      ∀ i j, i < m → j < n →
        ∃ x : Int, U.Read i j = some x ∧ U.compress.Read i j = some x := by
  obtain ⟨U, hU⟩ := Writes_total ws (construct O m n false) (construct_ok O m n) hb
  obtain ⟨hok, hm, hn⟩ := Writes_ok ws (construct O m n false) U (construct_ok O m n) hU
  refine ⟨U, hU, ?_⟩
  intro i j hi hj
  have hm' : U.m_m = m := hm
  have hn' : U.m_n = n := hn
  obtain ⟨h1, h2⟩ := Read_compress U hok i j (by omega) (by omega)
  exact ⟨_, h2, h1⟩

/-- Witness of C13: the column-wise 2 x 2 matrix [[0,2],[3,0]] built by two write accesses,
read at (1,0) before and after `compress()`. -/
theorem C13_witness :
    ∃ U : Matrix StorageOrder.ColumnWise,
      (construct StorageOrder.ColumnWise 2 2 false).Writes [(0, 1, 2), (1, 0, 3)] = some U ∧
      ∃ x : Int, U.Read 1 0 = some x ∧ U.compress.Read 1 0 = some x := by
  obtain ⟨U, h1, h2⟩ := C13_read_after_compress StorageOrder.ColumnWise 2 2
    [(0, 1, 2), (1, 0, 3)] (by decide)
  exact ⟨U, h1, h2 1 0 (by decide) (by decide)⟩

/-! ## What `compress` builds -/

theorem compress_fields (M : Matrix O) (hc : M.m_compressed = false)
    (hv : M.m_val_comp = []) (hin : M.m_inner = []) (hout : M.m_outer = []) :
    M.compress = compressed_of O M.m_m M.m_n M.m_nnz M.m_mat_uncomp := by
  cases O <;>
    simp [compress, compressed_of, clear_buffer, hc, hv, hin, hout, major, minor]

/-- C16: on an uncompressed matrix (compressed vectors empty) whose keys are all in bounds,
`compress()` builds: the values array, equal to the map's values in iteration order; the
index array, holding in the same order the non-native key component of each entry; the
offsets array, of length `dim + 1` (`dim` = rows for row-wise, columns for column-wise),
whose entry `k` is the number of map entries with native-line index below `k`, so that
entry 0 is 0 and the last entry is the number of stored entries.  Afterwards the mode is
compressed, the map is empty, and the extents and the count are unchanged. -/
theorem C16_compress_builds_arrays (O : StorageOrder) (M : Matrix O)
    (hc : M.m_compressed = false)
    (hb : ∀ p ∈ M.m_mat_uncomp, p.1.1 < M.m_m ∧ p.1.2 < M.m_n)
    (hv : M.m_val_comp = []) (hin : M.m_inner = []) (hout : M.m_outer = []) :
    M.compress.m_val_comp = M.m_mat_uncomp.map (fun p => p.2) ∧
    M.compress.m_outer = M.m_mat_uncomp.map
      (fun p => if O = StorageOrder.RowWise then p.1.2 else p.1.1) ∧
    M.compress.m_inner.length = (if O = StorageOrder.RowWise then M.m_m else M.m_n) + 1 ∧
    (∀ k, k ≤ (if O = StorageOrder.RowWise then M.m_m else M.m_n) →
      M.compress.m_inner[k]? = some (M.m_mat_uncomp.countP
        (fun p => decide ((if O = StorageOrder.RowWise then p.1.1 else p.1.2) < k)))) ∧
    M.compress.m_inner[0]? = some 0 ∧
    M.compress.m_inner[if O = StorageOrder.RowWise then M.m_m else M.m_n]?
      = some M.m_mat_uncomp.length ∧
    M.compress.m_compressed = true ∧ M.compress.m_mat_uncomp = [] ∧
    M.compress.m_m = M.m_m ∧ M.compress.m_n = M.m_n ∧ M.compress.m_nnz = M.m_nnz := by
  rw [compress_fields M hc hv hin hout]
  have hlo : ∀ k, k ≤ (if O = StorageOrder.RowWise then M.m_m else M.m_n) →
      (compressed_of O M.m_m M.m_n M.m_nnz M.m_mat_uncomp).m_inner[k]?
        = some (M.m_mat_uncomp.countP
            (fun p => decide ((if O = StorageOrder.RowWise then p.1.1 else p.1.2) < k))) := by
    intro k hk
    rw [compressed_of_inner_lo O _ _ _ _ k hk, List.countP_eq_length_filter]
    rfl
  refine ⟨rfl, rfl, by simp [compressed_of], hlo, ?_, ?_, rfl, rfl, rfl, rfl, rfl⟩
  · rw [hlo 0 (Nat.zero_le _)]; simp
  · rw [hlo _ (Nat.le_refl _), List.countP_eq_length_filter]
    congr 1
    have : M.m_mat_uncomp.filter (fun p => decide ((if O = StorageOrder.RowWise then p.1.1
        else p.1.2) < (if O = StorageOrder.RowWise then M.m_m else M.m_n))) = M.m_mat_uncomp := by
      rw [List.filter_eq_self]
      intro p hp
      have := hb p hp
      cases O <;> simp <;> omega
    rw [this]

/-- Witness of C16: the column-wise 2 x 3 matrix with 2 at (0,1), 3 at (1,0), 4 at (1,2). -/
theorem C16_witness :
    (⟨2, 3, 3, false, [((1, 0), 3), ((0, 1), 2), ((1, 2), 4)], [], [], []⟩ :
        Matrix StorageOrder.ColumnWise).compress
      = ⟨2, 3, 3, true, [], [3, 2, 4], [0, 1, 2, 3], [1, 0, 1]⟩ ∧
    (⟨2, 3, 3, false, [((1, 0), 3), ((0, 1), 2), ((1, 2), 4)], [], [], []⟩ :
        Matrix StorageOrder.ColumnWise).compress.m_inner[3]? = some 3 := by
  have h := C16_compress_builds_arrays StorageOrder.ColumnWise
    ⟨2, 3, 3, false, [((1, 0), 3), ((0, 1), 2), ((1, 2), 4)], [], [], []⟩ (by decide)
    (by decide) rfl rfl rfl
  exact ⟨by decide, h.2.2.2.2.2.1⟩

/-! ## Presence tests in the four configurations -/

theorem check_presence_row_compressed_of (O : StorageOrder) (m n nnz : Nat)
    (L : MatrixUncompressed) (hs : map_sorted O L) (i : Nat) (hi : i < m) :
    (compressed_of O m n nnz L).check_presence_row i
      = some (decide (∃ p ∈ L, p.1.1 = i)) := by
  have hm : (compressed_of O m n nnz L).m_m = m := rfl
  have hcomp : (compressed_of O m n nnz L).m_compressed = true := rfl
  cases O
  · have hlo := compressed_of_inner_lo StorageOrder.RowWise m n nnz L i (by simp; omega)
    have hhi := compressed_of_inner_hi StorageOrder.RowWise m n nnz L hs i (by simp; omega)
    have hnat := native_lt_iff StorageOrder.RowWise L i
    simp only [major, if_true] at hnat
    simp only [check_presence_row, hm, hi, if_true, hcomp, hlo, hhi, hnat]
  · have hcr := cross_find_iff StorageOrder.ColumnWise m n nnz L i
    simp only [minor, reduceCtorEq, if_false] at hcr
    simp only [check_presence_row, hm, hi, if_true, hcomp, hcr, reduceCtorEq, if_false]

theorem check_presence_col_compressed_of (O : StorageOrder) (m n nnz : Nat)
    (L : MatrixUncompressed) (hs : map_sorted O L) (j : Nat) (hj : j < n) :
    (compressed_of O m n nnz L).check_presence_col j
      = some (decide (∃ p ∈ L, p.1.2 = j)) := by
  have hn : (compressed_of O m n nnz L).m_n = n := rfl
  have hcomp : (compressed_of O m n nnz L).m_compressed = true := rfl
  cases O
  · have hcr := cross_find_iff StorageOrder.RowWise m n nnz L j
    simp only [minor, if_true] at hcr
    simp only [check_presence_col, hn, hj, if_true, hcomp, hcr]
  · have hlo := compressed_of_inner_lo StorageOrder.ColumnWise m n nnz L j (by simp; omega)
    have hhi := compressed_of_inner_hi StorageOrder.ColumnWise m n nnz L hs j (by simp; omega)
    have hnat := native_lt_iff StorageOrder.ColumnWise L j
    simp only [major, reduceCtorEq, if_false] at hnat
    simp only [check_presence_col, hn, hj, if_true, hcomp, hlo, hhi, hnat, reduceCtorEq,
      if_false]

/-- The four observers on a well-formed uncompressed matrix `U` and on `U.compress()`, in
terms of the entries of the map of `U`. -/
theorem config_view (U : Matrix O) (hU : U.uncompressed_ok) (M : Matrix O)
    (hM : M = U ∨ M = U.compress) :
    (∀ i, i < U.m_m →
      M.check_presence_row i = some (decide (∃ p ∈ U.m_mat_uncomp, p.1.1 = i))) ∧
    (∀ j, j < U.m_n →
      M.check_presence_col j = some (decide (∃ p ∈ U.m_mat_uncomp, p.1.2 = j))) ∧
    (∀ i j, i < U.m_m → j < U.m_n →
      M.check_presence i j = some (map_contains O (i, j) U.m_mat_uncomp) ∧
      M.Read i j = some ((map_find O (i, j) U.m_mat_uncomp).getD 0)) := by
  rcases hM with rfl | rfl
  · exact ⟨fun i hi => check_presence_row_uncompressed M hU.1 hU.2.1 i hi,
      fun j hj => check_presence_col_uncompressed M hU.1 hU.2.1 j hj,
      fun i j hi hj => ⟨check_presence_uncompressed M hU.1 hU.2.1 i j hi hj,
        Read_uncompressed M hU.1 hU.2.1 i j hi hj⟩⟩
  · rw [compress_eq U hU]
    exact ⟨fun i hi => check_presence_row_compressed_of O _ _ _ _ hU.2.1 i hi,
      fun j hj => check_presence_col_compressed_of O _ _ _ _ hU.2.1 j hj,
      fun i j hi hj => ⟨check_presence_compressed_of O _ _ _ _ hU.2.1 i j hi hj,
        Read_compressed_of O _ _ _ _ hU.2.1 i j hi hj⟩⟩

/-- A write access keeps the stored values different from zero. -/
theorem Write_nonzero (M : Matrix O) (h : M.uncompressed_ok)
    (hnz : stored_nonzero M.m_mat_uncomp) (i j : Nat) (v : Int)
    (r : Returned × Matrix O) (hw : M.Write i j v = some r) :
    stored_nonzero r.2.m_mat_uncomp := by
  obtain ⟨hi, hj⟩ := Write_in_bounds M i j v r hw
  rw [Write_uncompressed M h.1 h.2.1 i j v hi hj, Option.some.injEq] at hw
  subst hw
  by_cases hv0 : v = 0
  · by_cases hn : M.m_nnz = 0
    · rw [if_pos hv0, if_pos hn]; exact hnz
    · rw [if_pos hv0, if_neg hn]
      intro p hp
      exact hnz p ((mem_map_erase O _ _ p).1 hp).1
  · by_cases hcon : map_contains O (i, j) M.m_mat_uncomp = true
    · rw [if_neg hv0, if_pos hcon]
      intro p hp
      obtain ⟨q, hq, rfl⟩ := List.mem_map.1 hp
      by_cases hqk : q.1 = (i, j)
      · simpa [hqk] using hv0
      · simpa [hqk] using hnz q hq
    · rw [if_neg hv0, if_neg hcon]
      rw [Bool.not_eq_true] at hcon
      intro p hp
      rcases (mem_map_insert O (i, j) v _ hcon p).1 hp with rfl | hp
      · exact hv0
      · exact hnz p hp

theorem Writes_nonzero (ws : List (Nat × Nat × Int)) :
    ∀ (M M1 : Matrix O), M.uncompressed_ok → stored_nonzero M.m_mat_uncomp →
      M.Writes ws = some M1 → stored_nonzero M1.m_mat_uncomp := by
  induction ws with
  | nil =>
    intro M M1 _ hnz hw
    simp only [Writes, Option.some.injEq] at hw
    subst hw; exact hnz
  | cons w ws ih =>
    intro M M1 h hnz hw
    simp only [Writes] at hw
    cases hr : M.Write w.1 w.2.1 w.2.2 with
    | none => rw [hr] at hw; cases hw
    | some r =>
      rw [hr] at hw
      exact ih r.2 M1 (Write_ok M h _ _ _ r hr).1 (Write_nonzero M h hnz _ _ _ r hr) hw

/-- What a sequence of in-bounds write accesses on the empty matrix produces. -/
theorem Writes_built (O : StorageOrder) (m n : Nat) (ws : List (Nat × Nat × Int))
    (hb : ∀ w ∈ ws, w.1 < m ∧ w.2.1 < n) :
    ∃ U : Matrix O, (construct O m n false).Writes ws = some U ∧ U.uncompressed_ok ∧
      U.m_m = m ∧ U.m_n = n ∧ stored_nonzero U.m_mat_uncomp := by
  obtain ⟨U, hU⟩ := Writes_total ws (construct O m n false) (construct_ok O m n) hb
  obtain ⟨hok, hm, hn⟩ := Writes_ok ws (construct O m n false) U (construct_ok O m n) hU
  exact ⟨U, hU, hok, hm, hn, Writes_nonzero ws _ U (construct_ok O m n)
    (fun p hp => by simp [construct] at hp) hU⟩

/-- Some entry lies in row `i` exactly when some in-bounds cell of the row holds a non-zero
value. -/
theorem row_entry_iff (O : StorageOrder) (L : MatrixUncompressed) (hs : map_sorted O L)
    (m n : Nat) (hb : ∀ p ∈ L, p.1.1 < m ∧ p.1.2 < n) (hnz : stored_nonzero L) (i : Nat) :
    (∃ p ∈ L, p.1.1 = i) ↔ ∃ j, j < n ∧ (map_find O (i, j) L).getD 0 ≠ 0 := by
  constructor
  · rintro ⟨⟨⟨a, b⟩, v⟩, hp, rfl⟩
    refine ⟨b, (hb _ hp).2, ?_⟩
    rw [(map_find_eq_some_iff O _ v L hs).2 hp]
    exact hnz _ hp
  · rintro ⟨j, _, hne⟩
    cases hf : map_find O (i, j) L with
    | none => rw [hf] at hne; exact absurd rfl hne
    | some v => exact ⟨((i, j), v), (map_find_eq_some_iff O _ v L hs).1 hf, rfl⟩

theorem col_entry_iff (O : StorageOrder) (L : MatrixUncompressed) (hs : map_sorted O L)
    (m n : Nat) (hb : ∀ p ∈ L, p.1.1 < m ∧ p.1.2 < n) (hnz : stored_nonzero L) (j : Nat) :
    (∃ p ∈ L, p.1.2 = j) ↔ ∃ i, i < m ∧ (map_find O (i, j) L).getD 0 ≠ 0 := by
  constructor
  · rintro ⟨⟨⟨a, b⟩, v⟩, hp, rfl⟩
    refine ⟨a, (hb _ hp).1, ?_⟩
    rw [(map_find_eq_some_iff O _ v L hs).2 hp]
    exact hnz _ hp
  · rintro ⟨i, _, hne⟩
    cases hf : map_find O (i, j) L with
    | none => rw [hf] at hne; exact absurd rfl hne
    | some v => exact ⟨((i, j), v), (map_find_eq_some_iff O _ v L hs).1 hf, rfl⟩

/-- C14: for both storage orders, every sequence of in-bounds write accesses on the empty
`m x n` matrix gives a matrix `U` such that, on `U` and on `U.compress()` alike,
`check_presence_row(i)` is true exactly when some column `j < n` has a non-zero element at
`(i,j)`, and `check_presence_col(j)` is true exactly when some row `i < m` has a non-zero
element at `(i,j)`; row 0 and column 0 are lines like the others. -/
theorem C14_line_presence_four_configurations (O : StorageOrder) (m n : Nat)
    (ws : List (Nat × Nat × Int)) (hb : ∀ w ∈ ws, w.1 < m ∧ w.2.1 < n) :
    ∃ U : Matrix O, (construct O m n false).Writes ws = some U ∧
      ∀ M : Matrix O, (M = U ∨ M = U.compress) →
        (∀ i, i < m → ∃ b, M.check_presence_row i = some b ∧
          (b = true ↔ ∃ j, j < n ∧ ∃ x, M.Read i j = some x ∧ x ≠ 0)) ∧
        (∀ j, j < n → ∃ b, M.check_presence_col j = some b ∧
          (b = true ↔ ∃ i, i < m ∧ ∃ x, M.Read i j = some x ∧ x ≠ 0)) := by
  obtain ⟨U, hU, hok, hm, hn, hnz⟩ := Writes_built O m n ws hb
  refine ⟨U, hU, ?_⟩
  intro M hM
  obtain ⟨hrow, hcol, hcell⟩ := config_view U hok M hM
  subst hm hn
  constructor
  · intro i hi
    refine ⟨_, hrow i hi, ?_⟩
    rw [decide_eq_true_eq, row_entry_iff O _ hok.2.1 _ _ hok.2.2.1 hnz i]
    constructor
    · rintro ⟨j, hj, hne⟩
      exact ⟨j, hj, _, (hcell i j hi hj).2, hne⟩
    · rintro ⟨j, hj, x, hx, hne⟩
      refine ⟨j, hj, ?_⟩
      rw [(hcell i j hi hj).2, Option.some.injEq] at hx
      rw [hx]; exact hne
  · intro j hj
    refine ⟨_, hcol j hj, ?_⟩
    rw [decide_eq_true_eq, col_entry_iff O _ hok.2.1 _ _ hok.2.2.1 hnz j]
    constructor
    · rintro ⟨i, hi, hne⟩
      exact ⟨i, hi, _, (hcell i j hi hj).2, hne⟩
    · rintro ⟨i, hi, x, hx, hne⟩
      refine ⟨i, hi, ?_⟩
      rw [(hcell i j hi hj).2, Option.some.injEq] at hx
      rw [hx]; exact hne

/-- Witness of C14: row 0 and column 0 of the column-wise 2 x 2 matrix [[0,2],[3,0]], after
`compress()`. -/
theorem C14_witness :
    ∃ U : Matrix StorageOrder.ColumnWise,
      (construct StorageOrder.ColumnWise 2 2 false).Writes [(0, 1, 2), (1, 0, 3)] = some U ∧
      (∃ b, U.compress.check_presence_row 0 = some b ∧
        (b = true ↔ ∃ j, j < 2 ∧ ∃ x, U.compress.Read 0 j = some x ∧ x ≠ 0)) ∧
      (∃ b, U.compress.check_presence_col 0 = some b ∧
        (b = true ↔ ∃ i, i < 2 ∧ ∃ x, U.compress.Read i 0 = some x ∧ x ≠ 0)) := by
  obtain ⟨U, h1, h2⟩ := C14_line_presence_four_configurations StorageOrder.ColumnWise 2 2
    [(0, 1, 2), (1, 0, 3)] (by decide)
  exact ⟨U, h1, (h2 U.compress (Or.inr rfl)).1 0 (by decide),
    (h2 U.compress (Or.inr rfl)).2 0 (by decide)⟩

/-- C15: for both storage orders, every sequence of in-bounds write accesses on the empty
`m x n` matrix gives a matrix `U` such that, on `U` and on `U.compress()` alike and for every
in-bounds cell `(i,j)`, `check_presence(i,j)` is true exactly when an entry for `(i,j)` is
stored, that is exactly when the read access gives a non-zero value, and when it is true
`check_presence_row(i)` and `check_presence_col(j)` are both true.  On the matrix
[[0,2],[3,0]], in the four configurations, `check_presence(0,1)` is true and
`check_presence(0,0)` is false. -/
theorem C15_cell_presence_four_configurations (O : StorageOrder) (m n : Nat)
    (ws : List (Nat × Nat × Int)) (hb : ∀ w ∈ ws, w.1 < m ∧ w.2.1 < n) :
    (∃ U : Matrix O, (construct O m n false).Writes ws = some U ∧
      ∀ M : Matrix O, (M = U ∨ M = U.compress) → ∀ i j, i < m → j < n →
        ∃ b, M.check_presence i j = some b ∧
          (b = true ↔ ∃ v, ((i, j), v) ∈ U.m_mat_uncomp) ∧
          (b = true ↔ ∃ x, M.Read i j = some x ∧ x ≠ 0) ∧
          (b = true →
            M.check_presence_row i = some true ∧ M.check_presence_col j = some true)) ∧
    (∀ O1 : StorageOrder, ∃ A : Matrix O1,
      (construct O1 2 2 false).Writes [(0, 1, 2), (1, 0, 3)] = some A ∧
      A.check_presence 0 1 = some true ∧ A.check_presence 0 0 = some false ∧
      A.compress.check_presence 0 1 = some true ∧
      A.compress.check_presence 0 0 = some false) := by
  constructor
  · obtain ⟨U, hU, hok, hm, hn, hnz⟩ := Writes_built O m n ws hb
    refine ⟨U, hU, ?_⟩
    intro M hM i j hi hj
    obtain ⟨hrow, hcol, hcell⟩ := config_view U hok M hM
    subst hm hn
    obtain ⟨hp, hr⟩ := hcell i j hi hj
    refine ⟨_, hp, map_contains_iff O _ _, ?_, ?_⟩
    · rw [map_contains_iff]
      constructor
      · rintro ⟨v, hv⟩
        refine ⟨v, ?_, hnz _ hv⟩
        rw [hr, (map_find_eq_some_iff O _ v _ hok.2.1).2 hv]; rfl
      · rintro ⟨x, hx, hne⟩
        rw [hr, Option.some.injEq] at hx
        cases hf : map_find O (i, j) U.m_mat_uncomp with
        | none => rw [hf] at hx; exact absurd hx.symm hne
        | some v => exact ⟨v, (map_find_eq_some_iff O _ v _ hok.2.1).1 hf⟩
    · intro hb1
      obtain ⟨v, hv⟩ := (map_contains_iff O _ _).1 hb1
      rw [hrow i hi, hcol j hj]
      exact ⟨by rw [decide_eq_true (p := ∃ p ∈ U.m_mat_uncomp, p.1.1 = i) ⟨_, hv, rfl⟩],
        by rw [decide_eq_true (p := ∃ p ∈ U.m_mat_uncomp, p.1.2 = j) ⟨_, hv, rfl⟩]⟩
  · intro O1
    cases O1
    · exact ⟨⟨2, 2, 2, false, [((0, 1), 2), ((1, 0), 3)], [], [], []⟩, by decide, by decide,
        by decide, by decide, by decide⟩
    · exact ⟨⟨2, 2, 2, false, [((1, 0), 3), ((0, 1), 2)], [], [], []⟩, by decide, by decide,
        by decide, by decide, by decide⟩

/-- Witness of C15: the cells of the row-wise 2 x 2 matrix [[0,2],[3,0]] after
`compress()`. -/
theorem C15_witness :
    ∃ U : Matrix StorageOrder.RowWise,
      (construct StorageOrder.RowWise 2 2 false).Writes [(0, 1, 2), (1, 0, 3)] = some U ∧
      ∃ b, U.compress.check_presence 1 0 = some b ∧
        (b = true ↔ ∃ x, U.compress.Read 1 0 = some x ∧ x ≠ 0) := by
  obtain ⟨⟨U, h1, h2⟩, _⟩ := C15_cell_presence_four_configurations StorageOrder.RowWise 2 2
    [(0, 1, 2), (1, 0, 3)] (by decide)
  obtain ⟨b, hb1, _, hb3, _⟩ := h2 U.compress (Or.inr rfl) 1 0 (by decide) (by decide)
  exact ⟨U, h1, b, hb1, hb3⟩

/-! ## The inactive store stays empty -/

theorem assign_value_frame (M : Matrix O) (t : Nat) (v : Int) (r : Returned × Matrix O)
    (h : M.assign_value t v = some r) :
    r.2.m_compressed = M.m_compressed ∧ r.2.m_mat_uncomp = M.m_mat_uncomp ∧
    r.2.m_inner = M.m_inner ∧ r.2.m_outer = M.m_outer := by
  unfold assign_value at h
  split at h
  · rw [Option.some.injEq] at h; subst h; exact ⟨rfl, rfl, rfl, rfl⟩
  · cases h

/-- A write access never touches the mode flag nor the store the flag does not select. -/
theorem Write_frame (M : Matrix O) (i j : Nat) (v : Int) (r : Returned × Matrix O)
    (hw : M.Write i j v = some r) :
    r.2.m_compressed = M.m_compressed ∧
    (M.m_compressed = true → r.2.m_mat_uncomp = M.m_mat_uncomp) ∧
    (M.m_compressed = false →
      r.2.m_val_comp = M.m_val_comp ∧ r.2.m_inner = M.m_inner ∧ r.2.m_outer = M.m_outer) := by
  unfold Write at hw
  split at hw
  · split at hw
    · cases hw
    · rename_i check_ij _
      simp only at hw
      split at hw
      · rw [Option.some.injEq] at hw; subst hw
        exact ⟨rfl, fun _ => rfl, fun _ => ⟨rfl, rfl, rfl⟩⟩
      · split at hw
        · rename_i hnc
          have hc : M.m_compressed = false := by simpa using hnc
          split at hw
          · rw [Option.some.injEq] at hw; subst hw
            refine ⟨rfl, fun h => ?_, fun _ => ⟨rfl, rfl, rfl⟩⟩
            rw [hc] at h; cases h
          · rw [Option.some.injEq] at hw; subst hw
            cases check_ij
            · refine ⟨rfl, fun h => ?_, fun _ => ⟨rfl, rfl, rfl⟩⟩
              rw [hc] at h; cases h
            · refine ⟨rfl, fun h => ?_, fun _ => ⟨rfl, rfl, rfl⟩⟩
              rw [hc] at h; cases h
        · rename_i hnc
          have hc : M.m_compressed = true := by simpa using hnc
          split at hw
          · rw [Option.some.injEq] at hw; subst hw
            exact ⟨rfl, fun _ => rfl, fun _ => ⟨rfl, rfl, rfl⟩⟩
          · split at hw
            · split at hw
              · split at hw
                · obtain ⟨h1, h2, h3, h4⟩ := assign_value_frame M _ _ r hw
                  refine ⟨h1, fun _ => h2, fun h => ?_⟩
                  rw [hc] at h; cases h
                · cases hw
              · cases hw
            · split at hw
              · split at hw
                · obtain ⟨h1, h2, h3, h4⟩ := assign_value_frame M _ _ r hw
                  refine ⟨h1, fun _ => h2, fun h => ?_⟩
                  rw [hc] at h; cases h
                · cases hw
              · cases hw
  · cases hw

theorem call_inactive_empty (M M1 : Matrix O) (c : Call) (h : M.inactive_empty)
    (hc : M.call c = some M1) : M1.inactive_empty := by
  cases c with
  | Write i j v =>
    simp only [call, Option.map_eq_some'] at hc
    obtain ⟨r, hr, rfl⟩ := hc
    obtain ⟨h1, h2, h3⟩ := Write_frame M i j v r hr
    constructor
    · intro hc1
      rw [h1] at hc1
      rw [h2 hc1]; exact h.1 hc1
    · intro hc1
      rw [h1] at hc1
      obtain ⟨e1, e2, e3⟩ := h3 hc1
      rw [e1, e2, e3]; exact h.2 hc1
  | compress =>
    simp only [call, Option.some.injEq] at hc
    subst hc
    cases hm : M.m_compressed
    · cases O <;> simp [inactive_empty, compress, clear_buffer, hm]
    · have : M.compress = M := by simp [compress, hm]
      rw [this]; exact h
  | uncompress =>
    simp only [call] at hc
    cases hm : M.m_compressed
    · have : M.uncompress = some M := by simp [uncompress, hm]
      rw [this, Option.some.injEq] at hc
      subst hc; exact h
    · simp only [uncompress, hm, if_true] at hc
      split at hc
      · rw [Option.some.injEq] at hc; subst hc
        simp [inactive_empty, clear_buffer]
      · cases hc
  | resize m_new n_new =>
    simp only [call, Option.some.injEq] at hc
    subst hc
    cases hm : M.m_compressed <;> simp [inactive_empty, resize, clear_buffer, hm]

/-- C17: starting from a freshly constructed (uncompressed, empty) matrix, after every
sequence of write accesses, `compress()`, `uncompress()` and `resize()` calls that runs to
its end, the store that the mode flag does not select is empty: the map is empty whenever
the matrix is compressed, and the three compressed arrays are empty whenever it is
uncompressed. -/
theorem C17_inactive_store_empty (O : StorageOrder) (m n : Nat) (cs : List Call)
    (M : Matrix O) (h : (construct O m n false).calls cs = some M) :
    (M.m_compressed = true → M.m_mat_uncomp = []) ∧
    (M.m_compressed = false → M.m_val_comp = [] ∧ M.m_inner = [] ∧ M.m_outer = []) := by
  have hgen : ∀ (cs : List Call) (M0 M1 : Matrix O), M0.inactive_empty →
      M0.calls cs = some M1 → M1.inactive_empty := by
    intro cs
    induction cs with
    | nil =>
      intro M0 M1 h0 hc
      simp only [calls, Option.some.injEq] at hc
      subst hc; exact h0
    | cons c cs ih =>
      intro M0 M1 h0 hc
      simp only [calls] at hc
      cases hr : M0.call c with
      | none => rw [hr] at hc; cases hc
      | some M2 =>
        rw [hr] at hc
        exact ih M2 M1 (call_inactive_empty M0 M2 c h0 hr) hc
  exact hgen cs (construct O m n false) M
    ⟨fun hc => (by cases hc), fun _ => ⟨rfl, rfl, rfl⟩⟩ h

/-- Witness of C17: write, compress, resize, uncompress, write on the empty 2 x 2 matrix. -/
theorem C17_witness :
    (construct StorageOrder.RowWise 2 2 false).calls
        [Call.Write 0 1 2, Call.compress, Call.resize 2 3, Call.uncompress, Call.Write 1 2 4]
      = some ⟨2, 3, 2, false, [((0, 1), 2), ((1, 2), 4)], [], [], []⟩ ∧
    ((⟨2, 3, 2, false, [((0, 1), 2), ((1, 2), 4)], [], [], []⟩ :
        Matrix StorageOrder.RowWise).m_compressed = false →
      (⟨2, 3, 2, false, [((0, 1), 2), ((1, 2), 4)], [], [], []⟩ :
        Matrix StorageOrder.RowWise).m_val_comp = []) :=
  ⟨by decide, fun hc => ((C17_inactive_store_empty StorageOrder.RowWise 2 2
    [Call.Write 0 1 2, Call.compress, Call.resize 2 3, Call.uncompress, Call.Write 1 2 4]
    _ (by decide)).2 hc).1⟩

/-! ## No stored zero -/

theorem uncompressed_ok_eq (M : Matrix O) (h : M.uncompressed_ok) :
    M = ⟨M.m_m, M.m_n, M.m_nnz, false, M.m_mat_uncomp, [], [], []⟩ := by
  obtain ⟨hc, _, _, hv, hin, hout⟩ := h
  cases M
  simp only at hc hv hin hout
  subst hc hv hin hout
  rfl

theorem uncompressed_form_ok (m n nnz : Nat) (L : MatrixUncompressed) (hs : map_sorted O L)
    (hb : ∀ p ∈ L, p.1.1 < m ∧ p.1.2 < n) :
    (⟨m, n, nnz, false, L, [], [], []⟩ : Matrix O).uncompressed_ok :=
  ⟨rfl, hs, hb, rfl, rfl, rfl⟩

theorem map_set_bounds (m n : Nat) (k : key_type) (v : Int) (L : MatrixUncompressed)
    (hb : ∀ p ∈ L, p.1.1 < m ∧ p.1.2 < n) :
    ∀ p ∈ L.map (fun p => if p.1 = k then (p.1, v) else p), p.1.1 < m ∧ p.1.2 < n := by
  intro p hp
  obtain ⟨q, hq, rfl⟩ := List.mem_map.1 hp
  have := hb q hq
  by_cases hqk : q.1 = k <;> simp [hqk] <;> simpa [hqk] using this

theorem map_set_nonzero (k : key_type) (v : Int) (hv : v ≠ 0) (L : MatrixUncompressed)
    (hnz : stored_nonzero L) :
    stored_nonzero (L.map (fun p => if p.1 = k then (p.1, v) else p)) := by
  intro p hp
  obtain ⟨q, hq, rfl⟩ := List.mem_map.1 hp
  by_cases hqk : q.1 = k
  · simpa [hqk] using hv
  · simpa [hqk] using hnz q hq

/-- An admissible call on a state of the content invariant succeeds and keeps the
invariant. -/
theorem call_content_ok (m n : Nat) (M : Matrix O) (c : Call) (h : M.content_ok m n)
    (hc : c.admissible m n) : ∃ M1 : Matrix O, M.call c = some M1 ∧ M1.content_ok m n := by
  obtain ⟨L, nnz, hs, hb, hnz, hM | hM⟩ := h
  · -- uncompressed
    have hok : M.uncompressed_ok := by rw [hM]; exact uncompressed_form_ok m n nnz L hs hb
    have hm : M.m_m = m := by rw [hM]
    have hn : M.m_n = n := by rw [hM]
    have hL : M.m_mat_uncomp = L := by rw [hM]
    cases c with
    | Write i j v =>
      obtain ⟨hi, hj⟩ : i < m ∧ j < n := hc
      obtain ⟨r, hw⟩ : ∃ r, M.Write i j v = some r :=
        ⟨_, Write_uncompressed M hok.1 hok.2.1 i j v (by omega) (by omega)⟩
      obtain ⟨h1, h2, h3⟩ := Write_ok M hok _ _ _ r hw
      have h4 := Write_nonzero M hok (by rw [hL]; exact hnz) _ _ _ r hw
      refine ⟨r.2, by simp only [call, hw]; rfl, r.2.m_mat_uncomp, r.2.m_nnz, h1.2.1, ?_, h4,
        Or.inl ?_⟩
      · rw [← hm, ← hn, ← h2, ← h3]; exact h1.2.2.1
      · have := uncompressed_ok_eq r.2 h1
        rw [h2, h3, hm, hn] at this
        exact this
    | compress =>
      refine ⟨_, rfl, L, nnz, hs, hb, hnz, Or.inr ?_⟩
      rw [compress_eq M hok, hM]
    | uncompress =>
      refine ⟨M, ?_, L, nnz, hs, hb, hnz, Or.inl hM⟩
      simp [call, uncompress, hok.1]
    | resize a b => exact absurd hc (by simp [Call.admissible])
  · -- compressed
    cases c with
    | Write i j v =>
      obtain ⟨hi, hj⟩ : i < m ∧ j < n := hc
      by_cases hrej : v = 0 ∨ map_contains O (i, j) L = false
      · refine ⟨M, ?_, L, nnz, hs, hb, hnz, Or.inr hM⟩
        rw [hM]
        simp only [call, Write_compressed_of_reject O m n nnz L hs i j v hi hj hrej]
        rfl
      · have hv : v ≠ 0 := fun h => hrej (Or.inl h)
        have hpres : map_contains O (i, j) L = true := by
          cases hcon : map_contains O (i, j) L
          · exact absurd (Or.inr hcon) hrej
          · rfl
        obtain ⟨t, w, ht, hw⟩ :=
          Write_compressed_of_present O m n nnz L hs i j v hi hj hv hpres
        have hset := compressed_of_set O m n nnz L hs (i, j) v w t ht
        refine ⟨_, by rw [hM]; simp only [call, hw]; rfl, _, nnz,
          map_sorted_of_keys O _ _ (map_set_keys (i, j) v L) hs,
          map_set_bounds m n (i, j) v L hb, map_set_nonzero (i, j) v hv L hnz, Or.inr ?_⟩
        exact hset
    | compress =>
      refine ⟨M, ?_, L, nnz, hs, hb, hnz, Or.inr hM⟩
      rw [hM]; simp [call, compress, compressed_of]
    | uncompress =>
      refine ⟨_, ?_, L, nnz, hs, hb, hnz, Or.inl rfl⟩
      rw [hM]
      simp only [call, uncompress_compressed_of O m n nnz L hs hb]
    | resize a b => exact absurd hc (by simp [Call.admissible])

theorem calls_content_ok (m n : Nat) (cs : List Call) :
    ∀ (M : Matrix O), M.content_ok m n → (∀ c ∈ cs, c.admissible m n) →
      ∃ M1 : Matrix O, M.calls cs = some M1 ∧ M1.content_ok m n := by
  induction cs with
  | nil => intro M h _; exact ⟨M, rfl, h⟩
  | cons c cs ih =>
    intro M h hc
    obtain ⟨M1, h1, h2⟩ := call_content_ok m n M c h (hc c (List.mem_cons_self _ _))
    obtain ⟨M2, h3, h4⟩ := ih M1 h2 (fun x hx => hc x (List.mem_cons_of_mem _ hx))
    exact ⟨M2, by simp only [calls, h1]; exact h3, h4⟩

/-- C18: starting from the empty `m x n` matrix, every sequence of in-bounds write accesses,
`compress()` and `uncompress()` calls runs to its end, and in the matrix it leaves no stored
value is zero: no map entry has value zero and no element of the values array is zero
(whichever of the two stores is the active one). -/
theorem C18_no_stored_zero (O : StorageOrder) (m n : Nat) (cs : List Call)
    (hc : ∀ c ∈ cs, c.admissible m n) :
    ∃ M : Matrix O, (construct O m n false).calls cs = some M ∧
      (∀ p ∈ M.m_mat_uncomp, p.2 ≠ 0) ∧ (∀ x ∈ M.m_val_comp, x ≠ 0) := by
  have h0 : (construct O m n false).content_ok m n :=
    ⟨[], 0, map_sorted_nil O, fun p hp => by simp at hp, fun p hp => by simp at hp,
      Or.inl rfl⟩
  obtain ⟨M, h1, L, nnz, hs, hb, hnz, hM | hM⟩ :=
    calls_content_ok m n cs (construct O m n false) h0 hc
  · refine ⟨M, h1, ?_, ?_⟩
    · rw [hM]; exact hnz
    · rw [hM]; intro x hx; simp at hx
  · refine ⟨M, h1, ?_, ?_⟩
    · rw [hM]; intro p hp; simp [compressed_of] at hp
    · rw [hM]
      intro x hx
      simp only [compressed_of, List.mem_map] at hx
      obtain ⟨p, hp, rfl⟩ := hx
      exact hnz p hp

/-- Witness of C18: writes (one of them of zero on a stored cell), `compress()`, a write on
the compressed matrix, `uncompress()` on the empty 2 x 2 matrix. -/
theorem C18_witness :
    (∀ c ∈ [Call.Write 0 1 2, Call.Write 1 0 3, Call.Write 0 1 0, Call.compress,
        Call.Write 1 0 7, Call.uncompress], c.admissible 2 2) ∧
    ∃ M : Matrix StorageOrder.RowWise,
      (construct StorageOrder.RowWise 2 2 false).calls
        [Call.Write 0 1 2, Call.Write 1 0 3, Call.Write 0 1 0, Call.compress,
          Call.Write 1 0 7, Call.uncompress] = some M ∧
      (∀ p ∈ M.m_mat_uncomp, p.2 ≠ 0) := by
  have hadm : ∀ c ∈ [Call.Write 0 1 2, Call.Write 1 0 3, Call.Write 0 1 0, Call.compress,
      Call.Write 1 0 7, Call.uncompress], c.admissible 2 2 := by
    intro c hc
    simp only [List.mem_cons, List.mem_singleton, List.not_mem_nil, or_false] at hc
    rcases hc with rfl | rfl | rfl | rfl | rfl | rfl <;> simp [Call.admissible]
  obtain ⟨M, h1, h2, _⟩ := C18_no_stored_zero StorageOrder.RowWise 2 2 _ hadm
  exact ⟨hadm, M, h1, h2⟩

end Matrix

/-! ## Extraction of a native line -/

/-- On a list ordered by `f`, `std::find_if` with a predicate that holds from line `a` on
stops after the entries of the lines before `a`. -/
theorem find_if_pos_sorted {α : Type} (f : α → Nat) (p : α → Bool) (a : Nat) (L : List α)
    (hs : L.Pairwise (fun x y => f x ≤ f y)) (hp : ∀ x ∈ L, (p x = true ↔ a ≤ f x)) :
    find_if_pos p L = (L.filter (fun x => decide (f x < a))).length := by
  induction L with
  | nil => rfl
  | cons x xs ih =>
    obtain ⟨hx, hxs⟩ := List.pairwise_cons.1 hs
    by_cases hpx : p x = true
    · have hax : a ≤ f x := (hp x (List.mem_cons_self _ _)).1 hpx
      have hnil : (x :: xs).filter (fun y => decide (f y < a)) = [] := by
        rw [List.filter_eq_nil_iff]
        intro y hy
        rcases List.mem_cons.1 hy with rfl | hy
        · simp; omega
        · have := hx y hy; simp; omega
      rw [find_if_pos_cons_pos p x xs hpx, hnil]; rfl
    · have hax : ¬ a ≤ f x := fun h => hpx ((hp x (List.mem_cons_self _ _)).2 h)
      rw [Bool.not_eq_true] at hpx
      rw [find_if_pos_cons_neg p x xs hpx,
        ih hxs (fun y hy => hp y (List.mem_cons_of_mem _ hy))]
      have : decide (f x < a) = true := by simp; omega
      simp [List.filter_cons, this]

theorem map_lower_bound_line (O : StorageOrder) (L : MatrixUncompressed)
    (hs : map_sorted O L) (a : Nat) :
    map_lower_bound O (mk_key O a 0) L = (lines_before O L a).length := by
  apply find_if_pos_sorted (fun p : key_type × Int => major O p.1) _ a L
    (map_sorted_major O L hs)
  intro x _
  simp only [Bool.not_eq_true', Bool.eq_false_iff, ne_eq, key_comp_iff, major_mk_key,
    minor_mk_key]
  omega

theorem map_upper_bound_line (O : StorageOrder) (L : MatrixUncompressed)
    (hs : map_sorted O L) (a od : Nat) (ha : 0 < a) (hod : ∀ p ∈ L, minor O p.1 < od) :
    map_upper_bound O (mk_key O (a - 1) (od + 1)) L = (lines_before O L a).length := by
  apply find_if_pos_sorted (fun p : key_type × Int => major O p.1) _ a L
    (map_sorted_major O L hs)
  intro x hx
  have := hod x hx
  simp only [key_comp_iff, major_mk_key, minor_mk_key]
  omega

theorem slice_line (O : StorageOrder) (L : MatrixUncompressed) (hs : map_sorted O L)
    (i : Nat) :
    slice? L (lines_before O L i).length (lines_before O L (i + 1)).length
      = some (line_block O L i) := by
  rw [lines_before_succ O L hs i, List.length_append]
  exact slice_block O L hs i

namespace Matrix

variable {O : StorageOrder}

/-- Extraction of a native line from a well-formed uncompressed matrix: the entries of the
line, as indices and values. -/
theorem get_row_uncompressed_native (U : Matrix StorageOrder.RowWise)
    (hU : U.uncompressed_ok) (idx : Nat) :
    U.get_row idx = some
      ((line_block StorageOrder.RowWise U.m_mat_uncomp idx).map (fun p => p.1.2),
       (line_block StorageOrder.RowWise U.m_mat_uncomp idx).map (fun p => p.2)) := by
  obtain ⟨hc, hs, hb, _, _, _⟩ := hU
  have hlb := map_lower_bound_line StorageOrder.RowWise U.m_mat_uncomp hs (idx + 1)
  have hsl := slice_line StorageOrder.RowWise U.m_mat_uncomp hs idx
  simp only [mk_key, if_true] at hlb
  by_cases h0 : idx = 0
  · subst h0
    simp only [lines_before_zero, List.length_nil] at hsl
    simp only [get_row, if_true, hc, Bool.false_eq_true, if_false, hlb, hsl, Option.map_some',
      push_entries]
  · have hub := map_upper_bound_line StorageOrder.RowWise U.m_mat_uncomp hs idx U.m_n
      (by omega) (fun p hp => by simpa [minor] using (hb p hp).2)
    simp only [mk_key, if_true] at hub
    simp only [get_row, if_true, hc, Bool.false_eq_true, if_false, h0, hub, hlb, hsl,
      Option.map_some', push_entries]

theorem get_col_uncompressed_native (U : Matrix StorageOrder.ColumnWise)
    (hU : U.uncompressed_ok) (idx : Nat) :
    U.get_col idx = some
      ((line_block StorageOrder.ColumnWise U.m_mat_uncomp idx).map (fun p => p.1.1),
       (line_block StorageOrder.ColumnWise U.m_mat_uncomp idx).map (fun p => p.2)) := by
  obtain ⟨hc, hs, hb, _, _, _⟩ := hU
  have hlb := map_lower_bound_line StorageOrder.ColumnWise U.m_mat_uncomp hs (idx + 1)
  have hsl := slice_line StorageOrder.ColumnWise U.m_mat_uncomp hs idx
  simp only [mk_key, reduceCtorEq, if_false] at hlb
  by_cases h0 : idx = 0
  · subst h0
    simp only [lines_before_zero, List.length_nil] at hsl
    simp only [get_col, if_true, hc, Bool.false_eq_true, if_false, hlb, hsl, Option.map_some',
      push_entries]
  · have hub := map_upper_bound_line StorageOrder.ColumnWise U.m_mat_uncomp hs idx U.m_m
      (by omega) (fun p hp => by simpa [minor] using (hb p hp).1)
    simp only [mk_key, reduceCtorEq, if_false] at hub
    simp only [get_col, if_true, hc, Bool.false_eq_true, if_false, h0, hub, hlb, hsl,
      Option.map_some', push_entries]

/-- Extraction of a native line from the compressed form: the two slices of the line. -/
theorem get_row_compressed_native (m n nnz : Nat) (L : MatrixUncompressed)
    (hs : map_sorted StorageOrder.RowWise L) (idx : Nat) (hi : idx < m) :
    (compressed_of StorageOrder.RowWise m n nnz L).get_row idx = some
      ((line_block StorageOrder.RowWise L idx).map (fun p => p.1.2),
       (line_block StorageOrder.RowWise L idx).map (fun p => p.2)) := by
  have hcomp : (compressed_of StorageOrder.RowWise m n nnz L).m_compressed = true := rfl
  have hlo := compressed_of_inner_lo StorageOrder.RowWise m n nnz L idx (by simp; omega)
  have hhi := compressed_of_inner_hi StorageOrder.RowWise m n nnz L hs idx (by simp; omega)
  have hso := compressed_of_slice_outer StorageOrder.RowWise m n nnz L hs idx
  have hsv := compressed_of_slice_val StorageOrder.RowWise m n nnz L hs idx
  simp only [minor, if_true] at hso
  simp only [get_row, if_true, hcomp, hlo, hhi, hso, hsv]

theorem get_col_compressed_native (m n nnz : Nat) (L : MatrixUncompressed)
    (hs : map_sorted StorageOrder.ColumnWise L) (idx : Nat) (hi : idx < n) :
    (compressed_of StorageOrder.ColumnWise m n nnz L).get_col idx = some
      ((line_block StorageOrder.ColumnWise L idx).map (fun p => p.1.1),
       (line_block StorageOrder.ColumnWise L idx).map (fun p => p.2)) := by
  have hcomp : (compressed_of StorageOrder.ColumnWise m n nnz L).m_compressed = true := rfl
  have hlo := compressed_of_inner_lo StorageOrder.ColumnWise m n nnz L idx (by simp; omega)
  have hhi := compressed_of_inner_hi StorageOrder.ColumnWise m n nnz L hs idx (by simp; omega)
  have hso := compressed_of_slice_outer StorageOrder.ColumnWise m n nnz L hs idx
  have hsv := compressed_of_slice_val StorageOrder.ColumnWise m n nnz L hs idx
  simp only [minor, reduceCtorEq, if_false] at hso
  simp only [get_col, if_true, hcomp, hlo, hhi, hso, hsv]

/-- Native extraction in both modes. -/
theorem get_row_native (U : Matrix StorageOrder.RowWise) (hU : U.uncompressed_ok)
    (M : Matrix StorageOrder.RowWise) (hM : M = U ∨ M = U.compress) (idx : Nat)
    (hi : idx < U.m_m) :
    M.get_row idx = some
      ((line_block StorageOrder.RowWise U.m_mat_uncomp idx).map (fun p => p.1.2),
       (line_block StorageOrder.RowWise U.m_mat_uncomp idx).map (fun p => p.2)) := by
  rcases hM with rfl | rfl
  · exact get_row_uncompressed_native M hU idx
  · rw [compress_eq U hU]
    exact get_row_compressed_native _ _ _ _ hU.2.1 idx hi

theorem get_col_native (U : Matrix StorageOrder.ColumnWise) (hU : U.uncompressed_ok)
    (M : Matrix StorageOrder.ColumnWise) (hM : M = U ∨ M = U.compress) (idx : Nat)
    (hi : idx < U.m_n) :
    M.get_col idx = some
      ((line_block StorageOrder.ColumnWise U.m_mat_uncomp idx).map (fun p => p.1.1),
       (line_block StorageOrder.ColumnWise U.m_mat_uncomp idx).map (fun p => p.2)) := by
  rcases hM with rfl | rfl
  · exact get_col_uncompressed_native M hU idx
  · rw [compress_eq U hU]
    exact get_col_compressed_native _ _ _ _ hU.2.1 idx hi

end Matrix

/-! ## Sums over the entries of a line -/

theorem block_lookup_nil (O : StorageOrder) (j : Nat) : block_lookup O [] j = 0 := rfl

theorem block_lookup_cons (O : StorageOrder) (q : key_type × Int) (B : MatrixUncompressed)
    (j : Nat) :
    block_lookup O (q :: B) j = if minor O q.1 = j then q.2 else block_lookup O B j := by
  simp only [block_lookup, List.find?_cons]
  by_cases h : minor O q.1 = j <;> simp [h]

theorem block_lookup_absent (O : StorageOrder) (B : MatrixUncompressed) (j : Nat)
    (h : ∀ p ∈ B, minor O p.1 ≠ j) : block_lookup O B j = 0 := by
  induction B with
  | nil => rfl
  | cons q B ih =>
    rw [block_lookup_cons, if_neg (h q (List.mem_cons_self _ _)),
      ih (fun p hp => h p (List.mem_cons_of_mem _ hp))]

/-- The value looked up in the block of a native line is the value the map holds under the
key, zero when there is none. -/
theorem block_lookup_line_block (O : StorageOrder) (L : MatrixUncompressed) (i j : Nat) :
    block_lookup O (line_block O L i) j = (map_find O (mk_key O i j) L).getD 0 := by
  induction L with
  | nil => rfl
  | cons q L ih =>
    rw [map_find_cons]
    by_cases hq : major O q.1 = i
    · have hb : line_block O (q :: L) i = q :: line_block O L i := by
        simp [line_block, List.filter_cons, hq]
      rw [hb, block_lookup_cons, ih]
      by_cases hj : minor O q.1 = j
      · have : q.1 = mk_key O i j := by rw [← hq, ← hj, mk_key_major_minor]
        rw [if_pos hj, if_pos this]; rfl
      · have : ¬ q.1 = mk_key O i j := by
          intro h; apply hj; rw [h, minor_mk_key]
        rw [if_neg hj, if_neg this]
    · have hb : line_block O (q :: L) i = line_block O L i := by
        simp [line_block, List.filter_cons, hq]
      have : ¬ q.1 = mk_key O i j := by
        intro h; apply hq; rw [h, major_mk_key]
      rw [hb, ih, if_neg this]

/-- Sum of `value * w(index)` over the entries of a line with ascending indices below `n`:
the sum over all `j < n` of the looked-up value times `w j`. -/
theorem block_sum_eq (O : StorageOrder) (w : Nat → Int) (n : Nat) (B : MatrixUncompressed)
    (hs : B.Pairwise (fun a b => minor O a.1 < minor O b.1))
    (hb : ∀ p ∈ B, minor O p.1 < n) :
    (B.map (fun p => p.2 * w (minor O p.1))).sum
      = ∑ j in Finset.range n, block_lookup O B j * w j := by
  induction B with
  | nil => simp [block_lookup_nil]
  | cons q B ih =>
    obtain ⟨hq, hB⟩ := List.pairwise_cons.1 hs
    have hqn := hb q (List.mem_cons_self _ _)
    have h0 : block_lookup O B (minor O q.1) = 0 :=
      block_lookup_absent O B _ (fun p hp => by have := hq p hp; omega)
    have hpt : ∀ j ∈ Finset.range n, block_lookup O (q :: B) j * w j
        = (if j = minor O q.1 then q.2 * w j else 0) + block_lookup O B j * w j := by
      intro j _
      rw [block_lookup_cons]
      by_cases hj : minor O q.1 = j
      · subst hj; simp [h0]
      · have : ¬ j = minor O q.1 := fun h => hj h.symm
        simp [hj, this]
    rw [Finset.sum_congr rfl hpt, Finset.sum_add_distrib, Finset.sum_ite_eq',
      ← ih hB (fun p hp => hb p (List.mem_cons_of_mem _ hp))]
    simp [hqn]

theorem dot_loop_block (O : StorageOrder) (x : Nat → Option Int) (w : Nat → Int)
    (B : MatrixUncompressed)
    (hx : ∀ p ∈ B, x (minor O p.1) = some (w (minor O p.1))) (temp : Int) :
    Matrix.dot_loop x (B.map (fun p => minor O p.1)) (B.map (fun p => p.2)) temp
      = some (temp + (B.map (fun p => p.2 * w (minor O p.1))).sum) := by
  induction B generalizing temp with
  | nil => simp [Matrix.dot_loop]
  | cons q B ih =>
    simp only [List.map_cons, Matrix.dot_loop, hx q (List.mem_cons_self _ _), List.sum_cons]
    rw [ih (fun p hp => hx p (List.mem_cons_of_mem _ hp))]
    congr 1; ring

theorem scatter_loop_block (O : StorageOrder) (y : Int) (B : MatrixUncompressed)
    (hs : B.Pairwise (fun a b => minor O a.1 < minor O b.1)) :
    ∀ (res : List Int), (∀ p ∈ B, minor O p.1 < res.length) →
      ∃ res1, Matrix.scatter_loop (some y) (B.map (fun p => minor O p.1))
          (B.map (fun p => p.2)) res = some res1 ∧ res1.length = res.length ∧
        ∀ r, res1.getD r 0 = res.getD r 0 + block_lookup O B r * y := by
  induction B with
  | nil =>
    intro res _
    exact ⟨res, rfl, rfl, fun r => by simp [block_lookup_nil]⟩
  | cons q B ih =>
    intro res hb
    obtain ⟨hq, hB⟩ := List.pairwise_cons.1 hs
    have hq0 := hb q (List.mem_cons_self _ _)
    obtain ⟨res1, h1, h2, h3⟩ := ih hB
      (res.set (minor O q.1) (res.getD (minor O q.1) 0 + q.2 * y))
      (fun p hp => by rw [List.length_set]; exact hb p (List.mem_cons_of_mem _ hp))
    refine ⟨res1, ?_, by rw [h2, List.length_set], ?_⟩
    · simp only [List.map_cons, Matrix.scatter_loop, hq0, if_true]
      exact h1
    · intro r
      rw [h3 r, block_lookup_cons]
      have h0 : block_lookup O B (minor O q.1) = 0 :=
        block_lookup_absent O B _ (fun p hp => by have := hq p hp; omega)
      by_cases hr : minor O q.1 = r
      · subst hr
        simp only [List.getD_eq_getElem?_getD, List.getElem?_set_eq_of_lt _ hq0, if_true, h0,
          Option.getD_some]
        ring
      · simp only [List.getD_eq_getElem?_getD, List.getElem?_set_ne hr, hr, if_false]

/-! ## The two product loops over the lines of the left operand -/

theorem foldlM_push {α : Type} (step : List α → Nat → Option (List α)) (f : Nat → α)
    (l : List Nat) (h : ∀ acc, ∀ i ∈ l, step acc i = some (acc ++ [f i])) (acc0 : List α) :
    l.foldlM step acc0 = some (acc0 ++ l.map f) := by
  induction l generalizing acc0 with
  | nil => simp
  | cons i l ih =>
    rw [List.foldlM_cons, h acc0 i (List.mem_cons_self _ _)]
    simp only [Option.bind_eq_bind, Option.some_bind]
    rw [ih (fun acc k hk => h acc k (List.mem_cons_of_mem _ hk))]
    simp

theorem foldlM_accumulate (step : List Int → Nat → Option (List Int)) (h : Nat → Nat → Int)
    (m n : Nat)
    (hstep : ∀ acc c, c < n → acc.length = m →
      ∃ acc1, step acc c = some acc1 ∧ acc1.length = m ∧
        ∀ r, acc1.getD r 0 = acc.getD r 0 + h c r) :
    ∀ k, k ≤ n → ∀ acc0 : List Int, acc0.length = m →
      ∃ res, (List.range k).foldlM step acc0 = some res ∧ res.length = m ∧
        ∀ r, res.getD r 0 = acc0.getD r 0 + ∑ c in Finset.range k, h c r := by
  intro k
  induction k with
  | zero => intro _ acc0 h0; exact ⟨acc0, rfl, h0, fun r => by simp⟩
  | succ k ih =>
    intro hk acc0 h0
    obtain ⟨res, h1, h2, h3⟩ := ih (by omega) acc0 h0
    obtain ⟨acc1, h4, h5, h6⟩ := hstep res k (by omega) h2
    refine ⟨acc1, ?_, h5, ?_⟩
    · rw [List.range_succ, List.foldlM_append, h1]
      simp only [Option.bind_eq_bind, Option.some_bind, List.foldlM_cons, List.foldlM_nil]
      rw [h4]; rfl
    · intro r
      rw [h6 r, h3 r, Finset.sum_range_succ]; ring

namespace Matrix

/-- Row-wise left operand, either mode: extraction of row `i` followed by the inner loop
gives the sum over all columns of element times right-operand element. -/
theorem row_dot (U : Matrix StorageOrder.RowWise) (hU : U.uncompressed_ok)
    (M : Matrix StorageOrder.RowWise) (hM : M = U ∨ M = U.compress)
    (x : Nat → Option Int) (w : Nat → Int) (hx : ∀ c, c < U.m_n → x c = some (w c))
    (i : Nat) (hi : i < U.m_m) :
    ∃ row_i, M.get_row i = some row_i ∧
      dot_loop x row_i.1 row_i.2 0 = some (∑ j in Finset.range U.m_n,
        (map_find StorageOrder.RowWise (i, j) U.m_mat_uncomp).getD 0 * w j) := by
  refine ⟨_, get_row_native U hU M hM i hi, ?_⟩
  have hd := dot_loop_block StorageOrder.RowWise x w
    (line_block StorageOrder.RowWise U.m_mat_uncomp i) (fun p hp => by
      have hb := hU.2.2.1 p ((mem_line_block _ _ _ p).1 hp).1
      exact hx _ (by simpa [minor] using hb.2)) 0
  have hsum := block_sum_eq StorageOrder.RowWise w U.m_n
    (line_block StorageOrder.RowWise U.m_mat_uncomp i)
    (List.pairwise_map.1 (line_block_minor_sorted StorageOrder.RowWise _ hU.2.1 i))
    (fun p hp => by
      have hb := hU.2.2.1 p ((mem_line_block _ _ _ p).1 hp).1
      simpa [minor] using hb.2)
  have hlk : ∀ j, block_lookup StorageOrder.RowWise
      (line_block StorageOrder.RowWise U.m_mat_uncomp i) j
        = (map_find StorageOrder.RowWise (i, j) U.m_mat_uncomp).getD 0 := by
    intro j
    have := block_lookup_line_block StorageOrder.RowWise U.m_mat_uncomp i j
    simpa [mk_key] using this
  simp only [hlk] at hsum
  simp only [minor, if_true] at hd hsum
  rw [hd, hsum, zero_add]

/-- Column-wise left operand, either mode: extraction of column `c` followed by the inner
loop adds, to every position `r` of the accumulator, element `(r,c)` times the
right-operand element. -/
theorem col_scatter (U : Matrix StorageOrder.ColumnWise) (hU : U.uncompressed_ok)
    (M : Matrix StorageOrder.ColumnWise) (hM : M = U ∨ M = U.compress)
    (y : Option Int) (yv : Int) (hy : y = some yv) (c : Nat) (hc : c < U.m_n)
    (res : List Int) (hres : res.length = U.m_m) :
    ∃ col_c res1, M.get_col c = some col_c ∧
      scatter_loop y col_c.1 col_c.2 res = some res1 ∧ res1.length = U.m_m ∧
      ∀ r, res1.getD r 0 = res.getD r 0
        + (map_find StorageOrder.ColumnWise (r, c) U.m_mat_uncomp).getD 0 * yv := by
  obtain ⟨res1, h1, h2, h3⟩ := scatter_loop_block StorageOrder.ColumnWise yv
    (line_block StorageOrder.ColumnWise U.m_mat_uncomp c)
    (List.pairwise_map.1 (line_block_minor_sorted StorageOrder.ColumnWise _ hU.2.1 c))
    res (fun p hp => by
      have hb := hU.2.2.1 p ((mem_line_block _ _ _ p).1 hp).1
      rw [hres]; simpa [minor] using hb.1)
  have hlk : ∀ r, block_lookup StorageOrder.ColumnWise
      (line_block StorageOrder.ColumnWise U.m_mat_uncomp c) r
        = (map_find StorageOrder.ColumnWise (r, c) U.m_mat_uncomp).getD 0 := by
    intro r
    have := block_lookup_line_block StorageOrder.ColumnWise U.m_mat_uncomp c r
    simpa [mk_key] using this
  simp only [minor, reduceCtorEq, if_false] at h1
  refine ⟨_, res1, get_col_native U hU M hM c hc, ?_, by rw [h2, hres], ?_⟩
  · rw [hy]; exact h1
  · intro r; rw [h3 r, hlk r]

theorem compress_dims {O : StorageOrder} (U : Matrix O) (hU : U.uncompressed_ok)
    (M : Matrix O) (hM : M = U ∨ M = U.compress) : M.m_m = U.m_m ∧ M.m_n = U.m_n := by
  rcases hM with rfl | rfl
  · exact ⟨rfl, rfl⟩
  · rw [compress_eq U hU]; exact ⟨rfl, rfl⟩

/-- The dense-vector product of a well-formed matrix, in either mode: every component is
the sum over the columns of the stored value (zero when absent) times the vector element. -/
theorem operator_mul_vector_spec {O : StorageOrder} (U : Matrix O) (hU : U.uncompressed_ok)
    (M : Matrix O) (hM : M = U ∨ M = U.compress) (v : List Int) (hv : v.length = U.m_n) :
    ∃ res, M.operator_mul_vector v = some res ∧ res.length = U.m_m ∧
      ∀ i, i < U.m_m → res[i]? = some (∑ j in Finset.range U.m_n,
        (map_find O (i, j) U.m_mat_uncomp).getD 0 * v.getD j 0) := by
  obtain ⟨hm, hn⟩ := compress_dims U hU M hM
  have hx : ∀ c, c < U.m_n → v[c]? = some (v.getD c 0) := by
    intro c hc
    rw [List.getD_eq_getElem?_getD, List.getElem?_eq_getElem (by omega)]; rfl
  cases O
  · refine ⟨(List.range U.m_m).map (fun i => ∑ j in Finset.range U.m_n,
        (map_find StorageOrder.RowWise (i, j) U.m_mat_uncomp).getD 0 * v.getD j 0), ?_,
      by simp, ?_⟩
    · simp only [operator_mul_vector, hn, hv, if_true, hm]
      rw [foldlM_push _ (fun i => ∑ j in Finset.range U.m_n,
        (map_find StorageOrder.RowWise (i, j) U.m_mat_uncomp).getD 0 * v.getD j 0)]
      · simp
      · intro acc i hi
        obtain ⟨row_i, h1, h2⟩ := row_dot U hU M hM (fun c => v[c]?) (fun c => v.getD c 0)
          hx i (List.mem_range.1 hi)
        simp only [h1, h2]
    · intro i hi
      rw [List.getElem?_map, List.getElem?_range hi]; rfl
  · obtain ⟨res, h1, h2, h3⟩ := foldlM_accumulate
      (fun results i =>
        match M.get_col i with
        | none => none
        | some col_i => scatter_loop v[i]? col_i.1 col_i.2 results)
      (fun c r => (map_find StorageOrder.ColumnWise (r, c) U.m_mat_uncomp).getD 0
        * v.getD c 0) U.m_m U.m_n
      (by
        intro acc c hc hacc
        obtain ⟨col_c, res1, e1, e2, e3, e4⟩ := col_scatter U hU M hM v[c]? (v.getD c 0)
          (hx c hc) c hc acc hacc
        exact ⟨res1, by simp only [e1, e2], e3, e4⟩)
      U.m_n (Nat.le_refl _) (List.replicate U.m_m 0) (by simp)
    refine ⟨res, ?_, h2, ?_⟩
    · simp only [operator_mul_vector, hn, hv, if_true, hm, reduceCtorEq, if_false]
      exact h1
    · intro i hi
      have := h3 i
      rw [List.getD_eq_getElem?_getD, List.getD_eq_getElem?_getD,
        List.getElem?_replicate_of_lt hi, List.getElem?_eq_getElem (by omega)] at this
      simp only [Option.getD_some, zero_add] at this
      rw [List.getElem?_eq_getElem (by omega), this]

/-- C19: for both storage orders, every sequence of in-bounds write accesses on the empty
`m x n` matrix gives a matrix `U` such that, for `M` either `U` or `U.compress()` and every
dense vector `v` of length `n`, the product `M * v` is returned, has length `m`, and its
`i`-th component is the sum over `j < n` of `Read(i,j) * v[j]`.  For [[0,2],[3,0]] and
`v = [1,1]` the result is `[2,3]` in the four configurations. -/
theorem C19_matrix_vector_product (O : StorageOrder) (m n : Nat)
    (ws : List (Nat × Nat × Int)) (v : List Int) (hb : ∀ w ∈ ws, w.1 < m ∧ w.2.1 < n)
    (hv : v.length = n) :
    (∃ U : Matrix O, (construct O m n false).Writes ws = some U ∧
      ∀ M : Matrix O, (M = U ∨ M = U.compress) →
        ∃ (a : Nat → Nat → Int) (res : List Int),
          (∀ i j, i < m → j < n → M.Read i j = some (a i j)) ∧
          M.operator_mul_vector v = some res ∧ res.length = m ∧
          ∀ i, i < m → res[i]? = some (∑ j in Finset.range n, a i j * v.getD j 0)) ∧
    (∀ O1 : StorageOrder, ∃ A : Matrix O1,
      (construct O1 2 2 false).Writes [(0, 1, 2), (1, 0, 3)] = some A ∧
      A.operator_mul_vector [1, 1] = some [2, 3] ∧
      A.compress.operator_mul_vector [1, 1] = some [2, 3]) := by
  constructor
  · obtain ⟨U, hU, hok, hm, hn, _⟩ := Writes_built O m n ws hb
    refine ⟨U, hU, ?_⟩
    intro M hM
    subst hm hn
    obtain ⟨res, h1, h2, h3⟩ := operator_mul_vector_spec U hok M hM v hv
    exact ⟨fun i j => (map_find O (i, j) U.m_mat_uncomp).getD 0, res,
      fun i j hi hj => ((config_view U hok M hM).2.2 i j hi hj).2, h1, h2, h3⟩
  · intro O1
    cases O1
    · exact ⟨⟨2, 2, 2, false, [((0, 1), 2), ((1, 0), 3)], [], [], []⟩, by decide, by decide,
        by decide⟩
    · exact ⟨⟨2, 2, 2, false, [((1, 0), 3), ((0, 1), 2)], [], [], []⟩, by decide, by decide,
        by decide⟩

/-- Witness of C19: the column-wise 2 x 3 matrix [[0,2,0],[3,0,4]], compressed, times
`[1,1,1]`. -/
theorem C19_witness :
    ∃ U : Matrix StorageOrder.ColumnWise,
      (construct StorageOrder.ColumnWise 2 3 false).Writes [(0, 1, 2), (1, 0, 3), (1, 2, 4)]
        = some U ∧
      ∃ res : List Int, U.compress.operator_mul_vector [1, 1, 1] = some res ∧
        res.length = 2 := by
  obtain ⟨⟨U, h1, h2⟩, _⟩ := C19_matrix_vector_product StorageOrder.ColumnWise 2 3
    [(0, 1, 2), (1, 0, 3), (1, 2, 4)] [1, 1, 1] (by decide) (by decide)
  obtain ⟨a, res, _, h4, h5, _⟩ := h2 U.compress (Or.inr rfl)
  exact ⟨U, h1, res, h4, h5⟩

/-! ## One-column matrix product -/

theorem get_col_zero_uncompressed {O1 : StorageOrder} (V : Matrix O1)
    (hc : V.m_compressed = false) : ∃ c, V.get_col 0 = some c := by
  cases O1
  · exact ⟨push_entries (fun k => k.1)
      (copy_if_map StorageOrder.RowWise (fun p => decide (p.1.2 = 0)) V.m_mat_uncomp),
      by simp [get_col, hc]⟩
  · have hle := find_if_pos_le_length
      (fun p : key_type × Int => !key_comp StorageOrder.ColumnWise p.1 (0, 0 + 1))
      V.m_mat_uncomp
    refine ⟨push_entries (fun k => k.1)
      ((V.m_mat_uncomp.drop 0).take (map_lower_bound StorageOrder.ColumnWise (0, 0 + 1)
        V.m_mat_uncomp - 0)), ?_⟩
    simp only [get_col, if_true, hc, Bool.false_eq_true, if_false, slice?, Nat.zero_le,
      true_and, map_lower_bound, hle, Option.map_some']

/-- Write access on an absent cell of a well-formed uncompressed matrix, as seen by the
lookups. -/
theorem Write_absent_find (M : Matrix O) (h : M.uncompressed_ok) (i j : Nat) (v : Int)
    (hi : i < M.m_m) (hj : j < M.m_n) (habs : map_contains O (i, j) M.m_mat_uncomp = false) :
    ∃ r, M.Write i j v = some r ∧ r.2.uncompressed_ok ∧ r.2.m_m = M.m_m ∧ r.2.m_n = M.m_n ∧
      (∀ p ∈ r.2.m_mat_uncomp, p ∈ M.m_mat_uncomp ∨ p.1 = (i, j)) ∧
      (map_find O (i, j) r.2.m_mat_uncomp).getD 0 = v ∧
      ∀ k, k ≠ (i, j) → map_find O k r.2.m_mat_uncomp = map_find O k M.m_mat_uncomp := by
  obtain ⟨r, hw⟩ : ∃ r, M.Write i j v = some r :=
    ⟨_, Write_uncompressed M h.1 h.2.1 i j v hi hj⟩
  obtain ⟨h1, h2, h3⟩ := Write_ok M h _ _ _ r hw
  refine ⟨r, hw, h1, h2, h3, ?_⟩
  have hnone : map_find O (i, j) M.m_mat_uncomp = none := (map_find_eq_none_iff O _ _).2 habs
  rw [Write_uncompressed M h.1 h.2.1 i j v hi hj, Option.some.injEq] at hw
  subst hw
  by_cases hv0 : v = 0
  · by_cases hn : M.m_nnz = 0
    · rw [if_pos hv0, if_pos hn]
      exact ⟨fun p hp => Or.inl hp, by rw [hnone, hv0]; rfl, fun _ _ => rfl⟩
    · rw [if_pos hv0, if_neg hn]
      have he := map_erase_absent O (i, j) _ habs
      refine ⟨?_, ?_, ?_⟩
      · intro p hp
        have hp1 : p ∈ map_erase O (i, j) M.m_mat_uncomp := hp
        rw [he] at hp1; exact Or.inl hp1
      · show (map_find O (i, j) (map_erase O (i, j) M.m_mat_uncomp)).getD 0 = v
        rw [he, hnone, hv0]; rfl
      · intro k _
        show map_find O k (map_erase O (i, j) M.m_mat_uncomp) = _
        rw [he]
  · have hcon : ¬ map_contains O (i, j) M.m_mat_uncomp = true := by rw [habs]; simp
    rw [if_neg hv0, if_neg hcon]
    refine ⟨?_, ?_, ?_⟩
    · intro p hp
      rcases (mem_map_insert O (i, j) v _ habs p).1 hp with rfl | hp
      · exact Or.inr rfl
      · exact Or.inl hp
    · show (map_find O (i, j) (map_insert O (i, j) v M.m_mat_uncomp)).getD 0 = v
      rw [map_find_insert_self O (i, j) v _ habs]; rfl
    · intro k hk
      exact map_find_insert_ne O (i, j) k v _ hk

theorem column_filled_construct (O : StorageOrder) (m : Nat) (t : Nat → Int) :
    (construct O m 1 false).column_filled m 0 t :=
  ⟨construct_ok O m 1, rfl, rfl, fun p hp => by simp [construct] at hp,
    fun i hi => absurd hi (Nat.not_lt_zero i)⟩

/-- Writing the value of row `k` into a column filled up to row `k`. -/
theorem column_step (R : Matrix O) (m k : Nat) (t : Nat → Int)
    (h : R.column_filled m k t) (hk : k < m) :
    ∃ r, R.Write k 0 (t k) = some r ∧ r.2.column_filled m (k + 1) t := by
  obtain ⟨hok, hm, hn, hkeys, hval⟩ := h
  have habs : map_contains O (k, 0) R.m_mat_uncomp = false := by
    rw [map_contains_false_iff]
    intro p hp hpk
    have := hkeys p hp
    rw [hpk] at this
    exact absurd this (Nat.lt_irrefl k)
  obtain ⟨r, h1, h2, h3, h4, h5, h6, h7⟩ :=
    Write_absent_find R hok k 0 (t k) (by omega) (by omega) habs
  refine ⟨r, h1, h2, by rw [h3, hm], by rw [h4, hn], ?_, ?_⟩
  · intro p hp
    rcases h5 p hp with hp | hp
    · have := hkeys p hp; omega
    · rw [hp]; exact Nat.lt_succ_self k
  · intro i hi
    by_cases hik : i = k
    · subst hik; exact h6
    · rw [h7 (i, 0) (by intro h; apply hik; exact (Prod.mk.inj h).1)]
      exact hval i (by omega)

theorem write_column_spec (m : Nat) (t : Nat → Int) (ts : List Int) :
    ∀ (k : Nat) (R : Matrix O), R.column_filled m k t →
      (∀ s, s < ts.length → ts.getD s 0 = t (k + s)) → k + ts.length ≤ m →
      ∃ R1, write_column k ts R = some R1 ∧ R1.column_filled m (k + ts.length) t := by
  induction ts with
  | nil => intro k R h _ _; exact ⟨R, rfl, h⟩
  | cons x ts ih =>
    intro k R h hts hlen
    simp only [List.length_cons] at hlen
    have hx : x = t k := by simpa using hts 0 (by simp)
    obtain ⟨r, h1, h2⟩ := column_step R m k t h (by omega)
    obtain ⟨R1, h3, h4⟩ := ih (k + 1) r.2 h2 (fun s hs => by
      have := hts (s + 1) (by simp; omega)
      simp only [List.getD_cons_succ] at this
      rw [this]; congr 1; omega) (by omega)
    refine ⟨R1, ?_, ?_⟩
    · simp only [write_column, hx, h1]; exact h3
    · have : k + (x :: ts).length = k + 1 + ts.length := by simp; omega
      rw [this]; exact h4

theorem column_filled_read (R : Matrix O) (m : Nat) (t : Nat → Int)
    (h : R.column_filled m m t) (i : Nat) (hi : i < m) : R.Read i 0 = some (t i) := by
  obtain ⟨hok, hm, hn, _, hval⟩ := h
  rw [Read_uncompressed R hok.1 hok.2.1 i 0 (by omega) (by omega), hval i hi]

end Matrix

namespace Matrix

/-- The matrix product with a one-column right operand, for a well-formed left operand in
either mode: the result is the uncompressed `m x 1` matrix holding, in every row, the sum
over the columns of the stored value times the right-operand element. -/
theorem operator_mul_matrix_column {O O1 : StorageOrder} (U : Matrix O)
    (hU : U.uncompressed_ok) (M : Matrix O) (hM : M = U ∨ M = U.compress) (V : Matrix O1)
    (hV0 : ∃ c0, V.get_col 0 = some c0) (hVm : V.m_m = U.m_n) (hVn : V.m_n = 1)
    (w : Nat → Int) (hV : ∀ k, k < U.m_n → V.Read k 0 = some (w k)) :
    ∃ R, M.operator_mul_matrix V = some R ∧
      R.column_filled U.m_m U.m_m (fun i => ∑ j in Finset.range U.m_n,
        (map_find O (i, j) U.m_mat_uncomp).getD 0 * w j) := by
  obtain ⟨hm, hn⟩ := compress_dims U hU M hM
  obtain ⟨c0, hcol⟩ := hV0
  cases O
  · have hfold : ∀ k, k ≤ U.m_m → ∃ R,
        (List.range k).foldlM (fun (res : Matrix StorageOrder.RowWise) i =>
          match M.get_row i with
          | none => none
          | some row_i =>
            match dot_loop (fun c => V.Read c 0) row_i.1 row_i.2 0 with
            | none => none
            | some temp => (res.Write i 0 temp).map (fun r => r.2))
          (construct StorageOrder.RowWise U.m_m 1 false) = some R ∧
        R.column_filled U.m_m k (fun i => ∑ j in Finset.range U.m_n,
          (map_find StorageOrder.RowWise (i, j) U.m_mat_uncomp).getD 0 * w j) := by
      intro k
      induction k with
      | zero => intro _; exact ⟨_, rfl, column_filled_construct _ _ _⟩
      | succ k ih =>
        intro hk
        obtain ⟨R, h1, h2⟩ := ih (by omega)
        obtain ⟨row_k, h3, h4⟩ := row_dot U hU M hM (fun c => V.Read c 0) w hV k (by omega)
        obtain ⟨r, h5, h6⟩ := column_step R U.m_m k _ h2 (by omega)
        refine ⟨r.2, ?_, h6⟩
        rw [List.range_succ, List.foldlM_append, h1]
        simp only [Option.bind_eq_bind, Option.some_bind, List.foldlM_cons, List.foldlM_nil,
          h3, h4, h5, Option.map_some']
        rfl
    obtain ⟨R, h1, h2⟩ := hfold U.m_m (Nat.le_refl _)
    refine ⟨R, ?_, h2⟩
    simp only [operator_mul_matrix, hn, hVm, if_true, hVn, decide_True, hcol, hm]
    exact h1
  · obtain ⟨temp, h1, h2, h3⟩ := foldlM_accumulate
      (fun (temp : List Int) i =>
        match M.get_col i with
        | none => none
        | some col_i => scatter_loop (V.Read i 0) col_i.1 col_i.2 temp)
      (fun c r => (map_find StorageOrder.ColumnWise (r, c) U.m_mat_uncomp).getD 0 * w c)
      U.m_m U.m_n
      (by
        intro acc c hc hacc
        obtain ⟨col_c, res1, e1, e2, e3, e4⟩ := col_scatter U hU M hM (V.Read c 0) (w c)
          (hV c hc) c hc acc hacc
        exact ⟨res1, by simp only [e1, e2], e3, e4⟩)
      U.m_n (Nat.le_refl _) (List.replicate U.m_m 0) (by simp)
    obtain ⟨R, h4, h5⟩ := write_column_spec (O := StorageOrder.ColumnWise) U.m_m
      (fun i => ∑ j in Finset.range U.m_n,
        (map_find StorageOrder.ColumnWise (i, j) U.m_mat_uncomp).getD 0 * w j) temp 0
      (construct StorageOrder.ColumnWise U.m_m 1 false) (column_filled_construct _ _ _)
      (by
        intro s hs
        have := h3 s
        rw [List.getD_eq_getElem?_getD (l := List.replicate U.m_m 0),
          List.getElem?_replicate_of_lt (by omega)] at this
        simp only [Option.getD_some, zero_add] at this
        rw [this, Nat.zero_add])
      (by omega)
    rw [Nat.zero_add, h2] at h5
    refine ⟨R, ?_, h5⟩
    simp only [operator_mul_matrix, hn, hVm, if_true, hVn, decide_True, hcol, hm,
      reduceCtorEq, if_false, h1]
    exact h4

/-- C20: for both storage orders of `M` and of `V`, every sequence of in-bounds write
accesses on the empty `m x n` matrix gives a matrix `U` such that, for `M` either `U` or
`U.compress()`, every dense vector `v` of length `n` and every uncompressed one-column
matrix `V` with `V(k,0) = v[k]`, the product `M * v` and the product `M * V` are both
returned and agree element-wise: `Read(M * V, i, 0) = (M * v)[i]` for every `i < m`; the
matrix result is uncompressed of extents `m x 1`. -/
theorem C20_vector_and_column_products_agree (O O1 : StorageOrder) (m n : Nat)
    (ws : List (Nat × Nat × Int)) (v : List Int) (V : Matrix O1)
    (hb : ∀ w ∈ ws, w.1 < m ∧ w.2.1 < n) (hv : v.length = n)
    (hVc : V.m_compressed = false) (hVm : V.m_m = n) (hVn : V.m_n = 1)
    (hV : ∀ k, k < n → V.Read k 0 = some (v.getD k 0)) :
    ∃ U : Matrix O, (construct O m n false).Writes ws = some U ∧
      ∀ M : Matrix O, (M = U ∨ M = U.compress) →
        ∃ (res : List Int) (R : Matrix O),
          M.operator_mul_vector v = some res ∧ M.operator_mul_matrix V = some R ∧
          res.length = m ∧ R.m_m = m ∧ R.m_n = 1 ∧ R.m_compressed = false ∧
          ∀ i, i < m → ∃ x, res[i]? = some x ∧ R.Read i 0 = some x := by
  obtain ⟨U, hU, hok, hm, hn, _⟩ := Writes_built O m n ws hb
  refine ⟨U, hU, ?_⟩
  intro M hM
  subst hm hn
  obtain ⟨res, h1, h2, h3⟩ := operator_mul_vector_spec U hok M hM v hv
  obtain ⟨R, h4, h5⟩ := operator_mul_matrix_column U hok M hM V
    (get_col_zero_uncompressed V hVc) hVm hVn
    (fun k => v.getD k 0) hV
  refine ⟨res, R, h1, h4, h2, h5.2.1, h5.2.2.1, h5.1.1, ?_⟩
  intro i hi
  exact ⟨_, h3 i hi, column_filled_read R U.m_m _ h5 i hi⟩

/-- Witness of C20: the column-wise 2 x 2 matrix [[0,2],[3,0]], the vector `[5,7]` and the
row-wise one-column matrix holding 5 and 7. -/
theorem C20_witness :
    (∀ k, k < 2 → (⟨2, 1, 2, false, [((0, 0), 5), ((1, 0), 7)], [], [], []⟩ :
        Matrix StorageOrder.RowWise).Read k 0 = some (([5, 7] : List Int).getD k 0)) ∧
    ∃ U : Matrix StorageOrder.ColumnWise,
      (construct StorageOrder.ColumnWise 2 2 false).Writes [(0, 1, 2), (1, 0, 3)] = some U ∧
      ∃ (res : List Int) (R : Matrix StorageOrder.ColumnWise),
        U.compress.operator_mul_vector [5, 7] = some res ∧
        U.compress.operator_mul_matrix
          (⟨2, 1, 2, false, [((0, 0), 5), ((1, 0), 7)], [], [], []⟩ :
            Matrix StorageOrder.RowWise) = some R ∧
        ∀ i, i < 2 → ∃ x, res[i]? = some x ∧ R.Read i 0 = some x := by
  have hV : ∀ k, k < 2 → (⟨2, 1, 2, false, [((0, 0), 5), ((1, 0), 7)], [], [], []⟩ :
      Matrix StorageOrder.RowWise).Read k 0 = some (([5, 7] : List Int).getD k 0) := by
    decide
  obtain ⟨U, h1, h2⟩ := C20_vector_and_column_products_agree StorageOrder.ColumnWise
    StorageOrder.RowWise 2 2 [(0, 1, 2), (1, 0, 3)] [5, 7]
    ⟨2, 1, 2, false, [((0, 0), 5), ((1, 0), 7)], [], [], []⟩ (by decide) (by decide)
    (by decide) (by decide) (by decide) hV
  obtain ⟨res, R, h3, h4, _, _, _, _, h5⟩ := h2 U.compress (Or.inr rfl)
  exact ⟨hV, U, h1, res, R, h3, h4, h5⟩

end Matrix


/-! ## Extraction of any line from the uncompressed store -/

theorem map_find_order (O O1 : StorageOrder) (k : key_type) (L : MatrixUncompressed) :
    map_find O k L = map_find O1 k L := by
  induction L with
  | nil => rfl
  | cons p L ih => rw [map_find_cons, map_find_cons, ih]

theorem foldl_insert_sorted (O : StorageOrder) :
    ∀ (l acc : MatrixUncompressed), map_sorted O (acc ++ l) →
      l.foldl (fun acc p => map_insert O p.1 p.2 acc) acc = acc ++ l := by
  intro l
  induction l with
  | nil => intro acc _; simp
  | cons p l ih =>
    intro acc hs
    have h1 : map_insert O p.1 p.2 acc = acc ++ [p] :=
      map_insert_append O p.1 p.2 acc (fun q hq =>
        (List.pairwise_append.1 hs).2.2 q hq p (List.mem_cons_self _ _))
    rw [List.foldl_cons, h1, ih (acc ++ [p]) (by simpa using hs)]
    simp

theorem copy_if_map_sorted (O : StorageOrder) (pred : key_type × Int → Bool)
    (mp : MatrixUncompressed) (hs : map_sorted O mp) :
    Matrix.copy_if_map O pred mp = mp.filter pred := by
  have h := foldl_insert_sorted O (mp.filter pred) []
    (by simpa using List.Pairwise.sublist (List.filter_sublist _) hs)
  simpa [Matrix.copy_if_map] using h

namespace Matrix

/-- Row extraction from the uncompressed store, both storage orders: the entries of the row
in the order of the map, as column indices and values. -/
theorem get_row_uncompressed {O : StorageOrder} (U : Matrix O) (hU : U.uncompressed_ok)
    (idx : Nat) :
    U.get_row idx = some
      ((line_block StorageOrder.RowWise U.m_mat_uncomp idx).map (fun p => p.1.2),
       (line_block StorageOrder.RowWise U.m_mat_uncomp idx).map (fun p => p.2)) := by
  cases O with
  | RowWise => exact get_row_uncompressed_native U hU idx
  | ColumnWise =>
    obtain ⟨hc, hs, -⟩ := hU
    simp only [get_row, reduceCtorEq, if_false, hc, Bool.false_eq_true, push_entries,
      line_block, major, if_true]
    rw [copy_if_map_sorted _ _ _ hs]

/-- Column extraction from the uncompressed store, both storage orders. -/
theorem get_col_uncompressed {O : StorageOrder} (U : Matrix O) (hU : U.uncompressed_ok)
    (idx : Nat) :
    U.get_col idx = some
      ((line_block StorageOrder.ColumnWise U.m_mat_uncomp idx).map (fun p => p.1.1),
       (line_block StorageOrder.ColumnWise U.m_mat_uncomp idx).map (fun p => p.2)) := by
  cases O with
  | ColumnWise => exact get_col_uncompressed_native U hU idx
  | RowWise =>
    obtain ⟨hc, hs, -⟩ := hU
    simp only [get_col, reduceCtorEq, if_false, hc, Bool.false_eq_true, push_entries,
      line_block, major, if_true]
    rw [copy_if_map_sorted _ _ _ hs]

end Matrix

/-- The entries of one row (`S = RowWise`) or one column (`S = ColumnWise`) of a map of any
ordering come with strictly ascending other coordinate. -/
theorem line_block_cross_sorted (O S : StorageOrder) (L : MatrixUncompressed)
    (hs : map_sorted O L) (i : Nat) :
    (line_block S L i).Pairwise (fun a b => minor S a.1 < minor S b.1) := by
  have h1 : (line_block S L i).Pairwise (fun a b => key_comp O a.1 b.1 = true) :=
    List.Pairwise.sublist (List.filter_sublist _) hs
  have h2 : ∀ a ∈ line_block S L i, major S a.1 = i := fun a ha =>
    ((mem_line_block S L i a).1 ha).2
  refine List.Pairwise.imp_of_mem ?_ h1
  intro a b ha hb hab
  have e1 := h2 a ha
  have e2 := h2 b hb
  rw [key_comp_iff] at hab
  cases O <;> cases S <;> simp only [major, minor, reduceCtorEq, if_true, if_false] at * <;> omega

/-- The value looked up in the entries of a row is the value the map holds at the cell. -/
theorem block_lookup_row (O : StorageOrder) (L : MatrixUncompressed) (i k : Nat) :
    block_lookup StorageOrder.RowWise (line_block StorageOrder.RowWise L i) k
      = (map_find O (i, k) L).getD 0 := by
  rw [block_lookup_line_block, map_find_order O StorageOrder.RowWise]; rfl

/-- The value looked up in the entries of a column is the value the map holds at the cell. -/
theorem block_lookup_col (O : StorageOrder) (L : MatrixUncompressed) (j k : Nat) :
    block_lookup StorageOrder.ColumnWise (line_block StorageOrder.ColumnWise L j) k
      = (map_find O (k, j) L).getD 0 := by
  rw [block_lookup_line_block, map_find_order O StorageOrder.ColumnWise]; rfl


/-! ## Intersection of two index vectors and the inner product over it -/

theorem set_intersection_loop_sorted :
    ∀ (fuel : Nat) (r1 r2 : List Nat), r1.length + r2.length ≤ fuel →
      r1.Pairwise (fun a b => a < b) → r2.Pairwise (fun a b => a < b) →
      Matrix.set_intersection_loop fuel r1 r2 = r1.filter (fun a => decide (a ∈ r2)) := by
  intro fuel
  induction fuel with
  | zero =>
    intro r1 r2 hl _ _
    have : r1 = [] := List.length_eq_zero.1 (by omega)
    subst this; rfl
  | succ fuel ih =>
    intro r1 r2 hl h1 h2
    cases r1 with
    | nil => rfl
    | cons a as =>
      cases r2 with
      | nil => simp [Matrix.set_intersection_loop]
      | cons b bs =>
        obtain ⟨ha, has⟩ := List.pairwise_cons.1 h1
        obtain ⟨hb, hbs⟩ := List.pairwise_cons.1 h2
        simp only [List.length_cons] at hl
        simp only [Matrix.set_intersection_loop]
        by_cases hab : a < b
        · rw [if_pos hab, ih as (b :: bs) (by simp only [List.length_cons]; omega) has h2]
          have hna : ¬ a ∈ b :: bs := by
            intro hm
            rcases List.mem_cons.1 hm with h | h
            · omega
            · have := hb a h; omega
          rw [List.filter_cons_of_neg (by simpa using hna)]
        · rw [if_neg hab]
          by_cases hba : b < a
          · rw [if_pos hba, ih (a :: as) bs (by simp only [List.length_cons]; omega) h1 hbs]
            apply List.filter_congr
            intro x hx
            have hxb : x ≠ b := by
              rcases List.mem_cons.1 hx with h | h
              · omega
              · have := ha x h; omega
            simp [hxb]
          · rw [if_neg hba]
            have hab' : a = b := by omega
            subst hab'
            rw [ih as bs (by omega) has hbs,
              List.filter_cons_of_pos (by simp)]
            congr 1
            apply List.filter_congr
            intro x hx
            have hxa : x ≠ a := by have := ha x hx; omega
            simp [hxa]

theorem set_intersection_sorted (r1 r2 : List Nat) (h1 : r1.Pairwise (fun a b => a < b))
    (h2 : r2.Pairwise (fun a b => a < b)) :
    Matrix.set_intersection r1 r2 = r1.filter (fun a => decide (a ∈ r2)) :=
  set_intersection_loop_sorted _ r1 r2 (le_refl _) h1 h2

theorem find_pos_ne_length_iff (el : Nat) (r : List Nat) :
    find_pos el r ≠ r.length ↔ el ∈ r := by
  rw [find_pos, find_if_pos_ne_length_iff]
  constructor
  · rintro ⟨x, hx, h⟩
    have : x = el := by simpa using h
    rw [← this]; exact hx
  · intro h; exact ⟨el, h, by simp⟩

/-- The counter `n_idx` of the product is zero exactly when the intersection is empty. -/
theorem count_common_eq (r1 r2 : List Nat) :
    r1.countP (fun el => decide (find_pos el r2 ≠ r2.length))
      = (r1.filter (fun a => decide (a ∈ r2))).length := by
  rw [List.countP_eq_length_filter]
  congr 1
  apply List.filter_congr
  intro x _
  by_cases h : x ∈ r2
  · simp [h, (find_pos_ne_length_iff x r2).2 h]
  · have : ¬ find_pos x r2 ≠ r2.length := fun h1 => h ((find_pos_ne_length_iff x r2).1 h1)
    simp only [h, this, decide_False]

theorem block_lookup_mem (S : StorageOrder) (B : MatrixUncompressed)
    (hs : B.Pairwise (fun a b => minor S a.1 < minor S b.1)) (p : key_type × Int)
    (hp : p ∈ B) : block_lookup S B (minor S p.1) = p.2 := by
  induction B with
  | nil => cases hp
  | cons q B ih =>
    obtain ⟨hq, hB⟩ := List.pairwise_cons.1 hs
    rw [block_lookup_cons]
    rcases List.mem_cons.1 hp with h | h
    · subst h; rw [if_pos rfl]
    · have := hq p h
      rw [if_neg (by omega), ih hB h]

/-- The value vector of a line, read at the position `std::find` gives for an index of the
line, holds the value looked up under that index. -/
theorem lookup_at_find_pos (S : StorageOrder) (B : MatrixUncompressed) (el : Nat)
    (h : ∃ p ∈ B, minor S p.1 = el) :
    (B.map (fun p => p.2))[find_pos el (B.map (fun p => minor S p.1))]?
      = some (block_lookup S B el) := by
  induction B with
  | nil => obtain ⟨p, hp, -⟩ := h; cases hp
  | cons q B ih =>
    rw [find_pos_map, block_lookup_cons]
    by_cases hq : minor S q.1 = el
    · rw [find_if_pos_cons_pos _ _ _ (by simpa using hq), if_pos hq]; simp
    · rw [find_if_pos_cons_neg _ _ _ (by simpa using hq), if_neg hq, List.map_cons,
        List.getElem?_cons_succ, ← find_pos_map]
      apply ih
      obtain ⟨p, hp, hpe⟩ := h
      rcases List.mem_cons.1 hp with h1 | h1
      · subst h1; exact absurd hpe hq
      · exact ⟨p, h1, hpe⟩

theorem foldlM_sum {α : Type} (step : Int → α → Option Int) (f : α → Int) (l : List α)
    (h : ∀ acc, ∀ x ∈ l, step acc x = some (acc + f x)) (acc0 : Int) :
    l.foldlM step acc0 = some (acc0 + (l.map f).sum) := by
  induction l generalizing acc0 with
  | nil => simp
  | cons x l ih =>
    rw [List.foldlM_cons, h acc0 x (List.mem_cons_self _ _)]
    simp only [Option.some_bind, Option.bind_eq_bind]
    rw [ih (fun acc y hy => h acc y (List.mem_cons_of_mem _ hy))]
    simp only [List.map_cons, List.sum_cons]
    congr 1; ring

/-- Inner product of a row and a column over a list of common indices. -/
theorem inner_product_blocks (RB CB : MatrixUncompressed) (idx : List Nat)
    (h1 : ∀ el ∈ idx, ∃ p ∈ RB, minor StorageOrder.RowWise p.1 = el)
    (h2 : ∀ el ∈ idx, ∃ p ∈ CB, minor StorageOrder.ColumnWise p.1 = el) :
    Matrix.inner_product idx
        (RB.map (fun p => minor StorageOrder.RowWise p.1), RB.map (fun p => p.2))
        (CB.map (fun p => minor StorageOrder.ColumnWise p.1), CB.map (fun p => p.2))
      = some ((idx.map (fun el => block_lookup StorageOrder.RowWise RB el
          * block_lookup StorageOrder.ColumnWise CB el)).sum) := by
  have h := foldlM_sum
    (fun (acc : Int) (el : Nat) =>
      match (RB.map (fun p => p.2))[find_pos el
          (RB.map (fun p => minor StorageOrder.RowWise p.1))]?,
        (CB.map (fun p => p.2))[find_pos el
          (CB.map (fun p => minor StorageOrder.ColumnWise p.1))]? with
      | some a, some b => some (acc + a * b)
      | _, _ => none)
    (fun el => block_lookup StorageOrder.RowWise RB el
      * block_lookup StorageOrder.ColumnWise CB el) idx
    (fun acc el hel => by
      simp only [lookup_at_find_pos _ RB el (h1 el hel),
        lookup_at_find_pos _ CB el (h2 el hel)]) 0
  simpa [Matrix.inner_product] using h

/-- Sum over the common indices of a row and a column: the sum over every `k < n` of the
product of the two looked-up values. -/
theorem intersection_sum (RB CB : MatrixUncompressed) (n : Nat)
    (hs : RB.Pairwise (fun a b => minor StorageOrder.RowWise a.1
      < minor StorageOrder.RowWise b.1))
    (hb : ∀ p ∈ RB, minor StorageOrder.RowWise p.1 < n) :
    (((RB.map (fun p => minor StorageOrder.RowWise p.1)).filter
        (fun a => decide (a ∈ CB.map (fun p => minor StorageOrder.ColumnWise p.1)))).map
        (fun el => block_lookup StorageOrder.RowWise RB el
          * block_lookup StorageOrder.ColumnWise CB el)).sum
      = ∑ k in Finset.range n, block_lookup StorageOrder.RowWise RB k
          * block_lookup StorageOrder.ColumnWise CB k := by
  rw [← block_sum_eq StorageOrder.RowWise (block_lookup StorageOrder.ColumnWise CB) n RB hs hb]
  have key : ∀ (f : Nat → Int) (B : MatrixUncompressed),
      (∀ p ∈ B, f (minor StorageOrder.RowWise p.1)
        = p.2 * block_lookup StorageOrder.ColumnWise CB (minor StorageOrder.RowWise p.1)) →
      (((B.map (fun p => minor StorageOrder.RowWise p.1)).filter
        (fun a => decide (a ∈ CB.map (fun p => minor StorageOrder.ColumnWise p.1)))).map f).sum
      = (B.map (fun p => p.2 * block_lookup StorageOrder.ColumnWise CB
          (minor StorageOrder.RowWise p.1))).sum := by
    intro f B
    induction B with
    | nil => intro _; rfl
    | cons q B ih =>
      intro hf
      have ihB := ih (fun p hp => hf p (List.mem_cons_of_mem _ hp))
      rw [List.map_cons, List.map_cons, List.sum_cons, ← ihB]
      by_cases hq : minor StorageOrder.RowWise q.1
          ∈ CB.map (fun p => minor StorageOrder.ColumnWise p.1)
      · rw [List.filter_cons_of_pos (by simpa using hq), List.map_cons, List.sum_cons,
          hf q (List.mem_cons_self _ _)]
      · rw [List.filter_cons_of_neg (by simpa using hq)]
        have h0 : block_lookup StorageOrder.ColumnWise CB (minor StorageOrder.RowWise q.1) = 0 :=
          block_lookup_absent _ CB _ (fun p hp he => hq (List.mem_map.2 ⟨p, hp, he⟩))
        rw [h0]; simp
  apply key
  intro p hp
  rw [block_lookup_mem _ RB hs p hp]


/-! ## The general matrix-matrix product on uncompressed operands -/

theorem foldlM_range_invariant {β : Type} (step : β → Nat → Option β) (P : Nat → β → Prop)
    (n : Nat) (hstep : ∀ k b, k < n → P k b → ∃ b1, step b k = some b1 ∧ P (k + 1) b1) :
    ∀ k, k ≤ n → ∀ b0, P 0 b0 → ∃ b, (List.range k).foldlM step b0 = some b ∧ P k b := by
  intro k
  induction k with
  | zero => intro _ b0 h0; exact ⟨b0, rfl, h0⟩
  | succ k ih =>
    intro hk b0 h0
    obtain ⟨b, hb, hP⟩ := ih (by omega) b0 h0
    obtain ⟨b1, hb1, hP1⟩ := hstep k b (by omega) hP
    refine ⟨b1, ?_, hP1⟩
    rw [List.range_succ, List.foldlM_append, hb]
    simp [hb1]

namespace Matrix

variable {O : StorageOrder}

theorem cells_filled_construct (O : StorageOrder) (m p : Nat) (t : Nat → Nat → Int) :
    (construct O m p false).cells_filled m p 0 0 t := by
  refine ⟨construct_ok O m p, rfl, rfl, fun q hq => ?_, fun a b _ h => ?_⟩
  · cases hq
  · omega

theorem cells_filled_next_column (R : Matrix O) (m p j : Nat) (t : Nat → Nat → Int)
    (h : R.cells_filled m p j m t) : R.cells_filled m p (j + 1) 0 t := by
  obtain ⟨hok, hm, hp, hk, hr⟩ := h
  refine ⟨hok, hm, hp, fun q hq => ?_, fun a b ha hb => hr a b ha ?_⟩
  · rcases hk q hq with h1 | h1 <;> omega
  · omega

theorem cells_filled_absent (R : Matrix O) (m p j i : Nat) (t : Nat → Nat → Int)
    (h : R.cells_filled m p j i t) : map_contains O (i, j) R.m_mat_uncomp = false := by
  rw [map_contains_false_iff]
  intro q hq he
  have := h.2.2.2.1 q hq
  rw [he] at this
  simp only at this
  omega

/-- A cell whose value is zero is left unwritten. -/
theorem cell_skip (R : Matrix O) (m p j i : Nat) (t : Nat → Nat → Int)
    (h : R.cells_filled m p j i t) (h0 : t i j = 0) : R.cells_filled m p j (i + 1) t := by
  have habs := cells_filled_absent R m p j i t h
  obtain ⟨hok, hm, hp, hk, hr⟩ := h
  refine ⟨hok, hm, hp, fun q hq => ?_, fun a b ha hb => ?_⟩
  · rcases hk q hq with h1 | h1 <;> omega
  · by_cases hab : b = j ∧ a = i
    · obtain ⟨rfl, rfl⟩ := hab
      rw [(map_find_eq_none_iff O _ _).2 habs, h0]; rfl
    · exact hr a b ha (by omega)

/-- Writing the value of the current cell moves the filling one cell on. -/
theorem cell_write (R : Matrix O) (m p j i : Nat) (t : Nat → Nat → Int)
    (h : R.cells_filled m p j i t) (hi : i < m) (hj : j < p) :
    ∃ r, R.Write i j (t i j) = some r ∧ r.2.cells_filled m p j (i + 1) t := by
  have habs := cells_filled_absent R m p j i t h
  obtain ⟨hok, hm, hp, hk, hr⟩ := h
  obtain ⟨r, hw, hok1, hm1, hn1, hkeys, hself, hother⟩ :=
    Write_absent_find R hok i j (t i j) (by omega) (by omega) habs
  refine ⟨r, hw, hok1, by omega, by omega, fun q hq => ?_, fun a b ha hb => ?_⟩
  · rcases hkeys q hq with h1 | h1
    · rcases hk q h1 with h2 | h2 <;> omega
    · rw [h1]; simp
  · by_cases hab : b = j ∧ a = i
    · obtain ⟨rfl, rfl⟩ := hab
      exact hself
    · rw [hother (a, b) (by intro he; apply hab; simp only [Prod.mk.injEq] at he; omega)]
      exact hr a b ha (by omega)

/-- Body of the inner loop of the general product, for the cell `(i, j)`. -/
theorem product_cell {O1 : StorageOrder} (U : Matrix O) (V : Matrix O1)
    (hU : U.uncompressed_ok) (hV : V.uncompressed_ok)
    (i j : Nat) (hi : i < U.m_m) (hj : j < V.m_n) (res : Matrix O)
    (hres : res.cells_filled U.m_m V.m_n j i
      (product_entry O O1 U.m_mat_uncomp V.m_mat_uncomp U.m_n)) :
    ∃ res1,
      (match U.get_row i with
        | none => none
        | some row_i =>
          let col_j : List Nat × List Int :=
            ((line_block StorageOrder.ColumnWise V.m_mat_uncomp j).map (fun p => p.1.1),
             (line_block StorageOrder.ColumnWise V.m_mat_uncomp j).map (fun p => p.2))
          let n_idx := row_i.1.countP
            (fun el => decide (find_pos el col_j.1 ≠ col_j.1.length))
          if n_idx ≠ 0 then
            let idx := set_intersection row_i.1 col_j.1
            match inner_product idx row_i col_j with
            | none => none
            | some r => (res.Write i j r).map (fun w => w.2)
          else some res) = some res1 ∧
      res1.cells_filled U.m_m V.m_n j (i + 1)
        (product_entry O O1 U.m_mat_uncomp V.m_mat_uncomp U.m_n) := by
  have hRs := line_block_cross_sorted O StorageOrder.RowWise U.m_mat_uncomp hU.2.1 i
  have hCs := line_block_cross_sorted O1 StorageOrder.ColumnWise V.m_mat_uncomp hV.2.1 j
  have hRb : ∀ p ∈ line_block StorageOrder.RowWise U.m_mat_uncomp i,
      minor StorageOrder.RowWise p.1 < U.m_n := fun p hp =>
    (hU.2.2.1 p ((mem_line_block _ _ _ p).1 hp).1).2
  have hsum := intersection_sum (line_block StorageOrder.RowWise U.m_mat_uncomp i)
    (line_block StorageOrder.ColumnWise V.m_mat_uncomp j) U.m_n hRs hRb
  have ht : (∑ k in Finset.range U.m_n,
      block_lookup StorageOrder.RowWise (line_block StorageOrder.RowWise U.m_mat_uncomp i) k
        * block_lookup StorageOrder.ColumnWise
            (line_block StorageOrder.ColumnWise V.m_mat_uncomp j) k)
      = product_entry O O1 U.m_mat_uncomp V.m_mat_uncomp U.m_n i j := by
    unfold product_entry
    apply Finset.sum_congr rfl
    intro k _
    rw [block_lookup_row O, block_lookup_col O1]
  rw [ht] at hsum
  have hr1 : ((line_block StorageOrder.RowWise U.m_mat_uncomp i).map
      (fun p => minor StorageOrder.RowWise p.1)).Pairwise (fun a b => a < b) :=
    List.pairwise_map.2 hRs
  have hc1 : ((line_block StorageOrder.ColumnWise V.m_mat_uncomp j).map
      (fun p => minor StorageOrder.ColumnWise p.1)).Pairwise (fun a b => a < b) :=
    List.pairwise_map.2 hCs
  have hint := set_intersection_sorted _ _ hr1 hc1
  have hcnt := count_common_eq
    ((line_block StorageOrder.RowWise U.m_mat_uncomp i).map
      (fun p => minor StorageOrder.RowWise p.1))
    ((line_block StorageOrder.ColumnWise V.m_mat_uncomp j).map
      (fun p => minor StorageOrder.ColumnWise p.1))
  have hip := inner_product_blocks (line_block StorageOrder.RowWise U.m_mat_uncomp i)
    (line_block StorageOrder.ColumnWise V.m_mat_uncomp j)
    (((line_block StorageOrder.RowWise U.m_mat_uncomp i).map
        (fun p => minor StorageOrder.RowWise p.1)).filter
      (fun a => decide (a ∈ (line_block StorageOrder.ColumnWise V.m_mat_uncomp j).map
        (fun p => minor StorageOrder.ColumnWise p.1))))
    (fun el hel => by
      have := (List.mem_filter.1 hel).1
      obtain ⟨p, hp, he⟩ := List.mem_map.1 this
      exact ⟨p, hp, he⟩)
    (fun el hel => by
      have := (List.mem_filter.1 hel).2
      obtain ⟨p, hp, he⟩ := List.mem_map.1 (of_decide_eq_true this)
      exact ⟨p, hp, he⟩)
  rw [hsum] at hip
  rw [get_row_uncompressed U hU i]
  change ∃ res1,
      (if ((line_block StorageOrder.RowWise U.m_mat_uncomp i).map
            (fun p => minor StorageOrder.RowWise p.1)).countP
          (fun el => decide (find_pos el ((line_block StorageOrder.ColumnWise V.m_mat_uncomp j).map
            (fun p => minor StorageOrder.ColumnWise p.1))
            ≠ ((line_block StorageOrder.ColumnWise V.m_mat_uncomp j).map
            (fun p => minor StorageOrder.ColumnWise p.1)).length)) ≠ 0 then
          match inner_product
            (set_intersection ((line_block StorageOrder.RowWise U.m_mat_uncomp i).map
                (fun p => minor StorageOrder.RowWise p.1))
              ((line_block StorageOrder.ColumnWise V.m_mat_uncomp j).map
                (fun p => minor StorageOrder.ColumnWise p.1)))
            ((line_block StorageOrder.RowWise U.m_mat_uncomp i).map
                (fun p => minor StorageOrder.RowWise p.1),
             (line_block StorageOrder.RowWise U.m_mat_uncomp i).map (fun p => p.2))
            ((line_block StorageOrder.ColumnWise V.m_mat_uncomp j).map
                (fun p => minor StorageOrder.ColumnWise p.1),
             (line_block StorageOrder.ColumnWise V.m_mat_uncomp j).map (fun p => p.2)) with
          | none => none
          | some r => (res.Write i j r).map (fun w => w.2)
        else some res) = some res1 ∧ _
  rw [hcnt, hint]
  by_cases hz : (((line_block StorageOrder.RowWise U.m_mat_uncomp i).map
        (fun p => minor StorageOrder.RowWise p.1)).filter
      (fun a => decide (a ∈ (line_block StorageOrder.ColumnWise V.m_mat_uncomp j).map
        (fun p => minor StorageOrder.ColumnWise p.1)))).length = 0
  · rw [if_neg (by simpa using hz)]
    refine ⟨res, rfl, cell_skip res _ _ j i _ hres ?_⟩
    rw [← hsum, List.length_eq_zero.1 hz]; rfl
  · rw [if_pos hz, hip]
    obtain ⟨r, hw, hr⟩ := cell_write res _ _ j i _ hres hi hj
    exact ⟨r.2, by simp [hw], hr⟩

/-- The general branch of the matrix-matrix product on uncompressed operands: every cell
of the result is filled with the entry of the product. -/
theorem operator_mul_matrix_general {O1 : StorageOrder} (U : Matrix O) (V : Matrix O1)
    (hU : U.uncompressed_ok) (hV : V.uncompressed_ok) (hd : U.m_n = V.m_m)
    (hp : V.m_n ≠ 1) :
    ∃ R, U.operator_mul_matrix V = some R ∧
      R.cells_filled U.m_m V.m_n V.m_n 0
        (product_entry O O1 U.m_mat_uncomp V.m_mat_uncomp U.m_n) := by
  unfold operator_mul_matrix
  rw [if_pos hd]
  simp only [hp, decide_False, Bool.false_eq_true, if_false]
  apply foldlM_range_invariant _
    (fun j (res : Matrix O) => res.cells_filled U.m_m V.m_n j 0
      (product_entry O O1 U.m_mat_uncomp V.m_mat_uncomp U.m_n)) V.m_n _ V.m_n (le_refl _) _
    (cells_filled_construct O U.m_m V.m_n _)
  intro j res hj hres
  rw [get_col_uncompressed V hV j]
  obtain ⟨res1, h1, h2⟩ := foldlM_range_invariant _
    (fun i (r : Matrix O) => r.cells_filled U.m_m V.m_n j i
      (product_entry O O1 U.m_mat_uncomp V.m_mat_uncomp U.m_n)) U.m_m
    (fun i r hi hr => product_cell U V hU hV i j hi hj r hr) U.m_m (le_refl _) res hres
  exact ⟨res1, h1, cells_filled_next_column res1 _ _ j _ h2⟩

theorem cells_filled_read (R : Matrix O) (m p : Nat) (t : Nat → Nat → Int)
    (h : R.cells_filled m p p 0 t) (i j : Nat) (hi : i < m) (hj : j < p) :
    R.Read i j = some (t i j) := by
  obtain ⟨hok, hm, hp, -, hr⟩ := h
  rw [Read_uncompressed R hok.1 hok.2.1 i j (by omega) (by omega), hr i j hi (Or.inl hj)]

/-- The matrix-matrix product of uncompressed operands of matching extents, both branches:
an uncompressed matrix of the extents of the product whose cells read as the entries of the
product. -/
theorem operator_mul_matrix_spec {O1 : StorageOrder} (U : Matrix O) (V : Matrix O1)
    (hU : U.uncompressed_ok) (hV : V.uncompressed_ok) (hd : U.m_n = V.m_m) :
    ∃ R, U.operator_mul_matrix V = some R ∧ R.uncompressed_ok ∧ R.m_m = U.m_m ∧
      R.m_n = V.m_n ∧
      ∀ i j, i < U.m_m → j < V.m_n →
        R.Read i j = some (product_entry O O1 U.m_mat_uncomp V.m_mat_uncomp U.m_n i j) := by
  by_cases hp : V.m_n = 1
  · obtain ⟨R, hR, hcol⟩ := operator_mul_matrix_column U hU U (Or.inl rfl) V
      (get_col_zero_uncompressed V hV.1) hd.symm hp
      (fun k => (map_find O1 (k, 0) V.m_mat_uncomp).getD 0)
      (fun k hk => Read_uncompressed V hV.1 hV.2.1 k 0 (by omega) (by omega))
    refine ⟨R, hR, hcol.1, hcol.2.1, by rw [hcol.2.2.1, hp], fun i j hi hj => ?_⟩
    have hj0 : j = 0 := by omega
    subst hj0
    rw [column_filled_read R U.m_m _ hcol i hi]; rfl
  · obtain ⟨R, hR, hfill⟩ := operator_mul_matrix_general U V hU hV hd hp
    exact ⟨R, hR, hfill.1, hfill.2.1, hfill.2.2.1,
      fun i j hi hj => cells_filled_read R _ _ _ hfill i j hi hj⟩

end Matrix


/-! ## Claims on the matrix-matrix product -/

namespace Matrix

/-- C21. For uncompressed matrices M (m x n) and N (n x p) of any storage orders, built by
in-bounds write accesses on empty matrices (integer elements), the product `M * N` returns
an uncompressed m x p matrix, and for every i < m and j < p the read access at (i, j) of the
product is the sum over k < n of Read(M,i,k) * Read(N,k,j). -/
theorem C21_matrix_product (O O1 : StorageOrder) (m n p : Nat)
    (ws1 ws2 : List (Nat × Nat × Int))
    (hb1 : ∀ w ∈ ws1, w.1 < m ∧ w.2.1 < n) (hb2 : ∀ w ∈ ws2, w.1 < n ∧ w.2.1 < p) :
    ∃ (M : Matrix O) (N : Matrix O1) (R : Matrix O),
      (construct O m n false).Writes ws1 = some M ∧ M.m_compressed = false ∧
      (construct O1 n p false).Writes ws2 = some N ∧ N.m_compressed = false ∧
      M.operator_mul_matrix N = some R ∧
      R.m_compressed = false ∧ R.m_m = m ∧ R.m_n = p ∧
      ∀ i j, i < m → j < p →
        ∃ a b : Nat → Int,
          (∀ k, k < n → M.Read i k = some (a k) ∧ N.Read k j = some (b k)) ∧
          R.Read i j = some (∑ k in Finset.range n, a k * b k) := by
  obtain ⟨M, hM, hMok, hMm, hMn, -⟩ := Writes_built O m n ws1 hb1
  obtain ⟨N, hN, hNok, hNm, hNn, -⟩ := Writes_built O1 n p ws2 hb2
  obtain ⟨R, hR, hRok, hRm, hRn, hread⟩ :=
    operator_mul_matrix_spec M N hMok hNok (by rw [hMn, hNm])
  refine ⟨M, N, R, hM, hMok.1, hN, hNok.1, hR, hRok.1, by rw [hRm, hMm], by rw [hRn, hNn], ?_⟩
  intro i j hi hj
  refine ⟨fun k => (map_find O (i, k) M.m_mat_uncomp).getD 0,
    fun k => (map_find O1 (k, j) N.m_mat_uncomp).getD 0, fun k hk => ⟨?_, ?_⟩, ?_⟩
  · exact Read_uncompressed M hMok.1 hMok.2.1 i k (by omega) (by omega)
  · exact Read_uncompressed N hNok.1 hNok.2.1 k j (by omega) (by omega)
  · rw [hread i j (by omega) (by omega), product_entry, hMn]

/-- Witness of C21: the column-wise [[1,2],[0,3]] times the row-wise [[4,0,1],[5,6,0]]. -/
theorem C21_witness :
    ∃ (M : Matrix StorageOrder.ColumnWise) (N : Matrix StorageOrder.RowWise)
      (R : Matrix StorageOrder.ColumnWise),
      (construct StorageOrder.ColumnWise 2 2 false).Writes [(0, 0, 1), (0, 1, 2), (1, 1, 3)]
        = some M ∧
      (construct StorageOrder.RowWise 2 3 false).Writes
        [(0, 0, 4), (0, 2, 1), (1, 0, 5), (1, 1, 6)] = some N ∧
      M.operator_mul_matrix N = some R ∧ R.m_compressed = false ∧ R.m_m = 2 ∧ R.m_n = 3 := by
  obtain ⟨M, N, R, h1, _, h2, _, h3, h4, h5, h6, _⟩ :=
    C21_matrix_product StorageOrder.ColumnWise StorageOrder.RowWise 2 2 3
      [(0, 0, 1), (0, 1, 2), (1, 1, 3)] [(0, 0, 4), (0, 2, 1), (1, 0, 5), (1, 1, 6)]
      (by decide) (by decide)
  exact ⟨M, N, R, h1, h2, h3, h4, h5, h6⟩

/-- C22 (failing input). The column-wise 1 x 8 matrix M with 10, 20, 30 in columns 3, 4, 5
and the 8 x 2 matrix N with a single 1 at (5, 0): the product computed with both operands
uncompressed reads 30 at (0, 0), the product computed after `M.compress()` reads 0 there
(the row extracted from the compressed M carries the indices 3, 4, 6).  The same happens on
the right: with the row-wise 1 x 8 matrix A holding 1 at (0, 5) and the row-wise 8 x 2 matrix
B holding 10, 20, 30 in rows 3, 4, 5 of column 0, `A * B` reads 30 at (0, 0) and the product
computed after `B.compress()` reads 0. -/
theorem C22_compression_changes_product :
    (∃ (M N P Q : Matrix StorageOrder.ColumnWise),
      (construct StorageOrder.ColumnWise 1 8 false).Writes
        [(0, 3, 10), (0, 4, 20), (0, 5, 30)] = some M ∧
      (construct StorageOrder.ColumnWise 8 2 false).Writes [(5, 0, 1)] = some N ∧
      M.operator_mul_matrix N = some P ∧ M.compress.operator_mul_matrix N = some Q ∧
      P.Read 0 0 = some 30 ∧ Q.Read 0 0 = some 0 ∧
      M.get_row 0 = some ([3, 4, 5], [10, 20, 30]) ∧
      M.compress.get_row 0 = some ([3, 4, 6], [10, 20, 30])) ∧
    (∃ (A B P Q : Matrix StorageOrder.RowWise),
      (construct StorageOrder.RowWise 1 8 false).Writes [(0, 5, 1)] = some A ∧
      (construct StorageOrder.RowWise 8 2 false).Writes
        [(3, 0, 10), (4, 0, 20), (5, 0, 30)] = some B ∧
      A.operator_mul_matrix B = some P ∧ A.operator_mul_matrix B.compress = some Q ∧
      P.Read 0 0 = some 30 ∧ Q.Read 0 0 = some 0) := by
  constructor
  · exact ⟨⟨1, 8, 3, false, [((0, 3), 10), ((0, 4), 20), ((0, 5), 30)], [], [], []⟩,
      ⟨8, 2, 1, false, [((5, 0), 1)], [], [], []⟩,
      ⟨1, 2, 1, false, [((0, 0), 30)], [], [], []⟩,
      ⟨1, 2, 0, false, [], [], [], []⟩,
      by decide, by decide, by decide, by decide, by decide, by decide, by decide, by decide⟩
  · exact ⟨⟨1, 8, 1, false, [((0, 5), 1)], [], [], []⟩,
      ⟨8, 2, 3, false, [((3, 0), 10), ((4, 0), 20), ((5, 0), 30)], [], [], []⟩,
      ⟨1, 2, 1, false, [((0, 0), 30)], [], [], []⟩,
      ⟨1, 2, 0, false, [], [], [], []⟩,
      by decide, by decide, by decide, by decide, by decide, by decide⟩

theorem operator_mul_vector_mismatch {O : StorageOrder} (M : Matrix O) (v : List Int)
    (h : v.length ≠ M.m_n) : M.operator_mul_vector v = none := by
  unfold operator_mul_vector
  rw [if_neg h]

theorem operator_mul_matrix_mismatch {O O1 : StorageOrder} (M : Matrix O) (N : Matrix O1)
    (h : M.m_n ≠ N.m_m) : M.operator_mul_matrix N = none := by
  unfold operator_mul_matrix
  rw [if_neg h]


variable {O : StorageOrder}

/-! ## Bounds assertions of the access layer -/

theorem check_presence_row_out (M : Matrix O) (idx : Nat) (h : ¬ idx < M.m_m) :
    M.check_presence_row idx = none := by
  unfold check_presence_row; rw [if_neg h]

theorem check_presence_col_out (M : Matrix O) (idx : Nat) (h : ¬ idx < M.m_n) :
    M.check_presence_col idx = none := by
  unfold check_presence_col; rw [if_neg h]

theorem check_presence_out (M : Matrix O) (i j : Nat) (h : ¬ (i < M.m_m ∧ j < M.m_n)) :
    M.check_presence i j = none := by
  unfold check_presence; rw [if_neg h]

theorem Read_out (M : Matrix O) (i j : Nat) (h : ¬ (i < M.m_m ∧ j < M.m_n)) :
    M.Read i j = none := by
  unfold Read; rw [check_presence_out M i j h]

theorem Write_out (M : Matrix O) (i j : Nat) (v : Int) (h : ¬ (i < M.m_m ∧ j < M.m_n)) :
    M.Write i j v = none := by
  unfold Write; rw [if_neg h]

/-- A state reached by admissible calls is an uncompressed well-formed matrix or its
compressed form. -/
theorem content_ok_view (m n : Nat) (M : Matrix O) (h : M.content_ok m n) :
    ∃ U : Matrix O, U.uncompressed_ok ∧ U.m_m = m ∧ U.m_n = n ∧
      stored_nonzero U.m_mat_uncomp ∧ (M = U ∨ M = U.compress) := by
  obtain ⟨L, nnz, hs, hb, hnz, hM⟩ := h
  have hok : (⟨m, n, nnz, false, L, [], [], []⟩ : Matrix O).uncompressed_ok :=
    uncompressed_form_ok m n nnz L hs hb
  refine ⟨⟨m, n, nnz, false, L, [], [], []⟩, hok, rfl, rfl, hnz, ?_⟩
  rcases hM with hM | hM
  · exact Or.inl hM
  · exact Or.inr (by rw [hM, compress_eq _ hok])

/-- C24. On every matrix reached from the empty m x n matrix by in-bounds write accesses,
`compress()` and `uncompress()` (either storage order, compressed or not): the read access,
the write access and `check_presence` fail when the row index is not below the number of
rows or the column index is not below the number of columns, `check_presence_row` fails
when its index is not below the number of rows, `check_presence_col` when its index is not
below the number of columns; and each of the five returns when its indices are in bounds. -/
theorem C24_bounds_assertions (O : StorageOrder) (m n : Nat) (cs : List Call)
    (hc : ∀ c ∈ cs, c.admissible m n) :
    ∃ M : Matrix O, (construct O m n false).calls cs = some M ∧ M.m_m = m ∧ M.m_n = n ∧
      ∀ (i j : Nat) (v : Int),
        (¬ (i < m ∧ j < n) →
          M.Read i j = none ∧ M.Write i j v = none ∧ M.check_presence i j = none) ∧
        (¬ i < m → M.check_presence_row i = none) ∧
        (¬ j < n → M.check_presence_col j = none) ∧
        (i < m ∧ j < n →
          M.Read i j ≠ none ∧ M.Write i j v ≠ none ∧ M.check_presence i j ≠ none) ∧
        (i < m → M.check_presence_row i ≠ none) ∧
        (j < n → M.check_presence_col j ≠ none) := by
  have h0 : (construct O m n false).content_ok m n :=
    ⟨[], 0, map_sorted_nil O, fun p hp => by simp at hp, fun p hp => by simp at hp,
      Or.inl rfl⟩
  obtain ⟨M, h1, hM⟩ := calls_content_ok m n cs (construct O m n false) h0 hc
  obtain ⟨U, hok, hUm, hUn, -, hMU⟩ := content_ok_view m n M hM
  obtain ⟨hdm, hdn⟩ := compress_dims U hok M hMU
  have hm : M.m_m = m := by rw [hdm, hUm]
  have hn : M.m_n = n := by rw [hdn, hUn]
  obtain ⟨hrow, hcol, hcell⟩ := config_view U hok M hMU
  refine ⟨M, h1, hm, hn, fun i j v => ⟨fun h => ?_, fun h => ?_, fun h => ?_, fun h => ?_,
    fun h => ?_, fun h => ?_⟩⟩
  · have h' : ¬ (i < M.m_m ∧ j < M.m_n) := by rw [hm, hn]; exact h
    exact ⟨Read_out M i j h', Write_out M i j v h', check_presence_out M i j h'⟩
  · exact check_presence_row_out M i (by rw [hm]; exact h)
  · exact check_presence_col_out M j (by rw [hn]; exact h)
  · obtain ⟨hp, hr⟩ := hcell i j (by rw [hUm]; exact h.1) (by rw [hUn]; exact h.2)
    obtain ⟨M1, hw, -⟩ := call_content_ok m n M (Call.Write i j v) hM h
    refine ⟨by rw [hr]; simp, ?_, by rw [hp]; simp⟩
    intro hnone
    simp only [call, hnone, Option.map_none'] at hw
    cases hw
  · rw [hrow i (by rw [hUm]; exact h)]; simp
  · rw [hcol j (by rw [hUn]; exact h)]; simp

/-- Witness of C24: the column-wise 2 x 3 matrix after two writes and `compress()`. -/
theorem C24_witness :
    ∃ M : Matrix StorageOrder.ColumnWise,
      (construct StorageOrder.ColumnWise 2 3 false).calls
        [Call.Write 0 1 2, Call.Write 1 2 4, Call.compress] = some M ∧
      M.Read 2 0 = none ∧ M.Write 0 3 7 = none ∧ M.check_presence_row 2 = none ∧
      M.Read 1 2 ≠ none ∧ M.Write 1 2 9 ≠ none := by
  obtain ⟨M, h1, -, -, h⟩ := C24_bounds_assertions StorageOrder.ColumnWise 2 3
    [Call.Write 0 1 2, Call.Write 1 2 4, Call.compress]
    (by
      intro c hc
      simp only [List.mem_cons, List.mem_singleton, List.not_mem_nil, or_false] at hc
      rcases hc with rfl | rfl | rfl
      · exact ⟨by decide, by decide⟩
      · exact ⟨by decide, by decide⟩
      · exact trivial)
  exact ⟨M, h1, ((h 2 0 0).1 (by decide)).1, ((h 0 3 7).1 (by decide)).2.1,
    (h 2 0 0).2.1 (by decide), ((h 1 2 9).2.2.2.1 (by decide)).1,
    ((h 1 2 9).2.2.2.1 (by decide)).2.1⟩

end Matrix


/-! ## Sums of a function of the values of a line, maximum of a vector -/

/-- Sum of `g value` over the entries of a line with ascending indices below `n`, for `g`
vanishing at zero: the sum over all `k < n` of `g` of the looked-up value. -/
theorem block_sum_fun (S : StorageOrder) (g : Int → Int) (hg : g 0 = 0) (n : Nat)
    (B : MatrixUncompressed)
    (hs : B.Pairwise (fun a b => minor S a.1 < minor S b.1))
    (hb : ∀ p ∈ B, minor S p.1 < n) :
    (B.map (fun p => g p.2)).sum = ∑ k in Finset.range n, g (block_lookup S B k) := by
  induction B with
  | nil => simp [block_lookup_nil, hg]
  | cons q B ih =>
    obtain ⟨hq, hB⟩ := List.pairwise_cons.1 hs
    have hqn := hb q (List.mem_cons_self _ _)
    have h0 : block_lookup S B (minor S q.1) = 0 :=
      block_lookup_absent S B _ (fun p hp => by have := hq p hp; omega)
    have hpt : ∀ k ∈ Finset.range n, g (block_lookup S (q :: B) k)
        = (if k = minor S q.1 then g q.2 else 0) + g (block_lookup S B k) := by
      intro k _
      rw [block_lookup_cons]
      by_cases hk : minor S q.1 = k
      · subst hk; simp [h0, hg]
      · have : ¬ k = minor S q.1 := fun h => hk h.symm
        simp [hk, this]
    rw [Finset.sum_congr rfl hpt, Finset.sum_add_distrib, Finset.sum_ite_eq',
      ← ih hB (fun p hp => hb p (List.mem_cons_of_mem _ hp))]
    simp [hqn]

/-- A sum over the entries of a map, line by line. -/
theorem sum_by_lines (S : StorageOrder) (g : key_type × Int → Int) (d : Nat)
    (L : MatrixUncompressed) (hb : ∀ p ∈ L, major S p.1 < d) :
    (L.map g).sum = ∑ i in Finset.range d, ((line_block S L i).map g).sum := by
  induction L with
  | nil => simp [line_block]
  | cons q L ih =>
    have hq := hb q (List.mem_cons_self _ _)
    have hpt : ∀ i ∈ Finset.range d, ((line_block S (q :: L) i).map g).sum
        = (if i = major S q.1 then g q else 0) + ((line_block S L i).map g).sum := by
      intro i _
      by_cases hi : major S q.1 = i
      · have : line_block S (q :: L) i = q :: line_block S L i := by
          simp [line_block, List.filter_cons, hi]
        rw [this, if_pos hi.symm]; simp
      · have : line_block S (q :: L) i = line_block S L i := by
          simp [line_block, List.filter_cons, hi]
        have hne : ¬ i = major S q.1 := fun h => hi h.symm
        rw [this, if_neg hne]; simp
    rw [Finset.sum_congr rfl hpt, Finset.sum_add_distrib, Finset.sum_ite_eq',
      ← ih (fun p hp => hb p (List.mem_cons_of_mem _ hp))]
    simp [hq]

/-- Sum of the squared absolute values of all the entries of a map: the sum over all the
cells of the extents. -/
theorem sum_squares_cells (O : StorageOrder) (L : MatrixUncompressed) (hs : map_sorted O L)
    (m n : Nat) (hb : ∀ p ∈ L, p.1.1 < m ∧ p.1.2 < n) :
    (L.map (fun el => (Int.natAbs el.2 : Int) ^ 2)).sum
      = ∑ i in Finset.range m, ∑ j in Finset.range n,
          (((map_find O (i, j) L).getD 0).natAbs : Int) ^ 2 := by
  rw [sum_by_lines StorageOrder.RowWise (fun el => (Int.natAbs el.2 : Int) ^ 2) m L
    (fun p hp => (hb p hp).1)]
  apply Finset.sum_congr rfl
  intro i _
  have h := block_sum_fun StorageOrder.RowWise (fun x => (x.natAbs : Int) ^ 2) rfl n
    (line_block StorageOrder.RowWise L i)
    (line_block_cross_sorted O StorageOrder.RowWise L hs i)
    (fun p hp => (hb p ((mem_line_block _ _ _ p).1 hp).1).2)
  exact h.trans (Finset.sum_congr rfl (fun k _ => by rw [block_lookup_row O]))


/-! ## Claims on the norms -/

namespace Matrix

/-- C28 (failing input). After `M(0,0,5); M(0,1,0);` on the empty 2 x 2 matrix, in either
storage order, `nnz()` is 0 while the One-norm and the Infinity-norm are 5 and the value
under the square root of the Frobenius-norm is 25: the three norms are not zero. -/
theorem C28_norms_nonzero_with_nnz_zero :
    ∀ O : StorageOrder, ∃ M : Matrix O,
      (construct O 2 2 false).Writes [(0, 0, 5), (0, 1, 0)] = some M ∧
      M.nnz = 0 ∧ M.norm_One = some 5 ∧ M.norm_Infinity = some 5 ∧
      M.norm_Frobenius_res = 25 := by
  intro O
  cases O
  · exact ⟨⟨2, 2, 0, false, [((0, 0), 5)], [], [], []⟩, by decide, by decide, by decide,
      by decide, by decide⟩
  · exact ⟨⟨2, 2, 0, false, [((0, 0), 5)], [], [], []⟩, by decide, by decide, by decide,
      by decide, by decide⟩

end Matrix


/-! ## Claims on the reader -/

namespace Matrix

/-- C29 (failing inputs). Read into an empty matrix, the text `2 2 1`, `1 1 0` (declared
nnz 1, one element line carrying zero) is accepted and leaves a 2 x 2 matrix storing no
element, and the text `2 2 2`, `1 1 5`, `1 1 7` (declared nnz 2, two element lines naming
the cell (1,1)) is accepted and leaves a matrix storing one element: the counter compared
with the declared nnz counts the element lines read, not the elements stored. -/
theorem C29_count_is_lines_read :
    ∀ O : StorageOrder,
      reader_mmf (construct O 0 0 false) (some text_zero_value)
        = Outcome.ok ⟨2, 2, 0, false, [], [], [], []⟩ ∧
      reader_mmf (construct O 0 0 false) (some text_same_cell)
        = Outcome.ok ⟨2, 2, 1, false, [((0, 0), 7)], [], [], []⟩ := by
  intro O
  cases O
  · exact ⟨by decide, by decide⟩
  · exact ⟨by decide, by decide⟩

/-- C30 as stated fails: read into an empty matrix of either storage order, the text of the
three lines `1 1 1`, `2 2 0`, `1 1 5.0` is rejected with the exception for wrong indices (the
first line is the size line of a 1 x 1 matrix, and the second line names the cell (2,2)). -/
theorem C30_scenario_text_rejected :
    reader_mmf (construct StorageOrder.RowWise 0 0 false) (some text_scenario)
      = Outcome.thrown ReaderError.wrong_indices ∧
    reader_mmf (construct StorageOrder.ColumnWise 0 0 false) (some text_scenario)
      = Outcome.thrown ReaderError.wrong_indices :=
  ⟨by decide, by decide⟩

/-- C30, amended: read into an empty matrix of either storage order, the text of the two
lines `2 2 1`, `1 1 5.0` (the size line first) is accepted and leaves a 2 x 2 uncompressed
matrix whose map holds the single entry 5 at (0,0), with `nnz()` equal to 1, the declared
number; the read access gives 5 at (0,0) and zero at the three other cells. -/
theorem C30_size_line_first_accepted :
    ∀ O : StorageOrder, ∃ M : Matrix O,
      reader_mmf (construct O 0 0 false) (some text_size_line_first) = Outcome.ok M ∧
      M.m_m = 2 ∧ M.m_n = 2 ∧ M.m_compressed = false ∧
      M.m_mat_uncomp = [((0, 0), 5)] ∧ M.nnz = 1 ∧
      M.Read 0 0 = some 5 ∧ M.Read 0 1 = some 0 ∧ M.Read 1 0 = some 0 ∧
      M.Read 1 1 = some 0 := by
  intro O
  cases O
  · exact ⟨⟨2, 2, 1, false, [((0, 0), 5)], [], [], []⟩, by decide, by decide, by decide,
      by decide, by decide, by decide, by decide, by decide, by decide, by decide⟩
  · exact ⟨⟨2, 2, 1, false, [((0, 0), 5)], [], [], []⟩, by decide, by decide, by decide,
      by decide, by decide, by decide, by decide, by decide, by decide, by decide⟩

end Matrix


/-! ## The column-wise comparator -/

namespace Matrix

/-- C36. The comparator `CompOp_ColWise` is a strict total order on keys: irreflexive,
transitive, for two distinct keys exactly one of `cmp(a,b)`, `cmp(b,a)` holds, and `cmp(a,b)`
holds exactly when `(a.col, a.row)` is lexicographically smaller than `(b.col, b.row)`. -/
theorem C36_colwise_comparator_strict_total_order (a b c : key_type) :
    CompOp_ColWise a a = false ∧
    (CompOp_ColWise a b = true → CompOp_ColWise b c = true → CompOp_ColWise a c = true) ∧
    (a ≠ b → (CompOp_ColWise a b = true ∧ CompOp_ColWise b a = false) ∨
      (CompOp_ColWise a b = false ∧ CompOp_ColWise b a = true)) ∧
    (CompOp_ColWise a b = true ↔ a.2 < b.2 ∨ (a.2 = b.2 ∧ a.1 < b.1)) ∧
    (CompOp_ColWise a b = true ↔ toLex (a.2, a.1) < toLex (b.2, b.1)) := by
  obtain ⟨a1, a2⟩ := a
  obtain ⟨b1, b2⟩ := b
  obtain ⟨c1, c2⟩ := c
  have hiff : ∀ x y : key_type,
      CompOp_ColWise x y = true ↔ x.2 < y.2 ∨ (x.2 = y.2 ∧ x.1 < y.1) := by
    intro x y
    simp [CompOp_ColWise]
  have hfalse : ∀ x y : key_type,
      CompOp_ColWise x y = false ↔ ¬ (x.2 < y.2 ∨ (x.2 = y.2 ∧ x.1 < y.1)) := by
    intro x y
    rw [← hiff, Bool.not_eq_true]
  refine ⟨?_, ?_, ?_, hiff _ _, ?_⟩
  · rw [hfalse]; simp
  · rw [hiff, hiff, hiff]; simp only; omega
  · intro hne
    have hne' : ¬ (a1 = b1 ∧ a2 = b2) := fun h => hne (by rw [h.1, h.2])
    rw [hiff, hiff, hfalse, hfalse]; simp only; omega
  · rw [hiff, Prod.Lex.lt_iff]

/-- Witness of C36: the keys (2,0), (0,1), (1,1), ordered by column first. -/
theorem C36_witness :
    CompOp_ColWise (2, 0) (0, 1) = true ∧ CompOp_ColWise (0, 1) (1, 1) = true ∧
    CompOp_ColWise (2, 0) (1, 1) = true ∧ CompOp_ColWise (0, 1) (2, 0) = false :=
  ⟨by decide, by decide,
    (C36_colwise_comparator_strict_total_order (2, 0) (0, 1) (1, 1)).2.1 (by decide)
      (by decide),
    by decide⟩

end Matrix


/-! ## Order of the compressed arrays -/

theorem lines_before_length_mono (O : StorageOrder) (L : MatrixUncompressed)
    (hs : map_sorted O L) : Monotone (fun i => (lines_before O L i).length) := by
  apply monotone_nat_of_le_succ
  intro i
  show (lines_before O L i).length ≤ (lines_before O L (i + 1)).length
  rw [lines_before_succ O L hs i, List.length_append]
  omega

namespace Matrix

theorem compressed_of_inner_length (O : StorageOrder) (m n nnz : Nat)
    (L : MatrixUncompressed) :
    (compressed_of O m n nnz L).m_inner.length
      = (if O = StorageOrder.RowWise then m else n) + 1 := by
  simp [compressed_of]

theorem compressed_of_inner_sorted (O : StorageOrder) (m n nnz : Nat)
    (L : MatrixUncompressed) (hs : map_sorted O L) :
    (compressed_of O m n nnz L).m_inner.Pairwise (fun x y => x ≤ y) := by
  rw [List.pairwise_iff_getElem]
  intro i j hi hj hij
  have hlen := compressed_of_inner_length O m n nnz L
  have h1 := compressed_of_inner_lo O m n nnz L i (by omega)
  have h2 := compressed_of_inner_lo O m n nnz L j (by omega)
  rw [List.getElem?_eq_getElem hi, Option.some.injEq] at h1
  rw [List.getElem?_eq_getElem hj, Option.some.injEq] at h2
  rw [h1, h2]
  exact lines_before_length_mono O L hs (by omega)

/-- C31. After `compress()` of an uncompressed matrix built by in-bounds write accesses
(either storage order), the offsets array `m_inner` has one element more than there are
native lines and is non-decreasing; for every native line `k` the two offsets `m_inner[k]`,
`m_inner[k+1]` delimit a slice of the index array `m_outer` whose entries are strictly
ascending, and `std::binary_search` over that slice finds an index exactly when the index
occurs in the slice. -/
theorem C31_compressed_arrays_ordered (O : StorageOrder) (m n : Nat)
    (ws : List (Nat × Nat × Int)) (hb : ∀ w ∈ ws, w.1 < m ∧ w.2.1 < n) :
    ∃ U : Matrix O, (construct O m n false).Writes ws = some U ∧
      U.compress.m_inner.length = (if O = StorageOrder.RowWise then m else n) + 1 ∧
      U.compress.m_inner.Pairwise (fun x y => x ≤ y) ∧
      ∀ k, k < (if O = StorageOrder.RowWise then m else n) →
        ∃ (lo hi : Nat) (s : List Nat),
          U.compress.m_inner[k]? = some lo ∧ U.compress.m_inner[k + 1]? = some hi ∧
          lo ≤ hi ∧ slice? U.compress.m_outer lo hi = some s ∧
          s.Pairwise (fun x y => x < y) ∧
          ∀ x, binary_search s x = true ↔ x ∈ s := by
  obtain ⟨U, hU, hok, hm, hn, -⟩ := Writes_built O m n ws hb
  subst hm hn
  refine ⟨U, hU, ?_, ?_, ?_⟩
  · rw [compress_eq U hok]; exact compressed_of_inner_length O _ _ _ _
  · rw [compress_eq U hok]; exact compressed_of_inner_sorted O _ _ _ _ hok.2.1
  · intro k hk
    rw [compress_eq U hok]
    have hsorted := line_block_minor_sorted O U.m_mat_uncomp hok.2.1 k
    refine ⟨_, _, _, compressed_of_inner_lo O _ _ _ _ k (by omega),
      compressed_of_inner_hi O _ _ _ _ hok.2.1 k hk, by omega,
      compressed_of_slice_outer O _ _ _ _ hok.2.1 k, hsorted, fun x => ?_⟩
    exact binary_search_iff _ (hsorted.imp (fun h => Nat.le_of_lt h)) x

/-- Witness of C31: the column-wise 2 x 3 matrix [[0,2,0],[3,0,4]]. -/
theorem C31_witness :
    ∃ U : Matrix StorageOrder.ColumnWise,
      (construct StorageOrder.ColumnWise 2 3 false).Writes [(0, 1, 2), (1, 0, 3), (1, 2, 4)]
        = some U ∧
      U.compress.m_inner.length = 4 ∧ U.compress.m_inner.Pairwise (fun x y => x ≤ y) := by
  obtain ⟨U, h1, h2, h3, _⟩ := C31_compressed_arrays_ordered StorageOrder.ColumnWise 2 3
    [(0, 1, 2), (1, 0, 3), (1, 2, 4)] (by decide)
  exact ⟨U, h1, h2, h3⟩

/-- C32. For the compressed matrix C obtained by `compress()` from a matrix built by
in-bounds write accesses (either storage order), `uncompress()` returns and `compress()`
of its result is C again: the same values, index and offsets arrays, the same dimensions
and the same count of non-zero elements. -/
theorem C32_uncompress_compress_round_trip (O : StorageOrder) (m n : Nat)
    (ws : List (Nat × Nat × Int)) (hb : ∀ w ∈ ws, w.1 < m ∧ w.2.1 < n) :
    ∃ U V : Matrix O, (construct O m n false).Writes ws = some U ∧
      U.compress.m_compressed = true ∧
      U.compress.uncompress = some V ∧ V.m_compressed = false ∧
      V.compress.m_val_comp = U.compress.m_val_comp ∧
      V.compress.m_outer = U.compress.m_outer ∧
      V.compress.m_inner = U.compress.m_inner ∧
      V.compress.m_m = U.compress.m_m ∧ V.compress.m_n = U.compress.m_n ∧
      V.compress.nnz = U.compress.nnz ∧ V.compress.m_compressed = true ∧
      V.compress = U.compress := by
  obtain ⟨U, hU, hok, -, -, -⟩ := Writes_built O m n ws hb
  have hc : U.compress.m_compressed = true := by rw [compress_eq U hok]; rfl
  exact ⟨U, U, hU, hc, uncompress_compress U hok, hok.1, rfl, rfl, rfl, rfl, rfl, rfl, hc, rfl⟩

/-- Witness of C32: the row-wise 2 x 3 matrix [[0,2,0],[3,0,4]]. -/
theorem C32_witness :
    ∃ U V : Matrix StorageOrder.RowWise,
      (construct StorageOrder.RowWise 2 3 false).Writes [(0, 1, 2), (1, 0, 3), (1, 2, 4)]
        = some U ∧
      U.compress.uncompress = some V ∧ V.compress = U.compress := by
  obtain ⟨U, V, h1, _, h2, _, _, _, _, _, _, _, _, h3⟩ :=
    C32_uncompress_compress_round_trip StorageOrder.RowWise 2 3
      [(0, 1, 2), (1, 0, 3), (1, 2, 4)] (by decide)
  exact ⟨U, V, h1, h2, h3⟩

variable {O : StorageOrder}

/-! ## Claims on the extraction of a line -/

/-- The uncompressed form of a matrix: same extents, counter and map, mode uncompressed and
empty compressed vectors. -/
theorem get_row_uncompressed_form (M : Matrix O) (hc : M.m_compressed = false) (idx : Nat) :
    M.get_row idx
      = (⟨M.m_m, M.m_n, M.m_nnz, false, M.m_mat_uncomp, [], [], []⟩ : Matrix O).get_row idx := by
  obtain ⟨a, b, c, d, e, f, g, h⟩ := M
  simp only at hc
  subst hc
  cases O <;> rfl

theorem get_col_uncompressed_form (M : Matrix O) (hc : M.m_compressed = false) (idx : Nat) :
    M.get_col idx
      = (⟨M.m_m, M.m_n, M.m_nnz, false, M.m_mat_uncomp, [], [], []⟩ : Matrix O).get_col idx := by
  obtain ⟨a, b, c, d, e, f, g, h⟩ := M
  simp only at hc
  subst hc
  cases O <;> rfl

/-- C33. For an uncompressed matrix of either storage order whose map is ordered for its
comparator and holds only keys inside the extents, and for every line index (zero or not):
`get_row(i)` returns the map entries whose row is `i`, in the order of the map, as column
indices and values, the column indices being strictly ascending; `get_col(j)` returns the
map entries whose column is `j`, as row indices and values, the row indices being strictly
ascending. -/
theorem C33_uncompressed_extraction (O : StorageOrder) (M : Matrix O)
    (hc : M.m_compressed = false) (hs : map_sorted O M.m_mat_uncomp)
    (hb : ∀ p ∈ M.m_mat_uncomp, p.1.1 < M.m_m ∧ p.1.2 < M.m_n) (idx : Nat) :
    (M.get_row idx = some
        ((M.m_mat_uncomp.filter (fun p => decide (p.1.1 = idx))).map (fun p => p.1.2),
         (M.m_mat_uncomp.filter (fun p => decide (p.1.1 = idx))).map (fun p => p.2)) ∧
      ((M.m_mat_uncomp.filter (fun p => decide (p.1.1 = idx))).map
        (fun p => p.1.2)).Pairwise (fun x y => x < y)) ∧
    (M.get_col idx = some
        ((M.m_mat_uncomp.filter (fun p => decide (p.1.2 = idx))).map (fun p => p.1.1),
         (M.m_mat_uncomp.filter (fun p => decide (p.1.2 = idx))).map (fun p => p.2)) ∧
      ((M.m_mat_uncomp.filter (fun p => decide (p.1.2 = idx))).map
        (fun p => p.1.1)).Pairwise (fun x y => x < y)) := by
  have hok : (⟨M.m_m, M.m_n, M.m_nnz, false, M.m_mat_uncomp, [], [], []⟩ :
      Matrix O).uncompressed_ok := uncompressed_form_ok _ _ _ _ hs hb
  refine ⟨⟨?_, ?_⟩, ⟨?_, ?_⟩⟩
  · rw [get_row_uncompressed_form M hc idx]
    exact get_row_uncompressed _ hok idx
  · exact List.pairwise_map.2
      (line_block_cross_sorted O StorageOrder.RowWise M.m_mat_uncomp hs idx)
  · rw [get_col_uncompressed_form M hc idx]
    exact get_col_uncompressed _ hok idx
  · exact List.pairwise_map.2
      (line_block_cross_sorted O StorageOrder.ColumnWise M.m_mat_uncomp hs idx)

/-- Witness of C33: row 0 and column 0 of the column-wise 2 x 3 matrix [[5,2,0],[3,0,4]]. -/
theorem C33_witness :
    (⟨2, 3, 4, false, [((0, 0), 5), ((1, 0), 3), ((0, 1), 2), ((1, 2), 4)], [], [], []⟩ :
        Matrix StorageOrder.ColumnWise).get_row 0 = some ([0, 1], [5, 2]) ∧
    (⟨2, 3, 4, false, [((0, 0), 5), ((1, 0), 3), ((0, 1), 2), ((1, 2), 4)], [], [], []⟩ :
        Matrix StorageOrder.ColumnWise).get_col 0 = some ([0, 1], [5, 3]) :=
  ⟨(C33_uncompressed_extraction StorageOrder.ColumnWise
      ⟨2, 3, 4, false, [((0, 0), 5), ((1, 0), 3), ((0, 1), 2), ((1, 2), 4)], [], [], []⟩
      rfl (by decide) (by decide) 0).1.1,
   (C33_uncompressed_extraction StorageOrder.ColumnWise
      ⟨2, 3, 4, false, [((0, 0), 5), ((1, 0), 3), ((0, 1), 2), ((1, 2), 4)], [], [], []⟩
      rfl (by decide) (by decide) 0).2.1⟩

/-- C34. For the native orientation (`get_row` on a row-wise matrix, `get_col` on a
column-wise matrix), a matrix built by in-bounds write accesses and every in-bounds line
index: the extraction from the compressed matrix returns the slice of the index array and
the slice of the values array delimited by the two offsets of the line, and this pair is the
pair returned by the same extraction before `compress()`. -/
theorem C34_native_compressed_extraction (m n : Nat) (ws : List (Nat × Nat × Int))
    (hb : ∀ w ∈ ws, w.1 < m ∧ w.2.1 < n) :
    (∃ U : Matrix StorageOrder.RowWise,
      (construct StorageOrder.RowWise m n false).Writes ws = some U ∧
      ∀ idx, idx < m → ∃ (lo hi : Nat) (idxs : List Nat) (vals : List Int),
        U.compress.m_inner[idx]? = some lo ∧ U.compress.m_inner[idx + 1]? = some hi ∧
        slice? U.compress.m_outer lo hi = some idxs ∧
        slice? U.compress.m_val_comp lo hi = some vals ∧
        U.compress.get_row idx = some (idxs, vals) ∧ U.get_row idx = some (idxs, vals)) ∧
    (∃ U : Matrix StorageOrder.ColumnWise,
      (construct StorageOrder.ColumnWise m n false).Writes ws = some U ∧
      ∀ idx, idx < n → ∃ (lo hi : Nat) (idxs : List Nat) (vals : List Int),
        U.compress.m_inner[idx]? = some lo ∧ U.compress.m_inner[idx + 1]? = some hi ∧
        slice? U.compress.m_outer lo hi = some idxs ∧
        slice? U.compress.m_val_comp lo hi = some vals ∧
        U.compress.get_col idx = some (idxs, vals) ∧ U.get_col idx = some (idxs, vals)) := by
  constructor
  · obtain ⟨U, hU, hok, hm, hn, -⟩ := Writes_built StorageOrder.RowWise m n ws hb
    subst hm hn
    refine ⟨U, hU, fun idx hi => ?_⟩
    have h1 := get_row_native U hok U.compress (Or.inr rfl) idx hi
    have h2 := get_row_native U hok U (Or.inl rfl) idx hi
    rw [compress_eq U hok] at h1 ⊢
    exact ⟨_, _, _, _, compressed_of_inner_lo _ _ _ _ _ idx (by simp only [if_true]; omega),
      compressed_of_inner_hi _ _ _ _ _ hok.2.1 idx (by simpa using hi),
      compressed_of_slice_outer _ _ _ _ _ hok.2.1 idx,
      compressed_of_slice_val _ _ _ _ _ hok.2.1 idx, h1, h2⟩
  · obtain ⟨U, hU, hok, hm, hn, -⟩ := Writes_built StorageOrder.ColumnWise m n ws hb
    subst hm hn
    refine ⟨U, hU, fun idx hi => ?_⟩
    have h1 := get_col_native U hok U.compress (Or.inr rfl) idx hi
    have h2 := get_col_native U hok U (Or.inl rfl) idx hi
    rw [compress_eq U hok] at h1 ⊢
    exact ⟨_, _, _, _,
      compressed_of_inner_lo _ _ _ _ _ idx (by simp only [reduceCtorEq, if_false]; omega),
      compressed_of_inner_hi _ _ _ _ _ hok.2.1 idx (by simpa using hi),
      compressed_of_slice_outer _ _ _ _ _ hok.2.1 idx,
      compressed_of_slice_val _ _ _ _ _ hok.2.1 idx, h1, h2⟩

/-- Witness of C34: row 1 of the row-wise 2 x 3 matrix [[0,2,0],[3,0,4]]. -/
theorem C34_witness :
    ∃ U : Matrix StorageOrder.RowWise,
      (construct StorageOrder.RowWise 2 3 false).Writes [(0, 1, 2), (1, 0, 3), (1, 2, 4)]
        = some U ∧
      ∃ (idxs : List Nat) (vals : List Int),
        U.compress.get_row 1 = some (idxs, vals) ∧ U.get_row 1 = some (idxs, vals) := by
  obtain ⟨⟨U, h1, h2⟩, _⟩ := C34_native_compressed_extraction 2 3
    [(0, 1, 2), (1, 0, 3), (1, 2, 4)] (by decide)
  obtain ⟨_, _, idxs, vals, _, _, _, _, h3, h4⟩ := h2 1 (by decide)
  exact ⟨U, h1, idxs, vals, h3, h4⟩

end Matrix


/-! ## The two storage orders hold the same content -/

theorem map_find_erase_ne (O : StorageOrder) (k k' : key_type) (mp : MatrixUncompressed)
    (hne : k' ≠ k) : map_find O k' (map_erase O k mp) = map_find O k' mp := by
  induction mp with
  | nil => rfl
  | cons p mp ih =>
    rw [map_find_cons]
    by_cases hp : p.1 = k
    · have : map_erase O k (p :: mp) = map_erase O k mp := by
        simp [map_erase, List.filter_cons, key_equiv_eq_decide, hp]
      rw [this, ih, if_neg (by rw [hp]; exact fun h => hne h.symm)]
    · have : map_erase O k (p :: mp) = p :: map_erase O k mp := by
        simp [map_erase, List.filter_cons, key_equiv_eq_decide, hp]
      rw [this, map_find_cons, ih]

theorem map_contains_eq_of_find (O O1 : StorageOrder) (k : key_type)
    (L L1 : MatrixUncompressed) (h : map_find O k L = map_find O1 k L1) :
    map_contains O k L = map_contains O1 k L1 := by
  cases hc : map_contains O1 k L1
  · exact (map_find_eq_none_iff O k L).1 (by rw [h]; exact (map_find_eq_none_iff O1 k L1).2 hc)
  · cases hc' : map_contains O k L
    · have := (map_find_eq_none_iff O k L).2 hc'
      rw [h] at this
      rw [(map_find_eq_none_iff O1 k L1).1 this] at hc
      cases hc
    · rfl

theorem mem_iff_of_find (O O1 : StorageOrder) (L L1 : MatrixUncompressed)
    (hs : map_sorted O L) (hs1 : map_sorted O1 L1)
    (h : ∀ k, map_find O k L = map_find O1 k L1) (p : key_type × Int) :
    p ∈ L ↔ p ∈ L1 := by
  rw [← map_find_eq_some_iff O p.1 p.2 L hs, ← map_find_eq_some_iff O1 p.1 p.2 L1 hs1, h]

namespace Matrix

variable {O : StorageOrder}

/-- Write access on an uncompressed matrix, as the lookups and the counter see it. -/
theorem Write_lookup (M : Matrix O) (h : M.uncompressed_ok) (i j : Nat) (v : Int)
    (hi : i < M.m_m) (hj : j < M.m_n) :
    ∃ r, M.Write i j v = some r ∧ r.2.uncompressed_ok ∧ r.2.m_m = M.m_m ∧ r.2.m_n = M.m_n ∧
      r.2.m_nnz = (if v = 0 then M.m_nnz - 1
        else if map_contains O (i, j) M.m_mat_uncomp = true then M.m_nnz
        else M.m_nnz + 1) ∧
      ∀ k, map_find O k r.2.m_mat_uncomp
        = if k = (i, j) then
            (if v = 0 then (if M.m_nnz = 0 then map_find O k M.m_mat_uncomp else none)
             else some v)
          else map_find O k M.m_mat_uncomp := by
  obtain ⟨r, hw⟩ : ∃ r, M.Write i j v = some r :=
    ⟨_, Write_uncompressed M h.1 h.2.1 i j v hi hj⟩
  obtain ⟨h1, h2, h3⟩ := Write_ok M h _ _ _ r hw
  refine ⟨r, hw, h1, h2, h3, ?_⟩
  rw [Write_uncompressed M h.1 h.2.1 i j v hi hj, Option.some.injEq] at hw
  subst hw
  by_cases hv : v = 0
  · by_cases hn : M.m_nnz = 0
    · rw [if_pos hv, if_pos hn]
      refine ⟨by rw [if_pos hv, hn], fun k => ?_⟩
      by_cases hk : k = (i, j)
      · rw [if_pos hk, if_pos hv, if_pos hn]
      · rw [if_neg hk]
    · rw [if_pos hv, if_neg hn]
      refine ⟨by rw [if_pos hv], fun k => ?_⟩
      show map_find O k (map_erase O (i, j) M.m_mat_uncomp) = _
      by_cases hk : k = (i, j)
      · rw [if_pos hk, if_pos hv, if_neg hn, hk, map_find_erase_self]
      · rw [if_neg hk, map_find_erase_ne O (i, j) k _ hk]
  · by_cases hcon : map_contains O (i, j) M.m_mat_uncomp = true
    · rw [if_neg hv, if_pos hcon]
      refine ⟨by rw [if_neg hv, if_pos hcon], fun k => ?_⟩
      show map_find O k (M.m_mat_uncomp.map (fun p => if p.1 = (i, j) then (p.1, v) else p)) = _
      by_cases hk : k = (i, j)
      · rw [if_pos hk, if_neg hv, hk, map_find_map_set_self O (i, j) v _ hcon]
      · rw [if_neg hk, map_find_map_set_ne O (i, j) k v _ hk]
    · rw [if_neg hv, if_neg hcon]
      refine ⟨by rw [if_neg hv, if_neg hcon], fun k => ?_⟩
      show map_find O k (map_insert O (i, j) v M.m_mat_uncomp) = _
      rw [Bool.not_eq_true] at hcon
      by_cases hk : k = (i, j)
      · rw [if_pos hk, if_neg hv, hk, map_find_insert_self O (i, j) v _ hcon]
      · rw [if_neg hk, map_find_insert_ne O (i, j) k v _ hk]

/-- The same sequence of in-bounds write accesses applied to a row-wise and to a
column-wise matrix of the same extents holding the same content: both sequences succeed and
the results hold the same content, with the same counter. -/
theorem Writes_same_content (ws : List (Nat × Nat × Int)) :
    ∀ (R : Matrix StorageOrder.RowWise) (C : Matrix StorageOrder.ColumnWise),
      R.uncompressed_ok → C.uncompressed_ok → R.m_m = C.m_m → R.m_n = C.m_n →
      R.m_nnz = C.m_nnz →
      (∀ k, map_find StorageOrder.RowWise k R.m_mat_uncomp
        = map_find StorageOrder.ColumnWise k C.m_mat_uncomp) →
      (∀ w ∈ ws, w.1 < R.m_m ∧ w.2.1 < R.m_n) →
      ∃ R1 C1, R.Writes ws = some R1 ∧ C.Writes ws = some C1 ∧
        R1.uncompressed_ok ∧ C1.uncompressed_ok ∧
        R1.m_m = R.m_m ∧ R1.m_n = R.m_n ∧ C1.m_m = R.m_m ∧ C1.m_n = R.m_n ∧
        R1.m_nnz = C1.m_nnz ∧
        ∀ k, map_find StorageOrder.RowWise k R1.m_mat_uncomp
          = map_find StorageOrder.ColumnWise k C1.m_mat_uncomp := by
  induction ws with
  | nil =>
    intro R C hR hC hm hn hz hf _
    exact ⟨R, C, rfl, rfl, hR, hC, rfl, rfl, hm.symm, hn.symm, hz, hf⟩
  | cons w ws ih =>
    intro R C hR hC hm hn hz hf hb
    obtain ⟨hw1, hw2⟩ := hb w (List.mem_cons_self _ _)
    obtain ⟨r, hr, hrok, hrm, hrn, hrz, hrf⟩ := Write_lookup R hR w.1 w.2.1 w.2.2 hw1 hw2
    obtain ⟨c, hc, hcok, hcm, hcn, hcz, hcf⟩ :=
      Write_lookup C hC w.1 w.2.1 w.2.2 (by omega) (by omega)
    have hcon := map_contains_eq_of_find StorageOrder.RowWise StorageOrder.ColumnWise
      (w.1, w.2.1) _ _ (hf (w.1, w.2.1))
    have hz1 : r.2.m_nnz = c.2.m_nnz := by rw [hrz, hcz, hz, hcon]
    have hf1 : ∀ k, map_find StorageOrder.RowWise k r.2.m_mat_uncomp
        = map_find StorageOrder.ColumnWise k c.2.m_mat_uncomp := by
      intro k
      rw [hrf k, hcf k, hf k, hz]
    obtain ⟨R1, C1, h1, h2, h3, h4, h5, h6, h7, h8, h9, h10⟩ :=
      ih r.2 c.2 hrok hcok (by omega) (by omega) hz1 hf1
        (fun x hx => by
          have := hb x (List.mem_cons_of_mem _ hx)
          rw [hrm, hrn]; exact this)
    refine ⟨R1, C1, ?_, ?_, h3, h4, by omega, by omega, by omega, by omega, h9, h10⟩
    · simp only [Writes, hr]; exact h1
    · simp only [Writes, hc]; exact h2

/-- C39. For every sequence of in-bounds write accesses applied to an empty row-wise m x n
matrix and to an empty column-wise m x n matrix, both sequences succeed, and the two
matrices, each of them taken before or after its `compress()`, agree on `nnz()`, on the read
access and on `check_presence` at every in-bounds cell, on `check_presence_row` at every
row and on `check_presence_col` at every column (each of these calls returning). -/
theorem C39_storage_orders_agree (m n : Nat) (ws : List (Nat × Nat × Int))
    (hb : ∀ w ∈ ws, w.1 < m ∧ w.2.1 < n) :
    ∃ (R : Matrix StorageOrder.RowWise) (C : Matrix StorageOrder.ColumnWise),
      (construct StorageOrder.RowWise m n false).Writes ws = some R ∧
      (construct StorageOrder.ColumnWise m n false).Writes ws = some C ∧
      ∀ (R1 : Matrix StorageOrder.RowWise) (C1 : Matrix StorageOrder.ColumnWise),
        (R1 = R ∨ R1 = R.compress) → (C1 = C ∨ C1 = C.compress) →
        R1.nnz = C1.nnz ∧
        (∀ i j, i < m → j < n →
          (∃ v, R1.Read i j = some v ∧ C1.Read i j = some v) ∧
          ∃ b, R1.check_presence i j = some b ∧ C1.check_presence i j = some b) ∧
        (∀ i, i < m →
          ∃ b, R1.check_presence_row i = some b ∧ C1.check_presence_row i = some b) ∧
        (∀ j, j < n →
          ∃ b, R1.check_presence_col j = some b ∧ C1.check_presence_col j = some b) := by
  obtain ⟨R, C, hR, hC, hRok, hCok, hRm, hRn, hCm, hCn, hz, hf⟩ :=
    Writes_same_content ws (construct StorageOrder.RowWise m n false)
      (construct StorageOrder.ColumnWise m n false) (construct_ok _ m n) (construct_ok _ m n)
      rfl rfl rfl (fun _ => rfl) hb
  have hRm' : R.m_m = m := hRm
  have hRn' : R.m_n = n := hRn
  have hCm' : C.m_m = m := hCm
  have hCn' : C.m_n = n := hCn
  refine ⟨R, C, hR, hC, fun R1 C1 hR1 hC1 => ?_⟩
  obtain ⟨hrow, hcol, hcell⟩ := config_view R hRok R1 hR1
  obtain ⟨hrow', hcol', hcell'⟩ := config_view C hCok C1 hC1
  have hmem := mem_iff_of_find StorageOrder.RowWise StorageOrder.ColumnWise _ _
    hRok.2.1 hCok.2.1 hf
  refine ⟨?_, fun i j hi hj => ⟨?_, ?_⟩, fun i hi => ?_, fun j hj => ?_⟩
  · have e1 : R1.m_nnz = R.m_nnz := by
      rcases hR1 with rfl | rfl
      · rfl
      · rw [compress_eq R hRok]; rfl
    have e2 : C1.m_nnz = C.m_nnz := by
      rcases hC1 with rfl | rfl
      · rfl
      · rw [compress_eq C hCok]; rfl
    show R1.m_nnz = C1.m_nnz
    rw [e1, e2, hz]
  · refine ⟨_, (hcell i j (by omega) (by omega)).2, ?_⟩
    rw [(hcell' i j (by omega) (by omega)).2, hf]
  · refine ⟨_, (hcell i j (by omega) (by omega)).1, ?_⟩
    rw [(hcell' i j (by omega) (by omega)).1]
    exact congrArg some (map_contains_eq_of_find _ _ _ _ _ (hf (i, j))).symm
  · refine ⟨_, hrow i (by omega), ?_⟩
    rw [hrow' i (by omega)]
    congr 1
    apply decide_eq_decide.2
    constructor
    · rintro ⟨p, hp, he⟩; exact ⟨p, (hmem p).2 hp, he⟩
    · rintro ⟨p, hp, he⟩; exact ⟨p, (hmem p).1 hp, he⟩
  · refine ⟨_, hcol j (by omega), ?_⟩
    rw [hcol' j (by omega)]
    congr 1
    apply decide_eq_decide.2
    constructor
    · rintro ⟨p, hp, he⟩; exact ⟨p, (hmem p).2 hp, he⟩
    · rintro ⟨p, hp, he⟩; exact ⟨p, (hmem p).1 hp, he⟩

/-- Witness of C39: the writes of [[0,2,0],[3,0,4]] followed by a write of zero, on the
2 x 3 matrices of the two storage orders. -/
theorem C39_witness :
    ∃ (R : Matrix StorageOrder.RowWise) (C : Matrix StorageOrder.ColumnWise),
      (construct StorageOrder.RowWise 2 3 false).Writes
        [(0, 1, 2), (1, 0, 3), (1, 2, 4), (0, 0, 0)] = some R ∧
      (construct StorageOrder.ColumnWise 2 3 false).Writes
        [(0, 1, 2), (1, 0, 3), (1, 2, 4), (0, 0, 0)] = some C ∧
      R.compress.nnz = C.nnz ∧
      ∃ v, R.compress.Read 1 2 = some v ∧ C.Read 1 2 = some v := by
  obtain ⟨R, C, h1, h2, h3⟩ := C39_storage_orders_agree 2 3
    [(0, 1, 2), (1, 0, 3), (1, 2, 4), (0, 0, 0)] (by decide)
  obtain ⟨h4, h5, _, _⟩ := h3 R.compress C (Or.inr rfl) (Or.inl rfl)
  exact ⟨R, C, h1, h2, h4, (h5 1 2 (by decide) (by decide)).1⟩

end Matrix


/-! ## What the product stores -/

theorem foldlM_preserve {α β : Type} (step : β → α → Option β) (P : β → Prop)
    (h : ∀ b x b1, step b x = some b1 → P b → P b1) :
    ∀ (l : List α) (b0 b : β), l.foldlM step b0 = some b → P b0 → P b := by
  intro l
  induction l with
  | nil =>
    intro b0 b hb h0
    simp only [List.foldlM_nil, Option.pure_def, Option.some.injEq] at hb
    rw [← hb]; exact h0
  | cons x l ih =>
    intro b0 b hb h0
    rw [List.foldlM_cons] at hb
    cases hs : step b0 x with
    | none => rw [hs] at hb; simp at hb
    | some b1 =>
      rw [hs] at hb
      simp only [Option.some_bind, Option.bind_eq_bind] at hb
      exact ih b1 b hb (h b0 x b1 hs h0)

namespace Matrix

variable {O : StorageOrder}

theorem Write_keeps_nonzero (res : Matrix O) (i j : Nat) (v : Int) (res1 : Matrix O)
    (hw : (res.Write i j v).map (fun w => w.2) = some res1)
    (h : res.uncompressed_ok ∧ stored_nonzero res.m_mat_uncomp) :
    res1.uncompressed_ok ∧ stored_nonzero res1.m_mat_uncomp := by
  cases hr : res.Write i j v with
  | none => rw [hr] at hw; simp at hw
  | some r =>
    rw [hr] at hw
    simp only [Option.map_some', Option.some.injEq] at hw
    subst hw
    exact ⟨(Write_ok res h.1 i j v r hr).1, Write_nonzero res h.1 h.2 i j v r hr⟩

theorem write_column_keeps_nonzero (ts : List Int) :
    ∀ (k : Nat) (res res1 : Matrix O), write_column k ts res = some res1 →
      res.uncompressed_ok ∧ stored_nonzero res.m_mat_uncomp →
      res1.uncompressed_ok ∧ stored_nonzero res1.m_mat_uncomp := by
  induction ts with
  | nil =>
    intro k res res1 hw h
    simp only [write_column, Option.some.injEq] at hw
    rw [← hw]; exact h
  | cons t ts ih =>
    intro k res res1 hw h
    simp only [write_column] at hw
    cases hr : res.Write k 0 t with
    | none => rw [hr] at hw; simp at hw
    | some r =>
      rw [hr] at hw
      exact ih (k + 1) r.2 res1 hw
        ⟨(Write_ok res h.1 k 0 t r hr).1, Write_nonzero res h.1 h.2 k 0 t r hr⟩

/-- Whatever the operands, a matrix returned by the matrix-matrix product is uncompressed
and well formed and stores no zero. -/
theorem operator_mul_matrix_nonzero {O1 : StorageOrder} (M : Matrix O) (N : Matrix O1)
    (R : Matrix O) (h : M.operator_mul_matrix N = some R) :
    R.uncompressed_ok ∧ stored_nonzero R.m_mat_uncomp := by
  have h0 : (construct O M.m_m N.m_n false).uncompressed_ok ∧
      stored_nonzero (construct O M.m_m N.m_n false).m_mat_uncomp :=
    ⟨construct_ok O _ _, fun p hp => by cases hp⟩
  unfold operator_mul_matrix at h
  by_cases hd : M.m_n = N.m_m
  · rw [if_pos hd] at h
    by_cases hp : N.m_n = 1
    · simp only [hp, decide_True, if_true] at h
      cases hg : N.get_col 0 with
      | none => rw [hg] at h; simp at h
      | some c =>
        rw [hg] at h
        simp only at h
        by_cases hO : O = StorageOrder.RowWise
        · rw [if_pos hO] at h
          refine foldlM_preserve _
            (fun res : Matrix O => res.uncompressed_ok ∧ stored_nonzero res.m_mat_uncomp)
            ?_ _ _ _ h (by rw [hp] at h0; exact h0)
          intro res i res1 hs hres
          cases hrow : M.get_row i with
          | none => rw [hrow] at hs; simp at hs
          | some row_i =>
            rw [hrow] at hs
            simp only at hs
            cases hdot : dot_loop (fun c => N.Read c 0) row_i.1 row_i.2 0 with
            | none => rw [hdot] at hs; simp at hs
            | some temp =>
              rw [hdot] at hs
              exact Write_keeps_nonzero res i 0 temp res1 hs hres
        · rw [if_neg hO] at h
          split at h
          · cases h
          · exact write_column_keeps_nonzero _ 0 _ R h (by rw [hp] at h0; exact h0)
    · simp only [hp, decide_False, Bool.false_eq_true, if_false] at h
      refine foldlM_preserve _
        (fun res : Matrix O => res.uncompressed_ok ∧ stored_nonzero res.m_mat_uncomp)
        ?_ _ _ _ h h0
      intro res j res1 hs hres
      cases hcol : N.get_col j with
      | none => rw [hcol] at hs; simp at hs
      | some col_j =>
        rw [hcol] at hs
        simp only at hs
        refine foldlM_preserve _
          (fun res : Matrix O => res.uncompressed_ok ∧ stored_nonzero res.m_mat_uncomp)
          ?_ _ _ _ hs hres
        intro r i r1 hi hr
        cases hrow : M.get_row i with
        | none => rw [hrow] at hi; simp at hi
        | some row_i =>
          rw [hrow] at hi
          simp only at hi
          by_cases hn : row_i.1.countP
              (fun el => decide (find_pos el col_j.1 ≠ col_j.1.length)) ≠ 0
          · rw [if_pos hn] at hi
            cases hip : inner_product (set_intersection row_i.1 col_j.1) row_i col_j with
            | none => rw [hip] at hi; simp at hi
            | some v =>
              rw [hip] at hi
              exact Write_keeps_nonzero r i j v r1 hi hr
          · rw [if_neg hn] at hi
            simp only [Option.some.injEq] at hi
            rw [← hi]; exact hr
  · rw [if_neg hd] at h; cases h

/-- The entry of the product is zero when the row of the left operand and the column of the
right operand have no index in common. -/
theorem product_entry_eq_zero_of_disjoint {O1 : StorageOrder} (U : Matrix O) (V : Matrix O1)
    (hU : U.uncompressed_ok) (hV : V.uncompressed_ok) (i j : Nat)
    (h : set_intersection
        ((line_block StorageOrder.RowWise U.m_mat_uncomp i).map (fun p => p.1.2))
        ((line_block StorageOrder.ColumnWise V.m_mat_uncomp j).map (fun p => p.1.1)) = []) :
    product_entry O O1 U.m_mat_uncomp V.m_mat_uncomp U.m_n i j = 0 := by
  have hRs := line_block_cross_sorted O StorageOrder.RowWise U.m_mat_uncomp hU.2.1 i
  have hCs := line_block_cross_sorted O1 StorageOrder.ColumnWise V.m_mat_uncomp hV.2.1 j
  have hRb : ∀ p ∈ line_block StorageOrder.RowWise U.m_mat_uncomp i,
      minor StorageOrder.RowWise p.1 < U.m_n := fun p hp =>
    (hU.2.2.1 p ((mem_line_block _ _ _ p).1 hp).1).2
  have hsum := intersection_sum (line_block StorageOrder.RowWise U.m_mat_uncomp i)
    (line_block StorageOrder.ColumnWise V.m_mat_uncomp j) U.m_n hRs hRb
  have hint := set_intersection_sorted
    ((line_block StorageOrder.RowWise U.m_mat_uncomp i).map
      (fun p => minor StorageOrder.RowWise p.1))
    ((line_block StorageOrder.ColumnWise V.m_mat_uncomp j).map
      (fun p => minor StorageOrder.ColumnWise p.1))
    (List.pairwise_map.2 hRs) (List.pairwise_map.2 hCs)
  have h' : set_intersection
      ((line_block StorageOrder.RowWise U.m_mat_uncomp i).map
        (fun p => minor StorageOrder.RowWise p.1))
      ((line_block StorageOrder.ColumnWise V.m_mat_uncomp j).map
        (fun p => minor StorageOrder.ColumnWise p.1)) = [] := h
  rw [h'] at hint
  rw [← hint] at hsum
  unfold product_entry
  rw [show (∑ k in Finset.range U.m_n, (map_find O (i, k) U.m_mat_uncomp).getD 0
        * (map_find O1 (k, j) V.m_mat_uncomp).getD 0)
      = ∑ k in Finset.range U.m_n,
          block_lookup StorageOrder.RowWise
              (line_block StorageOrder.RowWise U.m_mat_uncomp i) k
            * block_lookup StorageOrder.ColumnWise
              (line_block StorageOrder.ColumnWise V.m_mat_uncomp j) k from
    Finset.sum_congr rfl (fun k _ => by rw [block_lookup_row O, block_lookup_col O1]),
    ← hsum]
  rfl

/-! ## Claims on what the product stores -/

/-- C35. For uncompressed operands built by in-bounds write accesses, of matching extents,
the matrix returned by `M * N` stores no entry for a cell (i, j) such that row i of M and
column j of N have no index in common.  Its `nnz()` is not always the number of entries of
its map: on the single-column path, [[1,0],[0,0]] times the column [1,0] returns a matrix
whose map holds one entry with `nnz()` equal to 0, and on the general path [[1,1]] times
[[1,1],[0,-1]] returns a matrix whose map holds one entry with `nnz()` equal to 0. -/
theorem C35_product_store :
    (∀ (O O1 : StorageOrder) (m n p : Nat) (ws1 ws2 : List (Nat × Nat × Int)),
      (∀ w ∈ ws1, w.1 < m ∧ w.2.1 < n) → (∀ w ∈ ws2, w.1 < n ∧ w.2.1 < p) →
      ∃ (M : Matrix O) (N : Matrix O1) (R : Matrix O),
        (construct O m n false).Writes ws1 = some M ∧
        (construct O1 n p false).Writes ws2 = some N ∧
        M.operator_mul_matrix N = some R ∧
        ∀ i j, i < m → j < p →
          ∃ row_i col_j, M.get_row i = some row_i ∧ N.get_col j = some col_j ∧
            (set_intersection row_i.1 col_j.1 = [] →
              map_contains O (i, j) R.m_mat_uncomp = false)) ∧
    (∀ O : StorageOrder, ∃ (M : Matrix O) (N : Matrix StorageOrder.RowWise) (R : Matrix O),
      (construct O 2 2 false).Writes [(0, 0, 1)] = some M ∧
      (construct StorageOrder.RowWise 2 1 false).Writes [(0, 0, 1)] = some N ∧
      M.operator_mul_matrix N = some R ∧
      R.m_mat_uncomp = [((0, 0), 1)] ∧ R.nnz = 0) ∧
    (∀ O : StorageOrder, ∃ (M : Matrix O) (N : Matrix StorageOrder.RowWise) (R : Matrix O),
      (construct O 1 2 false).Writes [(0, 0, 1), (0, 1, 1)] = some M ∧
      (construct StorageOrder.RowWise 2 2 false).Writes [(0, 0, 1), (0, 1, 1), (1, 1, -1)]
        = some N ∧
      M.operator_mul_matrix N = some R ∧
      R.m_mat_uncomp = [((0, 0), 1)] ∧ R.nnz = 0) := by
  refine ⟨?_, ?_, ?_⟩
  · intro O O1 m n p ws1 ws2 hb1 hb2
    obtain ⟨M, hM, hMok, hMm, hMn, -⟩ := Writes_built O m n ws1 hb1
    obtain ⟨N, hN, hNok, hNm, hNn, -⟩ := Writes_built O1 n p ws2 hb2
    obtain ⟨R, hR, hRok, hRm, hRn, hread⟩ :=
      operator_mul_matrix_spec M N hMok hNok (by rw [hMn, hNm])
    have hnz := (operator_mul_matrix_nonzero M N R hR).2
    refine ⟨M, N, R, hM, hN, hR, fun i j hi hj => ?_⟩
    refine ⟨_, _, get_row_uncompressed M hMok i, get_col_uncompressed N hNok j, fun hint => ?_⟩
    have hzero := product_entry_eq_zero_of_disjoint M N hMok hNok i j hint
    have hr := hread i j (by omega) (by omega)
    rw [hzero, Read_uncompressed R hRok.1 hRok.2.1 i j (by omega) (by omega),
      Option.some.injEq] at hr
    cases hcon : map_contains O (i, j) R.m_mat_uncomp with
    | false => rfl
    | true =>
      obtain ⟨v, hv⟩ := (map_contains_iff O (i, j) R.m_mat_uncomp).1 hcon
      have hf := (map_find_eq_some_iff O (i, j) v R.m_mat_uncomp hRok.2.1).2 hv
      rw [hf] at hr
      exact absurd hr (hnz _ hv)
  · intro O
    cases O
    · exact ⟨⟨2, 2, 1, false, [((0, 0), 1)], [], [], []⟩,
        ⟨2, 1, 1, false, [((0, 0), 1)], [], [], []⟩,
        ⟨2, 1, 0, false, [((0, 0), 1)], [], [], []⟩,
        by decide, by decide, by decide, by decide, by decide⟩
    · exact ⟨⟨2, 2, 1, false, [((0, 0), 1)], [], [], []⟩,
        ⟨2, 1, 1, false, [((0, 0), 1)], [], [], []⟩,
        ⟨2, 1, 0, false, [((0, 0), 1)], [], [], []⟩,
        by decide, by decide, by decide, by decide, by decide⟩
  · intro O
    cases O
    · exact ⟨⟨1, 2, 2, false, [((0, 0), 1), ((0, 1), 1)], [], [], []⟩,
        ⟨2, 2, 3, false, [((0, 0), 1), ((0, 1), 1), ((1, 1), -1)], [], [], []⟩,
        ⟨1, 2, 0, false, [((0, 0), 1)], [], [], []⟩,
        by decide, by decide, by decide, by decide, by decide⟩
    · exact ⟨⟨1, 2, 2, false, [((0, 0), 1), ((0, 1), 1)], [], [], []⟩,
        ⟨2, 2, 3, false, [((0, 0), 1), ((0, 1), 1), ((1, 1), -1)], [], [], []⟩,
        ⟨1, 2, 0, false, [((0, 0), 1)], [], [], []⟩,
        by decide, by decide, by decide, by decide, by decide⟩

end Matrix


/-! ## Rounding to `double` in the Frobenius sum -/

namespace Matrix

variable {O : StorageOrder}

theorem excess_bits_small (fuel n : Nat) (h : n < 2 ^ 53) : excess_bits fuel n = 0 := by
  cases fuel with
  | zero => rfl
  | succ fuel => simp only [excess_bits, if_pos h]

/-- Integers up to `2 ^ 53` are represented exactly. -/
theorem to_double_exact (n : Nat) (h : n ≤ 2 ^ 53) : to_double n = n := by
  rcases Nat.lt_or_eq_of_le h with h1 | h1
  · simp [to_double, excess_bits_small n n h1, Nat.mod_one]
  · subst h1
    decide

theorem pow_abs_2_exact (el : Int) (h : el.natAbs ^ 2 ≤ 2 ^ 53) :
    pow_abs_2 el = el.natAbs ^ 2 := by
  have h1 : el.natAbs ≤ el.natAbs ^ 2 := Nat.le_self_pow (by norm_num) _
  rw [pow_abs_2, to_double_exact _ (le_trans h1 h), to_double_exact _ h]

theorem foldl_pow_abs_2_exact (xs : List Int) :
    ∀ acc : Nat, acc + (xs.map (fun el => el.natAbs ^ 2)).sum ≤ 2 ^ 53 →
      xs.foldl (fun res el => to_double (res + pow_abs_2 el)) acc
        = acc + (xs.map (fun el => el.natAbs ^ 2)).sum := by
  induction xs with
  | nil => intro acc _; simp
  | cons x xs ih =>
    intro acc h
    simp only [List.map_cons, List.sum_cons] at h
    rw [List.foldl_cons, pow_abs_2_exact x (by omega), to_double_exact _ (by omega),
      ih _ (by omega)]
    simp only [List.map_cons, List.sum_cons]
    omega

/-- While the exact sum of squares does not exceed `2 ^ 53`, the sum accumulated in `double`
is the exact one. -/
theorem sum_pow_abs_2_exact (xs : List Int)
    (h : (xs.map (fun el => el.natAbs ^ 2)).sum ≤ 2 ^ 53) :
    sum_pow_abs_2 xs = (xs.map (fun el => el.natAbs ^ 2)).sum := by
  rw [sum_pow_abs_2, foldl_pow_abs_2_exact xs 0 (by omega), Nat.zero_add]

theorem cast_sum_squares {α : Type} (f : α → Int) (L : List α) :
    ((((L.map f).map (fun el => el.natAbs ^ 2)).sum : Nat) : Int)
      = (L.map (fun el => (Int.natAbs (f el) : Int) ^ 2)).sum := by
  induction L with
  | nil => rfl
  | cons x L ih =>
    simp only [List.map_cons, List.sum_cons, Nat.cast_add, Nat.cast_pow, ih]

/-- The value under the square root of the Frobenius-norm is computed from the same values
in the same order before and after `compress()`. -/
theorem norm_Frobenius_res_compress (U : Matrix O) (hU : U.uncompressed_ok) :
    U.compress.norm_Frobenius_res = U.norm_Frobenius_res := by
  rw [compress_eq U hU]
  unfold norm_Frobenius_res
  rw [hU.1]
  simp only [compressed_of, if_true, Bool.false_eq_true, if_false]

/-- The value under the square root of the Frobenius-norm, uncompressed or compressed, while
the sum of squares does not exceed `2 ^ 53`: the sum over all the cells of the squared
absolute value held at the cell. -/
theorem norm_Frobenius_res_spec (U : Matrix O) (hU : U.uncompressed_ok) (M : Matrix O)
    (hM : M = U ∨ M = U.compress)
    (hrep : (∑ i in Finset.range U.m_m, ∑ j in Finset.range U.m_n,
      (((map_find O (i, j) U.m_mat_uncomp).getD 0).natAbs : Int) ^ 2) ≤ 2 ^ 53) :
    M.norm_Frobenius_res = ∑ i in Finset.range U.m_m, ∑ j in Finset.range U.m_n,
      (((map_find O (i, j) U.m_mat_uncomp).getD 0).natAbs : Int) ^ 2 := by
  have hsum := sum_squares_cells O U.m_mat_uncomp hU.2.1 U.m_m U.m_n hU.2.2.1
  have hMU : M.norm_Frobenius_res = U.norm_Frobenius_res := by
    rcases hM with rfl | rfl
    · rfl
    · exact norm_Frobenius_res_compress U hU
  rw [hMU]
  unfold norm_Frobenius_res
  by_cases h0 : U.m_m = 0 ∧ U.m_n = 0
  · rw [if_pos h0, h0.1]; simp
  · rw [if_neg h0, hU.1]
    simp only [Bool.false_eq_true, if_false]
    have hc := cast_sum_squares (fun el : key_type × Int => el.2) U.m_mat_uncomp
    rw [hsum] at hc
    rw [sum_pow_abs_2_exact _ (by
      have : ((((U.m_mat_uncomp.map (fun el => el.2)).map
          (fun el => el.natAbs ^ 2)).sum : Nat) : Int) ≤ 2 ^ 53 := by
        rw [hc]; exact hrep
      exact_mod_cast this)]
    exact hc

end Matrix

/-! ## Claims on the Frobenius norm -/

namespace Matrix

/-- C27 (counterexample). On `Matrix<int> M(1,1); M(0,0,94906267);`, uncompressed or
compressed, the read access gives 94906267, whose square is 9007199515875289, and the value
whose square root the Frobenius-norm returns is 9007199515875288: the square is above
`2 ^ 53`, where `double` holds the even integers only.  So that value is not the sum over the
cells of |Read(i,j)|^2. -/
theorem C27_square_rounded_in_double :
    ∃ U : Matrix StorageOrder.RowWise,
      (construct StorageOrder.RowWise 1 1 false).Writes [(0, 0, 94906267)] = some U ∧
      U.Read 0 0 = some 94906267 ∧ U.compress.Read 0 0 = some 94906267 ∧
      (∑ i in Finset.range 1, ∑ j in Finset.range 1, |(U.Read i j).getD 0| ^ 2)
        = 9007199515875289 ∧
      U.norm_Frobenius_res = 9007199515875288 ∧
      U.compress.norm_Frobenius_res = 9007199515875288 ∧
      U.norm_Frobenius_res
        ≠ ∑ i in Finset.range 1, ∑ j in Finset.range 1, |(U.Read i j).getD 0| ^ 2 ∧
      U.compress.norm_Frobenius_res
        ≠ ∑ i in Finset.range 1, ∑ j in Finset.range 1, |(U.compress.Read i j).getD 0| ^ 2 := by
  have hr : (⟨1, 1, 1, false, [((0, 0), 94906267)], [], [], []⟩ :
      Matrix StorageOrder.RowWise).Read 0 0 = some 94906267 := by decide
  have hrc : (⟨1, 1, 1, false, [((0, 0), 94906267)], [], [], []⟩ :
      Matrix StorageOrder.RowWise).compress.Read 0 0 = some 94906267 := by decide
  have hf : (⟨1, 1, 1, false, [((0, 0), 94906267)], [], [], []⟩ :
      Matrix StorageOrder.RowWise).norm_Frobenius_res = 9007199515875288 := by decide
  have hfc : (⟨1, 1, 1, false, [((0, 0), 94906267)], [], [], []⟩ :
      Matrix StorageOrder.RowWise).compress.norm_Frobenius_res = 9007199515875288 := by
    decide
  refine ⟨⟨1, 1, 1, false, [((0, 0), 94906267)], [], [], []⟩, by decide, hr, hrc, ?_, hf, hfc,
    ?_, ?_⟩
  · rw [Finset.sum_range_one, Finset.sum_range_one, hr]; decide
  · rw [Finset.sum_range_one, Finset.sum_range_one, hr, hf]; decide
  · rw [Finset.sum_range_one, Finset.sum_range_one, hrc, hfc]; decide

/-- C27 (amended). For every matrix built by in-bounds write accesses, uncompressed or
compressed (either storage order, integer elements), whenever the sum over all the cells
(i, j) of the extents of |Read(i,j)|^2 is at most `2 ^ 53`, the value whose square root the
Frobenius-norm returns is that sum; it is the sum of the squared absolute values of the
values array when the matrix is compressed and of the values of the map when it is
uncompressed.  For [[0,2],[3,0]] it is 13. -/
theorem C27_frobenius_norm_exact_range (O : StorageOrder) (m n : Nat)
    (ws : List (Nat × Nat × Int)) (hb : ∀ w ∈ ws, w.1 < m ∧ w.2.1 < n) :
    (∃ U : Matrix O, (construct O m n false).Writes ws = some U ∧
      ∀ M : Matrix O, (M = U ∨ M = U.compress) →
        (∀ i j, i < m → j < n → ∃ a : Int, M.Read i j = some a) ∧
        ((∑ i in Finset.range m, ∑ j in Finset.range n, |(M.Read i j).getD 0| ^ 2) ≤ 2 ^ 53 →
          M.norm_Frobenius_res
            = ∑ i in Finset.range m, ∑ j in Finset.range n, |(M.Read i j).getD 0| ^ 2 ∧
          (M.m_compressed = true →
            M.norm_Frobenius_res = (M.m_val_comp.map (fun el => |el| ^ 2)).sum) ∧
          (M.m_compressed = false →
            M.norm_Frobenius_res = (M.m_mat_uncomp.map (fun el => |el.2| ^ 2)).sum))) ∧
    (∀ O1 : StorageOrder, ∃ A : Matrix O1,
      (construct O1 2 2 false).Writes [(0, 1, 2), (1, 0, 3)] = some A ∧
      A.norm_Frobenius_res = 13 ∧ A.compress.norm_Frobenius_res = 13) := by
  constructor
  · obtain ⟨U, hU, hok, hUm, hUn, -⟩ := Writes_built O m n ws hb
    refine ⟨U, hU, fun M hM => ?_⟩
    have hd := compress_dims U hok M hM
    subst hUm hUn
    have hread : ∀ i j, i < U.m_m → j < U.m_n →
        M.Read i j = some ((map_find O (i, j) U.m_mat_uncomp).getD 0) :=
      fun i j hi hj => ((config_view U hok M hM).2.2 i j hi hj).2
    have hcells : (∑ i in Finset.range U.m_m, ∑ j in Finset.range U.m_n,
          |(M.Read i j).getD 0| ^ 2)
        = ∑ i in Finset.range U.m_m, ∑ j in Finset.range U.m_n,
          (((map_find O (i, j) U.m_mat_uncomp).getD 0).natAbs : Int) ^ 2 := by
      apply Finset.sum_congr rfl
      intro i hi
      apply Finset.sum_congr rfl
      intro j hj
      rw [hread i j (Finset.mem_range.1 hi) (Finset.mem_range.1 hj), Option.getD_some,
        Int.abs_eq_natAbs]
    refine ⟨fun i j hi hj => ⟨_, hread i j hi hj⟩, fun hrep => ?_⟩
    rw [hcells] at hrep ⊢
    have hres := norm_Frobenius_res_spec U hok M hM hrep
    have hsum := sum_squares_cells O U.m_mat_uncomp hok.2.1 U.m_m U.m_n hok.2.2.1
    refine ⟨hres, fun hc => ?_, fun hc => ?_⟩
    · rcases hM with rfl | rfl
      · rw [hok.1] at hc; cases hc
      · rw [hres, ← hsum, compress_eq U hok]
        simp only [compressed_of, List.map_map, Int.abs_eq_natAbs]
        rfl
    · rcases hM with rfl | rfl
      · rw [hres, ← hsum]
        simp only [Int.abs_eq_natAbs]
      · rw [compress_eq U hok] at hc
        simp [compressed_of] at hc
  · intro O1
    cases O1
    · exact ⟨⟨2, 2, 2, false, [((0, 1), 2), ((1, 0), 3)], [], [], []⟩, by decide, by decide,
        by decide⟩
    · exact ⟨⟨2, 2, 2, false, [((1, 0), 3), ((0, 1), 2)], [], [], []⟩, by decide, by decide,
        by decide⟩

/-- Witness of C27: the column-wise 2 x 3 matrix [[0,2,0],[3,0,-4]], compressed; the sum
of squares is 29. -/
theorem C27_witness :
    ∃ U : Matrix StorageOrder.ColumnWise,
      (construct StorageOrder.ColumnWise 2 3 false).Writes [(0, 1, 2), (1, 0, 3), (1, 2, -4)]
        = some U ∧
      (∑ i in Finset.range 2, ∑ j in Finset.range 3, |(U.compress.Read i j).getD 0| ^ 2)
        ≤ 2 ^ 53 ∧
      U.compress.norm_Frobenius_res
        = ∑ i in Finset.range 2, ∑ j in Finset.range 3,
            |(U.compress.Read i j).getD 0| ^ 2 ∧
      U.compress.norm_Frobenius_res = 29 := by
  obtain ⟨⟨U, h1, h2⟩, _⟩ := C27_frobenius_norm_exact_range StorageOrder.ColumnWise 2 3
    [(0, 1, 2), (1, 0, 3), (1, 2, -4)] (by decide)
  have hU : U = ⟨2, 3, 3, false, [((1, 0), 3), ((0, 1), 2), ((1, 2), -4)], [], [], []⟩ :=
    Option.some.inj (h1.symm.trans (by decide))
  have hrep : (∑ i in Finset.range 2, ∑ j in Finset.range 3,
      |(U.compress.Read i j).getD 0| ^ 2) ≤ 2 ^ 53 := by
    rw [hU]; decide
  exact ⟨U, h1, hrep, ((h2 U.compress (Or.inr rfl)).2 hrep).1, by rw [hU]; decide⟩

end Matrix


/-! ## The scanning loop of the cross-orientation compressed extraction -/

namespace Matrix

variable {O : StorageOrder}

/-- In the compressed form the search of the scanning loop never returns `m_inner.cbegin()`:
the first offset is zero. -/
theorem find_if_from_inner_pos (O : StorageOrder) (m n nnz : Nat) (L : MatrixUncompressed)
    (k cp : Nat) :
    0 < find_if_from (fun elem => decide (elem > k)) (compressed_of O m n nnz L).m_inner cp := by
  unfold find_if_from
  by_cases hcp : cp ≤ (compressed_of O m n nnz L).m_inner.length
  · rw [if_pos hcp]
    cases cp with
    | zero => simp [compressed_of, find_if_pos]
    | succ cp => omega
  · rw [if_neg hcp]
    simp [compressed_of]

/-- The scanning loop on the compressed form, with fuel for the positions left in the index
array: it returns; the values are the values pushed so far followed by the values of the
entries from position `k` on whose index is `idx`, and as many indices are pushed. -/
theorem scan_loop_spec (O : StorageOrder) (m n nnz : Nat) (L : MatrixUncompressed)
    (idx N : Nat) :
    ∀ (fuel k cp : Nat) (idxs : List Nat) (vals : List Int),
      N = vals.length
        + ((L.drop k).filter (fun p => decide (minor O p.1 = idx))).length →
      L.length ≤ k + fuel →
      ∃ c : List Nat,
        scan_loop (compressed_of O m n nnz L) idx N fuel k cp idxs vals
          = some (idxs ++ c, vals ++ ((L.drop k).filter
              (fun p => decide (minor O p.1 = idx))).map (fun p => p.2)) ∧
        c.length = ((L.drop k).filter (fun p => decide (minor O p.1 = idx))).length := by
  intro fuel
  induction fuel with
  | zero =>
    intro k cp idxs vals hN hk
    have hd : L.drop k = [] := List.drop_eq_nil_of_le (by omega)
    rw [hd] at hN ⊢
    simp only [List.filter_nil, List.length_nil, Nat.add_zero] at hN
    refine ⟨[], ?_, rfl⟩
    unfold scan_loop
    rw [if_neg (by omega)]
    simp
  | succ fuel ih =>
    intro k cp idxs vals hN hk
    unfold scan_loop
    by_cases hlt : vals.length < N
    · rw [if_pos hlt]
      have hklt : k < L.length := by
        by_contra hge
        rw [List.drop_eq_nil_of_le (by omega)] at hN
        simp only [List.filter_nil, List.length_nil, Nat.add_zero] at hN
        omega
      have hdrop : L.drop k = L[k] :: L.drop (k + 1) := List.drop_eq_getElem_cons hklt
      have houter : (compressed_of O m n nnz L).m_outer[k]? = some (minor O L[k].1) := by
        simp [compressed_of, List.getElem?_eq_getElem hklt]
      have hval : (compressed_of O m n nnz L).m_val_comp[k]? = some L[k].2 := by
        simp [compressed_of, List.getElem?_eq_getElem hklt]
      rw [houter, hval]
      simp only
      by_cases ho : minor O L[k].1 = idx
      · rw [if_pos ho, if_pos (find_if_from_inner_pos O m n nnz L k cp)]
        rw [hdrop, List.filter_cons_of_pos (by simpa using ho)] at hN ⊢
        simp only [List.length_cons] at hN
        obtain ⟨c, h1, h2⟩ := ih (k + 1)
          (cp + (find_if_from (fun elem => decide (elem > k))
            (compressed_of O m n nnz L).m_inner cp - 1))
          (idxs ++ [find_if_from (fun elem => decide (elem > k))
            (compressed_of O m n nnz L).m_inner cp - 1])
          (vals ++ [L[k].2])
          (by simp only [List.length_append, List.length_singleton]; omega) (by omega)
        refine ⟨(find_if_from (fun elem => decide (elem > k))
            (compressed_of O m n nnz L).m_inner cp - 1) :: c, ?_, by simp [h2]⟩
        rw [h1]
        simp
      · rw [if_neg ho]
        rw [hdrop, List.filter_cons_of_neg (by simpa using ho)] at hN ⊢
        exact ih (k + 1) cp idxs vals hN (by omega)
    · rw [if_neg hlt]
      have h0 : (L.drop k).filter (fun p => decide (minor O p.1 = idx)) = [] :=
        List.length_eq_zero.1 (by omega)
      rw [h0]
      exact ⟨[], by simp, rfl⟩

theorem count_map_eq {α : Type} (f : α → Nat) (idx : Nat) (L : List α) :
    (L.map f).count idx = (L.filter (fun p => decide (f p = idx))).length := by
  induction L with
  | nil => rfl
  | cons p L ih =>
    rw [List.map_cons, List.count_cons, ih]
    by_cases hp : f p = idx
    · rw [List.filter_cons_of_pos (by simpa using hp)]
      simp [hp]
    · rw [List.filter_cons_of_neg (by simpa using hp)]
      simp [hp]

theorem count_outer_eq (O : StorageOrder) (m n nnz : Nat) (L : MatrixUncompressed)
    (idx : Nat) :
    (compressed_of O m n nnz L).m_outer.count idx
      = (L.filter (fun p => decide (minor O p.1 = idx))).length :=
  count_map_eq (fun p : key_type × Int => minor O p.1) idx L

/-- The scanning loop ends on its own before it leaves the index array: once the fuel covers
the positions left in the index array, more fuel changes nothing. -/
theorem scan_loop_fuel (M : Matrix O) (idx N : Nat) :
    ∀ (fuel k cp : Nat) (idxs : List Nat) (vals : List Int),
      M.m_outer.length ≤ k + fuel →
      scan_loop M idx N (fuel + 1) k cp idxs vals = scan_loop M idx N fuel k cp idxs vals := by
  intro fuel
  induction fuel with
  | zero =>
    intro k cp idxs vals hk
    have hnone : M.m_outer[k]? = none := List.getElem?_eq_none (by omega)
    simp only [scan_loop, hnone]
  | succ fuel ih =>
    intro k cp idxs vals hk
    rw [scan_loop]
    conv_rhs => rw [scan_loop]
    by_cases hlt : vals.length < N
    · rw [if_pos hlt, if_pos hlt]
      cases M.m_outer[k]? with
      | none => rfl
      | some o =>
        simp only
        by_cases ho : o = idx
        · rw [if_pos ho, if_pos ho]
          cases M.m_val_comp[k]? with
          | none => rfl
          | some v =>
            simp only
            by_cases hptr : 0 < find_if_from (fun elem => decide (elem > k)) M.m_inner cp
            · rw [if_pos hptr, if_pos hptr]
              exact ih _ _ _ _ (by omega)
            · rw [if_neg hptr, if_neg hptr]
        · rw [if_neg ho, if_neg ho]
          exact ih _ _ _ _ (by omega)
    · rw [if_neg hlt, if_neg hlt]

theorem scan_loop_fuel_add (M : Matrix O) (idx N : Nat) (extra : Nat) :
    scan_loop M idx N (M.m_outer.length + extra) 0 0 [] []
      = scan_loop M idx N M.m_outer.length 0 0 [] [] := by
  induction extra with
  | zero => rfl
  | succ e ih =>
    rw [← ih]
    exact scan_loop_fuel M idx N (M.m_outer.length + e) 0 0 [] [] (by omega)

/-- The cross-orientation compressed extraction on the compressed form: it returns, as many
indices as values; the values are the values of the entries of the map holding `idx` as
their other key component, in the order of the map, as many as `idx` occurs in the index
array; and the loop has returned that result once it has read `m_outer.size()` positions. -/
theorem scan_compressed_spec (O : StorageOrder) (m n nnz : Nat) (L : MatrixUncompressed)
    (idx : Nat) :
    ∃ c : List Nat,
      (compressed_of O m n nnz L).scan_compressed idx
        = some (c, (L.filter (fun p => decide (minor O p.1 = idx))).map (fun p => p.2)) ∧
      c.length = ((L.filter (fun p => decide (minor O p.1 = idx))).map (fun p => p.2)).length ∧
      (compressed_of O m n nnz L).m_outer.count idx
        = ((L.filter (fun p => decide (minor O p.1 = idx))).map (fun p => p.2)).length ∧
      ∀ fuel, (compressed_of O m n nnz L).m_outer.length ≤ fuel →
        scan_loop (compressed_of O m n nnz L) idx
          ((compressed_of O m n nnz L).m_outer.count idx) fuel 0 0 [] []
          = some (c, (L.filter (fun p => decide (minor O p.1 = idx))).map (fun p => p.2)) := by
  have hlen : (compressed_of O m n nnz L).m_outer.length = L.length := by
    simp [compressed_of]
  obtain ⟨c, h1, h2⟩ := scan_loop_spec O m n nnz L idx
    ((compressed_of O m n nnz L).m_outer.count idx) L.length 0 0 [] []
    (by rw [count_outer_eq]; simp) (by omega)
  simp only [List.drop_zero, List.nil_append] at h1 h2
  have hfuel : ∀ fuel, (compressed_of O m n nnz L).m_outer.length ≤ fuel →
      scan_loop (compressed_of O m n nnz L) idx
        ((compressed_of O m n nnz L).m_outer.count idx) fuel 0 0 [] []
        = some (c, (L.filter (fun p => decide (minor O p.1 = idx))).map (fun p => p.2)) := by
    intro fuel hf
    obtain ⟨e, rfl⟩ : ∃ e, fuel = (compressed_of O m n nnz L).m_outer.length + e :=
      ⟨fuel - (compressed_of O m n nnz L).m_outer.length, by omega⟩
    rw [scan_loop_fuel_add, hlen]
    exact h1
  refine ⟨c, ?_, by rw [h2, List.length_map], by rw [count_outer_eq, List.length_map], hfuel⟩
  exact hfuel _ (by omega)

theorem get_row_cross_compressed (M : Matrix StorageOrder.ColumnWise)
    (hc : M.m_compressed = true) (idx : Nat) : M.get_row idx = M.scan_compressed idx := by
  simp [get_row, hc]

theorem get_col_cross_compressed (M : Matrix StorageOrder.RowWise)
    (hc : M.m_compressed = true) (idx : Nat) : M.get_col idx = M.scan_compressed idx := by
  simp [get_col, hc]

/-- The row extraction of a compressed column-wise matrix returns, for every index, the
values of the row in the map before `compress()`, in the order of the map, with as many
indices. -/
theorem get_row_cross_spec (U : Matrix StorageOrder.ColumnWise) (hU : U.uncompressed_ok)
    (idx : Nat) :
    ∃ c : List Nat,
      U.compress.get_row idx = some (c,
        (line_block StorageOrder.RowWise U.m_mat_uncomp idx).map (fun p => p.2)) ∧
      c.length = (line_block StorageOrder.RowWise U.m_mat_uncomp idx).length := by
  obtain ⟨c, h1, h2, -, -⟩ :=
    scan_compressed_spec StorageOrder.ColumnWise U.m_m U.m_n U.m_nnz U.m_mat_uncomp idx
  refine ⟨c, ?_, by rw [h2, List.length_map]; rfl⟩
  rw [compress_eq U hU, get_row_cross_compressed _ rfl, h1]
  rfl

/-- The column extraction of a compressed row-wise matrix returns, for every index, the
values of the column in the map before `compress()`, in the order of the map, with as many
indices. -/
theorem get_col_cross_spec (U : Matrix StorageOrder.RowWise) (hU : U.uncompressed_ok)
    (idx : Nat) :
    ∃ c : List Nat,
      U.compress.get_col idx = some (c,
        (line_block StorageOrder.ColumnWise U.m_mat_uncomp idx).map (fun p => p.2)) ∧
      c.length = (line_block StorageOrder.ColumnWise U.m_mat_uncomp idx).length := by
  obtain ⟨c, h1, h2, -, -⟩ :=
    scan_compressed_spec StorageOrder.RowWise U.m_m U.m_n U.m_nnz U.m_mat_uncomp idx
  refine ⟨c, ?_, by rw [h2, List.length_map]; rfl⟩
  rw [compress_eq U hU, get_col_cross_compressed _ rfl, h1]
  rfl

end Matrix

/-! ## Claims on the cross-orientation compressed extraction -/

namespace Matrix

/-- C37. Cross orientation in compressed mode, on the matrix obtained by `compress()` from
a matrix built by in-bounds write accesses (`get_row` on a column-wise matrix, `get_col` on
a row-wise one), for every index.  The extraction returns.  The scanning loop has returned
that result once it has made `m_outer.size()` iterations, each reading one position of the
index array (more iterations allowed change nothing).  The values returned are as many as
`idx` occurs in the index array, and they are the values of the stored elements of the line
in ascending order of their other coordinate: the values the extraction returns before
`compress()`. -/
theorem C37_cross_compressed_scan (m n : Nat) (ws : List (Nat × Nat × Int))
    (hb : ∀ w ∈ ws, w.1 < m ∧ w.2.1 < n) :
    (∃ U : Matrix StorageOrder.ColumnWise,
      (construct StorageOrder.ColumnWise m n false).Writes ws = some U ∧
      ∀ idx : Nat, ∃ (c : List Nat) (vals : List Int),
        U.compress.get_row idx = some (c, vals) ∧
        (∀ fuel, U.compress.m_outer.length ≤ fuel →
          scan_loop U.compress idx (U.compress.m_outer.count idx) fuel 0 0 [] []
            = some (c, vals)) ∧
        vals.length = U.compress.m_outer.count idx ∧
        vals = (U.m_mat_uncomp.filter (fun p => decide (p.1.1 = idx))).map (fun p => p.2) ∧
        ((U.m_mat_uncomp.filter (fun p => decide (p.1.1 = idx))).map
          (fun p => p.1.2)).Pairwise (fun x y => x < y) ∧
        ∃ c0, U.get_row idx = some (c0, vals)) ∧
    (∃ U : Matrix StorageOrder.RowWise,
      (construct StorageOrder.RowWise m n false).Writes ws = some U ∧
      ∀ idx : Nat, ∃ (c : List Nat) (vals : List Int),
        U.compress.get_col idx = some (c, vals) ∧
        (∀ fuel, U.compress.m_outer.length ≤ fuel →
          scan_loop U.compress idx (U.compress.m_outer.count idx) fuel 0 0 [] []
            = some (c, vals)) ∧
        vals.length = U.compress.m_outer.count idx ∧
        vals = (U.m_mat_uncomp.filter (fun p => decide (p.1.2 = idx))).map (fun p => p.2) ∧
        ((U.m_mat_uncomp.filter (fun p => decide (p.1.2 = idx))).map
          (fun p => p.1.1)).Pairwise (fun x y => x < y) ∧
        ∃ c0, U.get_col idx = some (c0, vals)) := by
  constructor
  · obtain ⟨U, hU, hok, -, -, -⟩ := Writes_built StorageOrder.ColumnWise m n ws hb
    refine ⟨U, hU, fun idx => ?_⟩
    obtain ⟨c, h1, -, h3, h4⟩ :=
      scan_compressed_spec StorageOrder.ColumnWise U.m_m U.m_n U.m_nnz U.m_mat_uncomp idx
    rw [compress_eq U hok]
    refine ⟨c, _, ?_, h4, h3.symm, rfl, ?_, _, get_row_uncompressed U hok idx⟩
    · rw [get_row_cross_compressed _ rfl, h1]
    · exact List.pairwise_map.2 (line_block_cross_sorted StorageOrder.ColumnWise
        StorageOrder.RowWise U.m_mat_uncomp hok.2.1 idx)
  · obtain ⟨U, hU, hok, -, -, -⟩ := Writes_built StorageOrder.RowWise m n ws hb
    refine ⟨U, hU, fun idx => ?_⟩
    obtain ⟨c, h1, -, h3, h4⟩ :=
      scan_compressed_spec StorageOrder.RowWise U.m_m U.m_n U.m_nnz U.m_mat_uncomp idx
    rw [compress_eq U hok]
    refine ⟨c, _, ?_, h4, h3.symm, rfl, ?_, _, get_col_uncompressed U hok idx⟩
    · rw [get_col_cross_compressed _ rfl, h1]
    · exact List.pairwise_map.2 (line_block_cross_sorted StorageOrder.RowWise
        StorageOrder.ColumnWise U.m_mat_uncomp hok.2.1 idx)

/-- Witness of C37: the 1 x 6 matrix with entries 7, 8, 9, 10 in columns 2, 3, 4, 5 of row 0,
column-wise and compressed: the extraction of row 0 returns the four values in the order of
the columns (with the indices 2, 3, 4, 6), and the loop has returned them with four
iterations allowed. -/
theorem C37_witness :
    ∃ U : Matrix StorageOrder.ColumnWise,
      (construct StorageOrder.ColumnWise 1 6 false).Writes
        [(0, 2, 7), (0, 3, 8), (0, 4, 9), (0, 5, 10)] = some U ∧
      U.compress.m_outer = [0, 0, 0, 0] ∧ U.compress.m_inner = [0, 0, 0, 1, 2, 3, 4] ∧
      U.compress.get_row 0 = some ([2, 3, 4, 6], [7, 8, 9, 10]) ∧
      scan_loop U.compress 0 (U.compress.m_outer.count 0) 4 0 0 [] []
        = some ([2, 3, 4, 6], [7, 8, 9, 10]) := by
  obtain ⟨⟨U, h1, h2⟩, -⟩ := C37_cross_compressed_scan 1 6
    [(0, 2, 7), (0, 3, 8), (0, 4, 9), (0, 5, 10)] (by decide)
  have hU : U = ⟨1, 6, 4, false, [((0, 2), 7), ((0, 3), 8), ((0, 4), 9), ((0, 5), 10)],
      [], [], []⟩ := Option.some.inj (h1.symm.trans (by decide))
  obtain ⟨c, vals, h3, h4, -, -, -, -⟩ := h2 0
  have ho : U.compress.m_outer = [0, 0, 0, 0] := by rw [hU]; decide
  have hg : U.compress.get_row 0 = some ([2, 3, 4, 6], [7, 8, 9, 10]) := by rw [hU]; decide
  refine ⟨U, h1, ho, by rw [hU]; decide, hg, ?_⟩
  rw [h4 4 (by rw [ho]; decide), ← h3, hg]

end Matrix


/-! ## Extraction of a line and the norms One and Infinity in every configuration -/

namespace Matrix

variable {O : StorageOrder}

/-- Row extraction in every configuration of a matrix built by write accesses (either
storage order, before or after `compress()`): it returns the values of the row in ascending
order of the columns, with as many indices. -/
theorem get_row_values (U : Matrix O) (hU : U.uncompressed_ok) (M : Matrix O)
    (hM : M = U ∨ M = U.compress) (i : Nat) (hi : i < U.m_m) :
    ∃ c : List Nat,
      M.get_row i = some (c,
        (line_block StorageOrder.RowWise U.m_mat_uncomp i).map (fun p => p.2)) ∧
      c.length = (line_block StorageOrder.RowWise U.m_mat_uncomp i).length := by
  rcases hM with rfl | rfl
  · exact ⟨_, get_row_uncompressed M hU i, by simp⟩
  · cases O with
    | RowWise => exact ⟨_, get_row_native U hU U.compress (Or.inr rfl) i hi, by simp⟩
    | ColumnWise => exact get_row_cross_spec U hU i

/-- Column extraction in every configuration of a matrix built by write accesses (either
storage order, before or after `compress()`): it returns the values of the column in
ascending order of the rows, with as many indices. -/
theorem get_col_values (U : Matrix O) (hU : U.uncompressed_ok) (M : Matrix O)
    (hM : M = U ∨ M = U.compress) (j : Nat) (hj : j < U.m_n) :
    ∃ c : List Nat,
      M.get_col j = some (c,
        (line_block StorageOrder.ColumnWise U.m_mat_uncomp j).map (fun p => p.2)) ∧
      c.length = (line_block StorageOrder.ColumnWise U.m_mat_uncomp j).length := by
  rcases hM with rfl | rfl
  · exact ⟨_, get_col_uncompressed M hU j, by simp⟩
  · cases O with
    | ColumnWise => exact ⟨_, get_col_native U hU U.compress (Or.inr rfl) j hj, by simp⟩
    | RowWise => exact get_col_cross_spec U hU j

end Matrix

/-! ## Claims on the norms One and Infinity -/

namespace Matrix

end Matrix


/-! ## The products in every configuration -/

/-- Whatever the two ranges, every element written by the intersection loop occurs in
both. -/
theorem set_intersection_loop_mem :
    ∀ (fuel : Nat) (r1 r2 : List Nat) (el : Nat),
      el ∈ Matrix.set_intersection_loop fuel r1 r2 → el ∈ r1 ∧ el ∈ r2 := by
  intro fuel
  induction fuel with
  | zero => intro r1 r2 el h; simp [Matrix.set_intersection_loop] at h
  | succ fuel ih =>
    intro r1 r2 el h
    cases r1 with
    | nil => simp [Matrix.set_intersection_loop] at h
    | cons a as =>
      cases r2 with
      | nil => simp [Matrix.set_intersection_loop] at h
      | cons b bs =>
        simp only [Matrix.set_intersection_loop] at h
        by_cases hab : a < b
        · rw [if_pos hab] at h
          obtain ⟨h1, h2⟩ := ih as (b :: bs) el h
          exact ⟨List.mem_cons_of_mem _ h1, h2⟩
        · rw [if_neg hab] at h
          by_cases hba : b < a
          · rw [if_pos hba] at h
            obtain ⟨h1, h2⟩ := ih (a :: as) bs el h
            exact ⟨h1, List.mem_cons_of_mem _ h2⟩
          · rw [if_neg hba] at h
            have hab' : a = b := by omega
            rcases List.mem_cons.1 h with h | h
            · subst h
              exact ⟨List.mem_cons_self _ _, by rw [hab']; exact List.mem_cons_self _ _⟩
            · obtain ⟨h1, h2⟩ := ih as bs el h
              exact ⟨List.mem_cons_of_mem _ h1, List.mem_cons_of_mem _ h2⟩

/-- The inner product over the common indices returns when each of the two lines has as
many indices as values. -/
theorem inner_product_total (row_i col_j : List Nat × List Int)
    (hr : row_i.1.length = row_i.2.length) (hc : col_j.1.length = col_j.2.length) :
    ∃ r, Matrix.inner_product (Matrix.set_intersection row_i.1 col_j.1) row_i col_j
      = some r := by
  have hmem : ∀ el ∈ Matrix.set_intersection row_i.1 col_j.1, el ∈ row_i.1 ∧ el ∈ col_j.1 :=
    fun el h => set_intersection_loop_mem _ _ _ el h
  generalize Matrix.set_intersection row_i.1 col_j.1 = idx at hmem
  unfold Matrix.inner_product
  generalize (0 : Int) = acc
  induction idx generalizing acc with
  | nil => exact ⟨acc, rfl⟩
  | cons el idx ih =>
    obtain ⟨h1, h2⟩ := hmem el (List.mem_cons_self _ _)
    have hp1 : find_pos el row_i.1 < row_i.2.length := by
      have := find_if_pos_le_length (fun y => decide (y = el)) row_i.1
      have := (find_pos_ne_length_iff el row_i.1).2 h1
      unfold find_pos at *
      omega
    have hp2 : find_pos el col_j.1 < col_j.2.length := by
      have := find_if_pos_le_length (fun y => decide (y = el)) col_j.1
      have := (find_pos_ne_length_iff el col_j.1).2 h2
      unfold find_pos at *
      omega
    rw [List.foldlM_cons, List.getElem?_eq_getElem hp1, List.getElem?_eq_getElem hp2]
    exact ih (fun e he => hmem e (List.mem_cons_of_mem _ he)) _

namespace Matrix

variable {O : StorageOrder}

/-- An in-bounds write access on a well-formed uncompressed matrix returns, and leaves a
well-formed uncompressed matrix of the same extents. -/
theorem Write_total (res : Matrix O) (h : res.uncompressed_ok) (i j : Nat) (v : Int)
    (hi : i < res.m_m) (hj : j < res.m_n) :
    ∃ res1, (res.Write i j v).map (fun w => w.2) = some res1 ∧ res1.uncompressed_ok ∧
      res1.m_m = res.m_m ∧ res1.m_n = res.m_n := by
  have hw := Write_uncompressed res h.1 h.2.1 i j v hi hj
  obtain ⟨h1, h2, h3⟩ := Write_ok res h i j v _ hw
  exact ⟨_, by rw [hw]; rfl, h1, h2, h3⟩

/-- The matrix-matrix product of two matrices built by write accesses, each before or after
its `compress()`, of any storage orders: when the number of columns of the left operand is
the number of rows of the right operand, the product returns a well-formed uncompressed
matrix of the extents of the product. -/
theorem operator_mul_matrix_total {O1 : StorageOrder} (U : Matrix O)
    (hU : U.uncompressed_ok) (M : Matrix O) (hM : M = U ∨ M = U.compress) (V : Matrix O1)
    (hV : V.uncompressed_ok) (N : Matrix O1) (hN : N = V ∨ N = V.compress)
    (hd : U.m_n = V.m_m) :
    ∃ R, M.operator_mul_matrix N = some R ∧ R.uncompressed_ok ∧ R.m_m = U.m_m ∧
      R.m_n = V.m_n := by
  obtain ⟨hMm, hMn⟩ := compress_dims U hU M hM
  obtain ⟨hNm, hNn⟩ := compress_dims V hV N hN
  by_cases hp : V.m_n = 1
  · obtain ⟨c0, hc0, -⟩ := get_col_values V hV N hN 0 (by omega)
    obtain ⟨R, hR, hcol⟩ := operator_mul_matrix_column U hU M hM N ⟨_, hc0⟩
      (by rw [hNm, hd]) (by rw [hNn, hp])
      (fun k => (map_find O1 (k, 0) V.m_mat_uncomp).getD 0)
      (fun k hk => ((config_view V hV N hN).2.2 k 0 (by omega) (by omega)).2)
    exact ⟨R, hR, hcol.1, hcol.2.1, by rw [hcol.2.2.1, hp]⟩
  · unfold operator_mul_matrix
    rw [if_pos (by rw [hMn, hNm, hd])]
    simp only [hNn, hp, decide_False, Bool.false_eq_true, if_false, hMm]
    refine foldlM_range_invariant _
      (fun _ (res : Matrix O) => res.uncompressed_ok ∧ res.m_m = U.m_m ∧ res.m_n = V.m_n)
      V.m_n ?_ V.m_n (le_refl _) (construct O U.m_m V.m_n false)
      ⟨construct_ok O _ _, rfl, rfl⟩
    intro j res hj hres
    obtain ⟨c, hc, hclen⟩ := get_col_values V hV N hN j hj
    rw [hc]
    simp only
    refine foldlM_range_invariant _
      (fun _ (r : Matrix O) => r.uncompressed_ok ∧ r.m_m = U.m_m ∧ r.m_n = V.m_n)
      U.m_m ?_ U.m_m (le_refl _) res hres
    intro i r hi hr
    obtain ⟨c1, hc1, hc1len⟩ := get_row_values U hU M hM i hi
    rw [hc1]
    simp only
    split
    · obtain ⟨x, hx⟩ := inner_product_total
        (c1, (line_block StorageOrder.RowWise U.m_mat_uncomp i).map (fun p => p.2))
        (c, (line_block StorageOrder.ColumnWise V.m_mat_uncomp j).map (fun p => p.2))
        (by simp [hc1len]) (by simp [hclen])
      simp only at hx
      rw [hx]
      simp only
      obtain ⟨r1, hw, hok1, hm1, hn1⟩ := Write_total r hr.1 i j x (by rw [hr.2.1]; exact hi)
        (by rw [hr.2.2]; exact hj)
      exact ⟨r1, hw, hok1, by rw [hm1, hr.2.1], by rw [hn1, hr.2.2]⟩
    · exact ⟨r, rfl, hr⟩

end Matrix

/-! ## Claims on the failures of the products -/

namespace Matrix

/-- C23. For matrices built by in-bounds write accesses, each before or after its
`compress()`, in any storage orders: the matrix-vector product fails (returns no result)
exactly when the length of the vector differs from the number of columns of the matrix, and
the matrix-matrix product fails exactly when the number of columns of the left operand
differs from the number of rows of the right operand. -/
theorem C23_product_failures (O O1 : StorageOrder) (m n k p : Nat)
    (ws1 ws2 : List (Nat × Nat × Int))
    (hb1 : ∀ w ∈ ws1, w.1 < m ∧ w.2.1 < n) (hb2 : ∀ w ∈ ws2, w.1 < k ∧ w.2.1 < p) :
    ∃ (U : Matrix O) (V : Matrix O1),
      (construct O m n false).Writes ws1 = some U ∧
      (construct O1 k p false).Writes ws2 = some V ∧
      ∀ M : Matrix O, (M = U ∨ M = U.compress) →
        M.m_n = n ∧
        (∀ v : List Int, M.operator_mul_vector v = none ↔ v.length ≠ n) ∧
        ∀ N : Matrix O1, (N = V ∨ N = V.compress) →
          N.m_m = k ∧ (M.operator_mul_matrix N = none ↔ n ≠ k) := by
  obtain ⟨U, hU, hUok, -, hUn, -⟩ := Writes_built O m n ws1 hb1
  obtain ⟨V, hV, hVok, hVm, -, -⟩ := Writes_built O1 k p ws2 hb2
  refine ⟨U, V, hU, hV, fun M hM => ?_⟩
  have hMn := (compress_dims U hUok M hM).2
  refine ⟨by rw [hMn, hUn], fun v => ⟨fun h hv => ?_, fun h => ?_⟩, fun N hN => ?_⟩
  · obtain ⟨res, hres, -⟩ := operator_mul_vector_spec U hUok M hM v (by rw [hv, hUn])
    rw [h] at hres; cases hres
  · exact operator_mul_vector_mismatch M v (by rw [hMn, hUn]; exact h)
  · have hNm := (compress_dims V hVok N hN).1
    refine ⟨by rw [hNm, hVm], fun h hnk => ?_, fun h => ?_⟩
    · obtain ⟨R, hR, -⟩ := operator_mul_matrix_total U hUok M hM V hVok N hN
        (by rw [hUn, hVm, hnk])
      rw [h] at hR; cases hR
    · exact operator_mul_matrix_mismatch M N (by rw [hMn, hUn, hNm, hVm]; exact h)

/-- Witness of C23: the column-wise 1 x 6 matrix with entries in columns 2, 3, 4, 5,
compressed, and a column-wise 6 x 2 matrix holding 1 at (5, 0): their product returns (the
empty 1 x 2 matrix), the product of the first by a vector of length 6 returns, and its
product by a vector of length 3 fails. -/
theorem C23_witness :
    ∃ (U V : Matrix StorageOrder.ColumnWise),
      (construct StorageOrder.ColumnWise 1 6 false).Writes
        [(0, 2, 1), (0, 3, 1), (0, 4, 1), (0, 5, 1)] = some U ∧
      (construct StorageOrder.ColumnWise 6 2 false).Writes [(5, 0, 1)] = some V ∧
      U.compress.operator_mul_matrix V ≠ none ∧
      U.compress.operator_mul_matrix V.compress ≠ none ∧
      U.compress.operator_mul_matrix V = some ⟨1, 2, 0, false, [], [], [], []⟩ ∧
      U.compress.operator_mul_vector [1, 1, 1, 1, 1, 1] ≠ none ∧
      U.compress.operator_mul_vector [1, 1, 1] = none := by
  obtain ⟨U, V, h1, h2, h3⟩ := C23_product_failures StorageOrder.ColumnWise
    StorageOrder.ColumnWise 1 6 6 2 [(0, 2, 1), (0, 3, 1), (0, 4, 1), (0, 5, 1)] [(5, 0, 1)]
    (by decide) (by decide)
  have hU : U = ⟨1, 6, 4, false, [((0, 2), 1), ((0, 3), 1), ((0, 4), 1), ((0, 5), 1)],
      [], [], []⟩ := Option.some.inj (h1.symm.trans (by decide))
  have hV : V = ⟨6, 2, 1, false, [((5, 0), 1)], [], [], []⟩ :=
    Option.some.inj (h2.symm.trans (by decide))
  obtain ⟨-, hv, hN⟩ := h3 U.compress (Or.inr rfl)
  exact ⟨U, V, h1, h2, fun h => ((hN V (Or.inl rfl)).2.1 h) rfl,
    fun h => ((hN V.compress (Or.inr rfl)).2.1 h) rfl, by rw [hU, hV]; decide,
    fun h => ((hv [1, 1, 1, 1, 1, 1]).1 h) rfl, (hv [1, 1, 1]).2 (by decide)⟩

end Matrix

end algebra
